import Mathlib

/-!
# vinaSH: grid cache (`cache.cpp`) and direct evaluator (`non_cache.cpp`)

A shallow embedding of the two translation units `src/lib/cache.cpp` and
`src/lib/non_cache.cpp`, and theorems about them.

Conventions of the embedding.

* `fl` (a C++ `double`) is an arbitrary linearly ordered commutative ring `F`: the
  arithmetic is exact.  Concrete evaluations are carried out at `F = ℤ`.
* `sz` (a `size_t` used as an index or a type id) is `Nat`; no arithmetic that could
  wrap is performed on it in the two files.
* A `std::vector` indexed by the code is a function from `Nat`; a `vec` and a
  `grid_dims` are functions from `Fin 3`.
* A failed `assert` makes the function return `none`; so does, in `non_cache.eval` and
  `non_cache.eval_deriv`, the read of a local variable that was never assigned (`theta` in
  `non_cache.cpp`).  The code goes on there with the value that the storage of the local
  holds: `non_cache.eval_stale` and `non_cache.eval_deriv_stale` take that value as a
  parameter, and return what `non_cache.eval` and `non_cache.eval_deriv` return wherever
  these return.
* Everything the two files use but that is declared in headers outside the sources is a
  field of the record `decls`, or is a small definition whose doc comment says so.
-/

set_option linter.unusedVariables false
set_option linter.unusedSectionVars false

/-! ## Data model -/

/-- A `vec`: three coordinates. -/
abbrev vec (F : Type) := Fin 3 → F

/-- One axis of a `grid_dims`: `begin`, `end` and `n`. -/
structure grid_dim (F : Type) where
  begin : F
  end_ : F
  n : Nat

/-- The `grid_dims` of a box: one `grid_dim` per axis. -/
abbrev grid_dims (F : Type) := Fin 3 → grid_dim F

/-- An `atom_index`: a position `i` in the movable atoms or, when `in_grid`, in the grid atoms. -/
structure atom_index where
  i : Nat
  in_grid : Bool

/-- A `bond`, of which the code reads `connected_atom_index` only. -/
structure bond where
  connected_atom_index : atom_index

/-- An `atom`, with the members the two files read: the type codes `el`, `ad`, `xs`, the
coordinates and the bonds. -/
structure atom (F : Type) where
  el : Nat
  ad : Nat
  xs : Nat
  coords : vec F
  bonds : List bond

/-- The `model`, with the members the two files use. -/
structure model (F : Type) where
  num_movable_atoms : Nat
  atoms : Nat → atom F
  coords : Nat → vec F
  minus_forces : Nat → vec F
  grid_atoms : Nat → atom F
  get_atom : atom_index → atom F

/-- The assignment `m.minus_forces[i] = f`. -/
def model.set_minus_forces {F : Type} (m : model F) (i : Nat) (f : vec F) : model F :=
  { m with minus_forces := Function.update m.minus_forces i f }

/-- The pairwise potential table `precalculate`, with the members the two files call. -/
structure precalculate (F : Type) where
  cutoff_sqr : F
  atom_typing_used : Nat
  eval_fast : Nat → F → F → F
  eval_deriv : Nat → F → F → F × F

/-- The spatial index `szv_grid`, of which the code calls `possibilities` only. -/
structure szv_grid (F : Type) where
  possibilities : vec F → List Nat

/-- Modelled from the spec: the Grid (`grid.h` is not among the sources), a dense 3D array
of values over a `grid_dims` for one atom type, which is uninitialized until `init`
allocates it zero-filled.  `m_i`, `m_j`, `m_k` are the extents `m_data.dim0()`,
`m_data.dim1()`, `m_data.dim2()` of the array. -/
structure grid (F : Type) where
  m_initialized : Bool
  m_gd : grid_dims F
  m_i : Nat
  m_j : Nat
  m_k : Nat
  m_data : Nat → Nat → Nat → F

/-- The method `grid::initialized()`. -/
def grid.initialized {F : Type} (g : grid F) : Bool := g.m_initialized

/-- The assignment `g.m_data(x, y, z) = val`. -/
def grid.set {F : Type} (g : grid F) (x y z : Nat) (val : F) : grid F :=
  { g with m_data := fun x1 y1 z1 => if x1 = x ∧ y1 = y ∧ z1 = z then val else g.m_data x1 y1 z1 }

/-- The grid cache: version tag, `grid_dims`, slope, atom typing in use, one grid per type. -/
structure cache (F : Type) where
  scoring_function_version : String
  gd : grid_dims F
  slope : F
  atu : Nat
  grids : Nat → grid F

/-- The direct evaluator `non_cache`. -/
structure non_cache (F : Type) where
  sgrid : szv_grid F
  gd : grid_dims F
  p : precalculate F
  slope : F

/-- Everything the two files use that is declared outside the sources, as parameters:
the atom typing (`num_atom_types`, `atom::get`, `is_hydrogen`, the `xs_*` predicates, the
constants `EL_TYPE_C` and `AD_TYPE_A`), `angle`, the two `curl` overloads, the type-pair
indices, the `szv_grid` constructor with `szv_grid_dims`, the comparison `eq` of two
`grid_dims`, and of the grid: the number of lattice points `init` allocates on an axis,
`index_to_argument` and the two `evaluate` overloads. -/
structure decls (F : Type) where
  num_atom_types : Nat → Nat
  atom_get : atom F → Nat → Nat
  is_hydrogen : atom F → Bool
  xs_is_halogen : Nat → Bool
  xs_is_S : Nat → Bool
  xs_hal_any_bond_possible : Nat → Nat → Bool
  xs_sul_bond_possible : Nat → Nat → Bool
  EL_TYPE_C : Nat
  AD_TYPE_A : Nat
  angle : vec F → vec F → F
  curl : F → F → F
  curl_deriv : F → vec F → F → F × vec F
  triangular_matrix_index_permissive : Nat → Nat → Nat → Nat
  get_type_pair_index : Nat → atom F → atom F → Nat
  szv_grid_dims : grid_dims F → grid_dims F
  szv_grid_ctor : model F → grid_dims F → F → szv_grid F
  eq : grid_dims F → grid_dims F → Bool
  grid_points : grid_dim F → Nat
  index_to_argument : grid_dims F → Nat → Nat → Nat → vec F
  grid_evaluate : grid F → vec F → F → F → F
  grid_evaluate_deriv : grid F → vec F → F → F → F × vec F

section embedding

variable {F : Type} [LinearOrderedCommRing F]

/-- Modelled from the spec: `sqr` of a `vec` (`common.h` is not among the sources), the
squared length. -/
def sqr (v : vec F) : F := v 0 * v 0 + v 1 * v 1 + v 2 * v 2

/-- Modelled from the spec: `vec_distance_sqr` (`common.h` is not among the sources), the
squared distance of two points. -/
def vec_distance_sqr (a b : vec F) : F := sqr (a - b)

/-- Modelled from the spec: `grid::init` (`grid.h` is not among the sources): the grid
becomes initialized, allocated over `gd` and zero-filled. -/
def grid.init (K : decls F) (g : grid F) (gd : grid_dims F) : grid F :=
  { m_initialized := true, m_gd := gd,
    m_i := K.grid_points (gd 0), m_j := K.grid_points (gd 1), m_k := K.grid_points (gd 2),
    m_data := fun _ _ _ => 0 }

/-- A default-constructed grid: not initialized, no lattice point. -/
def grid.empty : grid F :=
  { m_initialized := false, m_gd := fun _ => ⟨0, 0, 0⟩, m_i := 0, m_j := 0, m_k := 0,
    m_data := fun _ _ _ => 0 }

/-- The movable atoms of `m` whose type id under the typing `atu` is below the number of
types of `atu`, in the order of the loops. -/
def in_scheme_movable (K : decls F) (atu : Nat) (m : model F) : List Nat :=
  (List.range m.num_movable_atoms).filter
    (fun i => decide (K.atom_get (m.atoms i) atu < K.num_atom_types atu))

/-- The sum, from zero and in the order of the list, of the per-atom terms `term i`; `none`
when a term is. -/
def sum_terms (term : Nat → Option F) (l : List Nat) : Option F :=
  l.foldlM (fun e i => Option.map (fun r => e + r) (term i)) 0

/-! ## cache.cpp: the constructor, `eval` and `eval_deriv` -/

/-- The constructor `cache::cache`: the grids are default-constructed. -/
def cache.ctor (scoring_function_version : String) (gd : grid_dims F) (slope : F) (atu : Nat) :
    cache F :=
  { scoring_function_version := scoring_function_version, gd := gd, slope := slope, atu := atu,
    grids := fun _ => grid.empty }

/-- What `cache::eval` adds to `e` for an in-scheme movable atom `i`: the value of its grid
at its coordinates; `none` when the assertion fails. -/
def cache.eval_atom (K : decls F) (c : cache F) (m : model F) (v : F) (i : Nat) : Option F :=
  let g := c.grids (K.atom_get (m.atoms i) c.atu)
  if g.initialized then some (K.grid_evaluate g (m.coords i) c.slope v)
  else none

/-- The body of the loop of `cache::eval` for the movable atom `i`, `e` being the energy
so far. -/
def cache.eval_step (K : decls F) (c : cache F) (m : model F) (v : F) (e : F) (i : Nat) :
    Option F :=
  let nat := K.num_atom_types c.atu
  let a := m.atoms i
  let t := K.atom_get a c.atu
  if t ≥ nat then some e
  else
    match cache.eval_atom K c m v i with
    | some r => some (e + r)
    | none => none

/-- The function `cache::eval`. -/
def cache.eval (K : decls F) (c : cache F) (m : model F) (v : F) : Option F :=
  (List.range m.num_movable_atoms).foldlM (cache.eval_step K c m v) 0

/-- What `cache::eval_deriv` computes for an in-scheme movable atom `i`: the value and the
derivative of its grid at its coordinates; `none` when the assertion fails. -/
def cache.eval_deriv_atom (K : decls F) (c : cache F) (m : model F) (v : F) (i : Nat) :
    Option (F × vec F) :=
  let g := c.grids (K.atom_get (m.atoms i) c.atu)
  if g.initialized then some (K.grid_evaluate_deriv g (m.coords i) c.slope v)
  else none

/-- The body of the loop of `cache::eval_deriv` for the movable atom `i`; the state is the
energy so far and the model, whose `minus_forces` the loop writes. -/
def cache.eval_deriv_step (K : decls F) (c : cache F) (v : F) (st : F × model F) (i : Nat) :
    Option (F × model F) :=
  let nat := K.num_atom_types c.atu
  let a := st.2.atoms i
  let t := K.atom_get a c.atu
  if t ≥ nat then some (st.1, st.2.set_minus_forces i 0)
  else
    match cache.eval_deriv_atom K c st.2 v i with
    | some r => some (st.1 + r.1, st.2.set_minus_forces i r.2)
    | none => none

/-- The function `cache::eval_deriv`: the energy and the model with its `minus_forces` set. -/
def cache.eval_deriv (K : decls F) (c : cache F) (m : model F) (v : F) : Option (F × model F) :=
  (List.range m.num_movable_atoms).foldlM (cache.eval_deriv_step K c v) (0, m)

/-! ## cache.cpp: `save` and `load` -/

/-- Modelled from the spec: one value of the serialization archive (the archive classes
are outside the sources): the version string, a `grid_dims`, an atom typing or the vector
of grids. -/
inductive archive_item (F : Type) where
  | str (s : String)
  | dims (gd : grid_dims F)
  | typing (atu : Nat)
  | grid_vector (grids : Nat → grid F)

/-- Modelled from the spec: the serialization archive, the sequence of the values written
to it; `ar & x` appends `x` when saving and reads the next value into `x` when loading. -/
abbrev archive (F : Type) := List (archive_item F)

/-- The exceptions `cache::load` can leave with: its own three, and the archive's when the
next value of the archive is not of the type read. -/
inductive load_error where
  | energy_mismatch
  | grid_dims_mismatch
  | cache_mismatch
  | archive_exception
  deriving DecidableEq, Repr

/-- The function `cache::save`: four values are written, in this order. -/
def cache.save (c : cache F) (ar : archive F) : archive F :=
  ar ++ [archive_item.str c.scoring_function_version, archive_item.dims c.gd,
    archive_item.typing c.atu, archive_item.grid_vector c.grids]

/-- The function `cache::load`: how the call ends, and the cache after it. -/
def cache.load (K : decls F) (c : cache F) (ar : archive F) :
    Except load_error Unit × cache F :=
  match ar with
  | archive_item.str name_tmp :: ar1 =>
    if name_tmp ≠ c.scoring_function_version then (Except.error load_error.energy_mismatch, c)
    else
      match ar1 with
      | archive_item.dims gd_tmp :: ar2 =>
        if !K.eq gd_tmp c.gd then (Except.error load_error.grid_dims_mismatch, c)
        else
          match ar2 with
          | archive_item.typing atu_tmp :: ar3 =>
            if atu_tmp ≠ c.atu then (Except.error load_error.cache_mismatch, c)
            else
              match ar3 with
              | archive_item.grid_vector grids_tmp :: _ =>
                (Except.ok (), { c with grids := grids_tmp })
              | _ => (Except.error load_error.archive_exception, c)
          | _ => (Except.error load_error.archive_exception, c)
      | _ => (Except.error load_error.archive_exception, c)
  | _ => (Except.error load_error.archive_exception, c)

/-! ## cache.cpp: `populate` -/

/-- The first loop of `cache::populate`, for the requested type `t`: a grid that is not
initialized is noted in `needed` and allocated over `gd`.  The state is `needed` and the
grids. -/
def cache.populate_needed_step (K : decls F) (gd : grid_dims F)
    (st : List Nat × (Nat → grid F)) (t : Nat) : List Nat × (Nat → grid F) :=
  if !(st.2 t).initialized then
    (st.1 ++ [t], Function.update st.2 t ((st.2 t).init K gd))
  else st

/-- The first loop of `cache::populate`. -/
def cache.populate_needed (K : decls F) (c : cache F) (atom_types_needed : List Nat) :
    List Nat × (Nat → grid F) :=
  atom_types_needed.foldl (cache.populate_needed_step K c.gd) ([], c.grids)

/-- The value of `theta` in `cache::populate` after the first conditional (the halogen
one), `none` standing for not assigned. -/
def cache.populate_theta_halogen (K : decls F) (m : model F) (a : atom F) (probe_coords : vec F) :
    Option F :=
  if K.xs_is_halogen a.xs then
    a.bonds.foldl (fun theta b =>
      let c := m.get_atom b.connected_atom_index
      if c.el = K.EL_TYPE_C then
        let v1 := a.coords - c.coords
        let v2 := a.coords - probe_coords
        some (K.angle v1 v2)
      else theta) none
  else none

/-- The vector `theta_holder` that `cache::populate` fills for a sulfur with two bonds. -/
def cache.populate_theta_holder (K : decls F) (m : model F) (a : atom F) (probe_coords : vec F) :
    List F :=
  a.bonds.foldl (fun theta_holder b =>
    let c := m.get_atom b.connected_atom_index
    if c.ad = K.AD_TYPE_A then
      let v1 := a.coords - c.coords
      let v2 := a.coords - probe_coords
      theta_holder ++ [K.angle v1 v2]
    else theta_holder ++ [0]) []

/-- The value of `theta` that `cache::populate` passes to `eval_fast` for the receptor atom
`a` and the lattice point `probe_coords`.  The second conditional assigns `theta` on each
of its paths, so what the first one left in it is overwritten. -/
def cache.populate_theta (K : decls F) (m : model F) (a : atom F) (probe_coords : vec F) : F :=
  let theta := cache.populate_theta_halogen K m a probe_coords
  if K.xs_is_S a.xs then
    if a.bonds.length = 2 then
      let theta_holder := cache.populate_theta_holder K m a probe_coords
      if theta_holder.getD 0 0 > theta_holder.getD 1 0 then theta_holder.getD 0 0
      else theta_holder.getD 1 0
    else 0
  else 180

/-- The loop of `cache::populate` over `needed` for one candidate within the cutoff:
`affinities[j] += p.eval_fast(...)`, after `assert(t2 < nat)`. -/
def cache.populate_add (K : decls F) (c : cache F) (p : precalculate F) (t1 : Nat) (r2 theta : F) :
    List Nat → List F → Option (List F)
  | t2 :: needed, aff :: affinities =>
    if t2 < K.num_atom_types c.atu then
      let type_pair_index :=
        K.triangular_matrix_index_permissive (K.num_atom_types c.atu) t1 t2
      match cache.populate_add K c p t1 r2 theta needed affinities with
      | some rest => some ((aff + p.eval_fast type_pair_index r2 theta) :: rest)
      | none => none
    else none
  | _, _ => some []

/-- The body of the loop of `cache::populate` over the candidates of one lattice point,
for the receptor atom `i`. -/
def cache.populate_candidate (K : decls F) (c : cache F) (m : model F) (p : precalculate F)
    (needed : List Nat) (probe_coords : vec F) (affinities : List F) (i : Nat) :
    Option (List F) :=
  let nat := K.num_atom_types c.atu
  let a := m.grid_atoms i
  let t1 := K.atom_get a c.atu
  if t1 ≥ nat then some affinities
  else
    let r2 := vec_distance_sqr a.coords probe_coords
    let theta := cache.populate_theta K m a probe_coords
    if r2 ≤ p.cutoff_sqr then cache.populate_add K c p t1 r2 theta needed affinities
    else some affinities

/-- The last loop of the body of `cache::populate` for the lattice point `(x, y, z)`:
`grids[t].m_data(x, y, z) = affinities[j]`, after `assert(t < nat)`. -/
def cache.populate_write (K : decls F) (c : cache F) (x y z : Nat) :
    List Nat → List F → (Nat → grid F) → Option (Nat → grid F)
  | t :: needed, aff :: affinities, grids =>
    if t < K.num_atom_types c.atu then
      cache.populate_write K c x y z needed affinities
        (Function.update grids t ((grids t).set x y z aff))
    else none
  | _, _, grids => some grids

/-- The body of the three nested loops of `cache::populate` for the lattice point
`(x, y, z)`; `gd0` is the `grid_dims` of the grid `g` that drives the loops. -/
def cache.populate_point (K : decls F) (c : cache F) (m : model F) (p : precalculate F)
    (needed : List Nat) (ig : szv_grid F) (gd0 : grid_dims F) (x y z : Nat)
    (grids : Nat → grid F) : Option (Nat → grid F) :=
  let probe_coords := K.index_to_argument gd0 x y z
  let possibilities := ig.possibilities probe_coords
  match possibilities.foldlM (cache.populate_candidate K c m p needed probe_coords)
      (List.replicate needed.length 0) with
  | some affinities => cache.populate_write K c x y z needed affinities grids
  | none => none

/-- The function `cache::populate`; `none` when an assertion fails.  The grid `g` is
`grids[needed.front()]`: the writes of the loops leave its extents and its `grid_dims` as
they are, so they are read once. -/
def cache.populate (K : decls F) (c : cache F) (m : model F) (p : precalculate F)
    (atom_types_needed : List Nat) : Option (cache F) :=
  let st := cache.populate_needed K c atom_types_needed
  let needed := st.1
  match needed with
  | [] => some { c with grids := st.2 }
  | front :: _ =>
    let g := st.2 front
    let cutoff_sqr := p.cutoff_sqr
    let gd_reduced := K.szv_grid_dims c.gd
    let ig := K.szv_grid_ctor m gd_reduced cutoff_sqr
    match (List.range g.m_i).foldlM (fun grids x =>
        (List.range g.m_j).foldlM (fun grids y =>
          (List.range g.m_k).foldlM (fun grids z =>
            cache.populate_point K c m p needed ig g.m_gd x y z grids) grids) grids) st.2 with
    | some grids => some { c with grids := grids }
    | none => none

/-! ## non_cache.cpp -/

/-- The constructor `non_cache::non_cache`. -/
def non_cache.ctor (K : decls F) (m : model F) (gd : grid_dims F) (p : precalculate F)
    (slope : F) : non_cache F :=
  { sgrid := K.szv_grid_ctor m (K.szv_grid_dims gd) p.cutoff_sqr, gd := gd, p := p,
    slope := slope }

/-- The body of the loop over the axes in `non_cache::eval`, for the axis `j`; the state
is `adjusted_a_coords` and `out_of_bounds_penalty`. -/
def non_cache.clamp_step (gd : grid_dims F) (a_coords : vec F) (st : vec F × F) (j : Fin 3) :
    vec F × F :=
  if (gd j).n > 0 then
    if a_coords j < (gd j).begin then
      (Function.update st.1 j (gd j).begin, st.2 + |a_coords j - (gd j).begin|)
    else if a_coords j > (gd j).end_ then
      (Function.update st.1 j (gd j).end_, st.2 + |a_coords j - (gd j).end_|)
    else st
  else st

/-- The loop over the axes in `non_cache::eval`: `adjusted_a_coords` and
`out_of_bounds_penalty` before the latter is multiplied by the slope. -/
def non_cache.clamp (gd : grid_dims F) (a_coords : vec F) : vec F × F :=
  (List.finRange 3).foldl (non_cache.clamp_step gd a_coords) (a_coords, 0)

/-- The `out_of_bounds_penalty` of `non_cache::eval` for an atom at `a_coords`, after
`out_of_bounds_penalty *= slope`. -/
def non_cache.out_of_bounds_penalty (nc : non_cache F) (a_coords : vec F) : F :=
  (non_cache.clamp nc.gd a_coords).2 * nc.slope

/-- The value of `theta` after the first conditional (the halogen one) of the loop over
the candidates in `non_cache::eval` and `non_cache::eval_deriv`, `none` standing for not
assigned.  In the branch where `b` is the halogen the angle goes to a `theta` declared
inside the loop, and the outer one is left as it was. -/
def non_cache.theta_halogen (K : decls F) (m : model F) (i : Nat) (a b : atom F) : Option F :=
  if K.xs_hal_any_bond_possible a.xs b.xs then
    if K.xs_is_halogen a.xs then
      a.bonds.foldl (fun theta bs =>
        let c := m.get_atom bs.connected_atom_index
        if c.el = K.EL_TYPE_C then
          let C_coords := m.coords bs.connected_atom_index.i
          let v1 := m.coords i - C_coords
          let v2 := m.coords i - b.coords
          some (K.angle v1 v2)
        else theta) none
    else
      b.bonds.foldl (fun theta bs =>
        let c := m.get_atom bs.connected_atom_index
        if c.el = K.EL_TYPE_C then
          let v1 := b.coords - c.coords
          let v2 := b.coords - m.coords i
          let theta_inner := K.angle v1 v2
          theta
        else theta) none
  else none

/-- The vector `theta_holder` that `non_cache::eval` and `non_cache::eval_deriv` fill for a
sulfur `a` with two bonds. -/
def non_cache.theta_holder (K : decls F) (m : model F) (i : Nat) (a b : atom F) : List F :=
  a.bonds.foldl (fun theta_holder bs =>
    let c := m.get_atom bs.connected_atom_index
    if c.ad = K.AD_TYPE_A then
      let C_coords := m.coords bs.connected_atom_index.i
      let v1 := m.coords i - C_coords
      let v2 := m.coords i - b.coords
      theta_holder ++ [K.angle v1 v2]
    else theta_holder ++ [0]) []

/-- The value of `theta` at the call of the potential table in `non_cache::eval` and
`non_cache::eval_deriv`, for the movable atom `a` of index `i` and the receptor atom `b`;
`none` when no assignment to it was executed. -/
def non_cache.theta (K : decls F) (m : model F) (i : Nat) (a b : atom F) : Option F :=
  let theta := non_cache.theta_halogen K m i a b
  if K.xs_sul_bond_possible a.xs b.xs then
    if K.xs_is_S a.xs then
      if a.bonds.length = 2 then
        let theta_holder := non_cache.theta_holder K m i a b
        some (if theta_holder.getD 0 0 > theta_holder.getD 1 0 then theta_holder.getD 0 0
          else theta_holder.getD 1 0)
      else some 0
    else theta
  else some 180

/-- The body of the loop over the candidates in `non_cache::eval`, for the receptor atom
`j`; the state is `this_e`. -/
def non_cache.eval_candidate (K : decls F) (nc : non_cache F) (m : model F) (i : Nat)
    (adjusted_a_coords : vec F) (this_e : F) (j : Nat) : Option F :=
  let n := K.num_atom_types nc.p.atom_typing_used
  let a := m.atoms i
  let b := m.grid_atoms j
  let t2 := K.atom_get b nc.p.atom_typing_used
  if t2 ≥ n then some this_e
  else
    let r_ba := adjusted_a_coords - b.coords
    let r2 := sqr r_ba
    let theta := non_cache.theta K m i a b
    if r2 < nc.p.cutoff_sqr then
      let type_pair_index := K.get_type_pair_index nc.p.atom_typing_used a b
      match theta with
      | some th => some (this_e + nc.p.eval_fast type_pair_index r2 th)
      | none => none
    else some this_e

/-- What `non_cache::eval` adds to `e` for an in-scheme movable atom `i`: `this_e` after
`curl`, plus `out_of_bounds_penalty`. -/
def non_cache.eval_atom (K : decls F) (nc : non_cache F) (m : model F) (v : F) (i : Nat) :
    Option F :=
  let a_coords := m.coords i
  let adjusted_a_coords := (non_cache.clamp nc.gd a_coords).1
  let out_of_bounds_penalty := non_cache.out_of_bounds_penalty nc a_coords
  let possibilities := nc.sgrid.possibilities adjusted_a_coords
  match possibilities.foldlM (non_cache.eval_candidate K nc m i adjusted_a_coords) 0 with
  | some this_e => some (K.curl this_e v + out_of_bounds_penalty)
  | none => none

/-- The body of the loop of `non_cache::eval` for the movable atom `i`, `e` being the
energy so far. -/
def non_cache.eval_step (K : decls F) (nc : non_cache F) (m : model F) (v : F) (e : F)
    (i : Nat) : Option F :=
  let n := K.num_atom_types nc.p.atom_typing_used
  let a := m.atoms i
  let t1 := K.atom_get a nc.p.atom_typing_used
  if t1 ≥ n then some e
  else
    match non_cache.eval_atom K nc m v i with
    | some r => some (e + r)
    | none => none

/-- The function `non_cache::eval`. -/
def non_cache.eval (K : decls F) (nc : non_cache F) (m : model F) (v : F) : Option F :=
  (List.range m.num_movable_atoms).foldlM (non_cache.eval_step K nc m v) 0

/-- The function `non_cache::within`: the first coordinate outside the widened box makes it
return false. -/
def non_cache.within (K : decls F) (nc : non_cache F) (m : model F) (margin : F) : Bool :=
  (List.range m.num_movable_atoms).all (fun i =>
    if K.is_hydrogen (m.atoms i) then true
    else
      let a_coords := m.coords i
      (List.finRange 3).all (fun j =>
        if (nc.gd j).n > 0 then
          if a_coords j < (nc.gd j).begin - margin ∨ a_coords j > (nc.gd j).end_ + margin then
            false
          else true
        else true))

/-- The body of the loop over the axes in `non_cache::eval_deriv`, for the axis `j`; the
state is `adjusted_a_coords`, `out_of_bounds_deriv` and `out_of_bounds_penalty`. -/
def non_cache.clamp_deriv_step (gd : grid_dims F) (a_coords : vec F) (st : vec F × vec F × F)
    (j : Fin 3) : vec F × vec F × F :=
  if (gd j).n > 0 then
    if a_coords j < (gd j).begin then
      (Function.update st.1 j (gd j).begin, Function.update st.2.1 j (-1),
        st.2.2 + |a_coords j - (gd j).begin|)
    else if a_coords j > (gd j).end_ then
      (Function.update st.1 j (gd j).end_, Function.update st.2.1 j 1,
        st.2.2 + |a_coords j - (gd j).end_|)
    else st
  else st

/-- The loop over the axes in `non_cache::eval_deriv`. -/
def non_cache.clamp_deriv (gd : grid_dims F) (a_coords : vec F) : vec F × vec F × F :=
  (List.finRange 3).foldl (non_cache.clamp_deriv_step gd a_coords) (a_coords, 0, 0)

/-- The body of the loop over the candidates in `non_cache::eval_deriv`, for the receptor
atom `j`; the state is `this_e` and `deriv`. -/
def non_cache.eval_deriv_candidate (K : decls F) (nc : non_cache F) (m : model F) (i : Nat)
    (adjusted_a_coords : vec F) (st : F × vec F) (j : Nat) : Option (F × vec F) :=
  let n := K.num_atom_types nc.p.atom_typing_used
  let a := m.atoms i
  let b := m.grid_atoms j
  let t2 := K.atom_get b nc.p.atom_typing_used
  if t2 ≥ n then some st
  else
    let r_ba := adjusted_a_coords - b.coords
    let r2 := sqr r_ba
    let theta := non_cache.theta K m i a b
    if r2 < nc.p.cutoff_sqr then
      let type_pair_index := K.get_type_pair_index nc.p.atom_typing_used a b
      match theta with
      | some th =>
        let e_dor := nc.p.eval_deriv type_pair_index r2 th
        some (st.1 + e_dor.1, st.2 + e_dor.2 • r_ba)
      | none => none
    else some st

/-- What `non_cache::eval_deriv` computes for an in-scheme movable atom `i`: what it adds to
`e`, and the vector it writes to `minus_forces[i]`. -/
def non_cache.eval_deriv_atom (K : decls F) (nc : non_cache F) (m : model F) (v : F) (i : Nat) :
    Option (F × vec F) :=
  let a_coords := m.coords i
  let st := non_cache.clamp_deriv nc.gd a_coords
  let adjusted_a_coords := st.1
  let out_of_bounds_penalty := st.2.2 * nc.slope
  let out_of_bounds_deriv := nc.slope • st.2.1
  let possibilities := nc.sgrid.possibilities adjusted_a_coords
  match possibilities.foldlM (non_cache.eval_deriv_candidate K nc m i adjusted_a_coords)
      (0, 0) with
  | some r =>
    let curled := K.curl_deriv r.1 r.2 v
    some (curled.1 + out_of_bounds_penalty, curled.2 + out_of_bounds_deriv)
  | none => none

/-- The body of the loop of `non_cache::eval_deriv` for the movable atom `i`; the state is
the energy so far and the model, whose `minus_forces` the loop writes. -/
def non_cache.eval_deriv_step (K : decls F) (nc : non_cache F) (v : F) (st : F × model F)
    (i : Nat) : Option (F × model F) :=
  let n := K.num_atom_types nc.p.atom_typing_used
  let a := st.2.atoms i
  let t1 := K.atom_get a nc.p.atom_typing_used
  if t1 ≥ n then some (st.1, st.2.set_minus_forces i 0)
  else
    match non_cache.eval_deriv_atom K nc st.2 v i with
    | some r => some (st.1 + r.1, st.2.set_minus_forces i r.2)
    | none => none

/-- The function `non_cache::eval_deriv`: the energy and the model with its `minus_forces`
set. -/
def non_cache.eval_deriv (K : decls F) (nc : non_cache F) (m : model F) (v : F) :
    Option (F × model F) :=
  (List.range m.num_movable_atoms).foldlM (non_cache.eval_deriv_step K nc v) (0, m)

/-! ## non_cache.cpp: the read of a `theta` that was never assigned

On the path where a sulfur bond is possible for the pair, the movable atom is not a sulfur
and the halogen block assigned nothing, `non_cache::eval` and `non_cache::eval_deriv` read
the local `theta` before any assignment to it, and go on with the value that its storage
holds.  The definitions above stop there, with `none`.  The ones below go on as the code
does: the value read on that path is `stale i j`, for the movable atom `i` and the
receptor atom `j`, and everything else is as above. -/

/-- The value read from the local `theta` at the call of the potential table: the value
assigned last or, when no assignment was executed, the value `stale` that the storage of
the local holds. -/
def non_cache.theta_read (theta : Option F) (stale : F) : F :=
  match theta with
  | some th => th
  | none => stale

/-- The body of the loop over the candidates in `non_cache::eval`, for the receptor atom
`j`, a never-assigned `theta` being read as `stale i j`; the state is `this_e`. -/
def non_cache.eval_candidate_stale (K : decls F) (nc : non_cache F) (m : model F)
    (stale : Nat → Nat → F) (i : Nat) (adjusted_a_coords : vec F) (this_e : F) (j : Nat) : F :=
  let n := K.num_atom_types nc.p.atom_typing_used
  let a := m.atoms i
  let b := m.grid_atoms j
  let t2 := K.atom_get b nc.p.atom_typing_used
  if t2 ≥ n then this_e
  else
    let r_ba := adjusted_a_coords - b.coords
    let r2 := sqr r_ba
    let theta := non_cache.theta_read (non_cache.theta K m i a b) (stale i j)
    if r2 < nc.p.cutoff_sqr then
      let type_pair_index := K.get_type_pair_index nc.p.atom_typing_used a b
      this_e + nc.p.eval_fast type_pair_index r2 theta
    else this_e

/-- What `non_cache::eval` adds to `e` for an in-scheme movable atom `i`, a never-assigned
`theta` being read as `stale i j`. -/
def non_cache.eval_atom_stale (K : decls F) (nc : non_cache F) (m : model F) (v : F)
    (stale : Nat → Nat → F) (i : Nat) : F :=
  let a_coords := m.coords i
  let adjusted_a_coords := (non_cache.clamp nc.gd a_coords).1
  let out_of_bounds_penalty := non_cache.out_of_bounds_penalty nc a_coords
  let possibilities := nc.sgrid.possibilities adjusted_a_coords
  let this_e :=
    possibilities.foldl (non_cache.eval_candidate_stale K nc m stale i adjusted_a_coords) 0
  K.curl this_e v + out_of_bounds_penalty

/-- The body of the loop of `non_cache::eval` for the movable atom `i`, a never-assigned
`theta` being read as `stale i j`. -/
def non_cache.eval_step_stale (K : decls F) (nc : non_cache F) (m : model F) (v : F)
    (stale : Nat → Nat → F) (e : F) (i : Nat) : F :=
  let n := K.num_atom_types nc.p.atom_typing_used
  let a := m.atoms i
  let t1 := K.atom_get a nc.p.atom_typing_used
  if t1 ≥ n then e
  else e + non_cache.eval_atom_stale K nc m v stale i

/-- The function `non_cache::eval`, a never-assigned `theta` being read as `stale i j`:
the number that the code returns. -/
def non_cache.eval_stale (K : decls F) (nc : non_cache F) (m : model F) (v : F)
    (stale : Nat → Nat → F) : F :=
  (List.range m.num_movable_atoms).foldl (non_cache.eval_step_stale K nc m v stale) 0

/-- The body of the loop over the candidates in `non_cache::eval_deriv`, for the receptor
atom `j`, a never-assigned `theta` being read as `stale i j`; the state is `this_e` and
`deriv`. -/
def non_cache.eval_deriv_candidate_stale (K : decls F) (nc : non_cache F) (m : model F)
    (stale : Nat → Nat → F) (i : Nat) (adjusted_a_coords : vec F) (st : F × vec F) (j : Nat) :
    F × vec F :=
  let n := K.num_atom_types nc.p.atom_typing_used
  let a := m.atoms i
  let b := m.grid_atoms j
  let t2 := K.atom_get b nc.p.atom_typing_used
  if t2 ≥ n then st
  else
    let r_ba := adjusted_a_coords - b.coords
    let r2 := sqr r_ba
    let theta := non_cache.theta_read (non_cache.theta K m i a b) (stale i j)
    if r2 < nc.p.cutoff_sqr then
      let type_pair_index := K.get_type_pair_index nc.p.atom_typing_used a b
      let e_dor := nc.p.eval_deriv type_pair_index r2 theta
      (st.1 + e_dor.1, st.2 + e_dor.2 • r_ba)
    else st

/-- What `non_cache::eval_deriv` computes for an in-scheme movable atom `i`, a
never-assigned `theta` being read as `stale i j`: what it adds to `e`, and the vector it
writes to `minus_forces[i]`. -/
def non_cache.eval_deriv_atom_stale (K : decls F) (nc : non_cache F) (m : model F) (v : F)
    (stale : Nat → Nat → F) (i : Nat) : F × vec F :=
  let a_coords := m.coords i
  let st := non_cache.clamp_deriv nc.gd a_coords
  let adjusted_a_coords := st.1
  let out_of_bounds_penalty := st.2.2 * nc.slope
  let out_of_bounds_deriv := nc.slope • st.2.1
  let possibilities := nc.sgrid.possibilities adjusted_a_coords
  let r := possibilities.foldl
    (non_cache.eval_deriv_candidate_stale K nc m stale i adjusted_a_coords) (0, 0)
  let curled := K.curl_deriv r.1 r.2 v
  (curled.1 + out_of_bounds_penalty, curled.2 + out_of_bounds_deriv)

/-- The body of the loop of `non_cache::eval_deriv` for the movable atom `i`, a
never-assigned `theta` being read as `stale i j`; the state is the energy so far and the
model. -/
def non_cache.eval_deriv_step_stale (K : decls F) (nc : non_cache F) (v : F)
    (stale : Nat → Nat → F) (st : F × model F) (i : Nat) : F × model F :=
  let n := K.num_atom_types nc.p.atom_typing_used
  let a := st.2.atoms i
  let t1 := K.atom_get a nc.p.atom_typing_used
  if t1 ≥ n then (st.1, st.2.set_minus_forces i 0)
  else
    let r := non_cache.eval_deriv_atom_stale K nc st.2 v stale i
    (st.1 + r.1, st.2.set_minus_forces i r.2)

/-- The function `non_cache::eval_deriv`, a never-assigned `theta` being read as
`stale i j`: the energy that the code returns, and the model with its `minus_forces`
set. -/
def non_cache.eval_deriv_stale (K : decls F) (nc : non_cache F) (m : model F) (v : F)
    (stale : Nat → Nat → F) : F × model F :=
  (List.range m.num_movable_atoms).foldl (non_cache.eval_deriv_step_stale K nc v stale) (0, m)

/-! ## Closed forms used in the statements -/

/-- Everything of a grid but its values: whether it is initialized, its `grid_dims` and its
extents. -/
def grid.shape (g : grid F) : Bool × grid_dims F × Nat × Nat × Nat :=
  (g.m_initialized, g.m_gd, g.m_i, g.m_j, g.m_k)

/-- The term of the receptor atom `i` for the lattice point `probe_coords` and the ligand
type `t2` in `cache::populate`: `eval_fast` at the type-pair index of the two types, the
squared distance and `theta`. -/
def cache.populate_term (K : decls F) (c : cache F) (m : model F) (p : precalculate F)
    (probe_coords : vec F) (t2 : Nat) (i : Nat) : F :=
  let a := m.grid_atoms i
  p.eval_fast
    (K.triangular_matrix_index_permissive (K.num_atom_types c.atu) (K.atom_get a c.atu) t2)
    (vec_distance_sqr a.coords probe_coords) (cache.populate_theta K m a probe_coords)

/-- The sum, over the receptor atoms the spatial index `ig` returns for `probe_coords`
whose type is inside the scheme and whose squared distance to `probe_coords` is at most the
squared cutoff, of their terms for the ligand type `t2`. -/
def cache.populate_sum (K : decls F) (c : cache F) (m : model F) (p : precalculate F)
    (ig : szv_grid F) (probe_coords : vec F) (t2 : Nat) : F :=
  (((ig.possibilities probe_coords).filter (fun i =>
      decide (K.atom_get (m.grid_atoms i) c.atu < K.num_atom_types c.atu) &&
      decide (vec_distance_sqr (m.grid_atoms i).coords probe_coords ≤ p.cutoff_sqr))).map
    (cache.populate_term K c m p probe_coords t2)).sum

/-- The coordinate `x` clamped into the axis `d`: `begin` when below it, `end` when above
it, `x` otherwise, and `x` on an axis where `n` is zero. -/
def clamp_coord (d : grid_dim F) (x : F) : F :=
  if 0 < d.n then
    if x < d.begin then d.begin else if x > d.end_ then d.end_ else x
  else x

/-- The distance by which the coordinate `x` lies outside `[begin, end]` on the axis `d`:
`begin - x` below `begin`, `x - end` above `end`, zero otherwise, and zero on an axis where
`n` is zero. -/
def outside_distance (d : grid_dim F) (x : F) : F :=
  if 0 < d.n then
    if x < d.begin then d.begin - x else if x > d.end_ then x - d.end_ else 0
  else 0

/-- The body of the loop over the candidates of `non_cache::eval` as the specification
words it: the squared distance that is compared with the cutoff and passed to the
potential table is taken from the coordinates of the atom before clamping. -/
def non_cache.eval_candidate_unclamped (K : decls F) (nc : non_cache F) (m : model F)
    (i : Nat) (this_e : F) (j : Nat) : Option F :=
  let a := m.atoms i
  let b := m.grid_atoms j
  if K.atom_get b nc.p.atom_typing_used ≥ K.num_atom_types nc.p.atom_typing_used then
    some this_e
  else
    let r2 := vec_distance_sqr (m.coords i) b.coords
    if r2 < nc.p.cutoff_sqr then
      Option.map (fun th => this_e + nc.p.eval_fast
        (K.get_type_pair_index nc.p.atom_typing_used a b) r2 th) (non_cache.theta K m i a b)
    else some this_e

/-- The value of one bond of a sulfur `a` in `cache::populate`: the angle at the sulfur
between (sulfur - neighbour) and (sulfur - lattice point) when the neighbour is aromatic,
zero otherwise. -/
def cache.populate_bond_angle (K : decls F) (m : model F) (a : atom F) (probe_coords : vec F)
    (b : bond) : F :=
  if (m.get_atom b.connected_atom_index).ad = K.AD_TYPE_A then
    K.angle (a.coords - (m.get_atom b.connected_atom_index).coords) (a.coords - probe_coords)
  else 0

/-- The component of the out-of-bounds direction on the axis `d` for the coordinate `x`:
`-1` below `begin`, `1` above `end`, zero otherwise, and zero on an axis where `n` is
zero. -/
def outside_sign (d : grid_dim F) (x : F) : F :=
  if 0 < d.n then
    if x < d.begin then -1 else if x > d.end_ then 1 else 0
  else 0

/-- The invariant of the grid cache: every initialized grid of the collection is allocated
over the `grid_dims` of the cache. -/
def cache.inv (K : decls F) (c : cache F) : Prop :=
  ∀ t, (c.grids t).initialized = true →
    (c.grids t).m_gd = c.gd ∧ (c.grids t).m_i = K.grid_points (c.gd 0)
      ∧ (c.grids t).m_j = K.grid_points (c.gd 1) ∧ (c.grids t).m_k = K.grid_points (c.gd 2)

/-- The candidates that count for the movable atom `i` in `non_cache::eval_deriv`: the
receptor atoms that the spatial index returns for the clamped coordinates, whose type is
inside the scheme and whose squared distance to the clamped coordinates is below the
squared cutoff. -/
def non_cache.counted (K : decls F) (nc : non_cache F) (m : model F) (i : Nat) : List Nat :=
  (nc.sgrid.possibilities (fun k => clamp_coord (nc.gd k) (m.coords i k))).filter (fun j =>
    decide (K.atom_get (m.grid_atoms j) nc.p.atom_typing_used
      < K.num_atom_types nc.p.atom_typing_used) &&
    decide (vec_distance_sqr (fun k => clamp_coord (nc.gd k) (m.coords i k))
      (m.grid_atoms j).coords < nc.p.cutoff_sqr))

/-- The sum, over the candidates that count, of the energies that the derivative form of
the potential table returns, `th j` being the `theta` of the candidate `j`. -/
def non_cache.energy_sum (K : decls F) (nc : non_cache F) (m : model F) (i : Nat)
    (th : Nat → F) : F :=
  ((non_cache.counted K nc m i).map (fun j =>
    (nc.p.eval_deriv
      (K.get_type_pair_index nc.p.atom_typing_used (m.atoms i) (m.grid_atoms j))
      (vec_distance_sqr (fun k => clamp_coord (nc.gd k) (m.coords i k))
        (m.grid_atoms j).coords) (th j)).1)).sum

/-- The sum, over the candidates that count, of the derivative that the potential table
returns times the displacement of the pair (clamped coordinates minus receptor atom),
`th j` being the `theta` of the candidate `j`. -/
def non_cache.deriv_sum (K : decls F) (nc : non_cache F) (m : model F) (i : Nat)
    (th : Nat → F) : vec F :=
  ((non_cache.counted K nc m i).map (fun j =>
    (nc.p.eval_deriv
      (K.get_type_pair_index nc.p.atom_typing_used (m.atoms i) (m.grid_atoms j))
      (vec_distance_sqr (fun k => clamp_coord (nc.gd k) (m.coords i k))
        (m.grid_atoms j).coords) (th j)).2 •
      ((fun k => clamp_coord (nc.gd k) (m.coords i k)) - (m.grid_atoms j).coords))).sum

end embedding

/-! ## A concrete configuration over `ℤ` -/

namespace sample

/-- Atom typing with two types, the type id being the `xs` code; `xs` 4 is a sulfur and 5 a
halogen; `curl` caps the energy at `v`; the spatial index returns the receptor atom 0. -/
def K : decls ℤ :=
  { num_atom_types := fun _ => 2,
    atom_get := fun a _ => a.xs,
    is_hydrogen := fun a => a.el == 0,
    xs_is_halogen := fun x => x == 5,
    xs_is_S := fun x => x == 4,
    xs_hal_any_bond_possible := fun x y => x == 5 || y == 5,
    xs_sul_bond_possible := fun x y => x == 4 || y == 4,
    EL_TYPE_C := 1,
    AD_TYPE_A := 1,
    angle := fun _ _ => 90,
    curl := fun e v => if e > v then v else e,
    curl_deriv := fun e d v => if e > v then (v, 0) else (e, d),
    triangular_matrix_index_permissive := fun _ i j => i + j,
    get_type_pair_index := fun _ a b => a.xs + b.xs,
    szv_grid_dims := fun gd => gd,
    szv_grid_ctor := fun _ _ _ => ⟨fun _ => [0]⟩,
    eq := fun g1 g2 => (List.finRange 3).all (fun j =>
      decide ((g1 j).begin = (g2 j).begin ∧ (g1 j).end_ = (g2 j).end_ ∧ (g1 j).n = (g2 j).n)),
    grid_points := fun d => d.n + 1,
    index_to_argument := fun gd x y z => ![(gd 0).begin + x, (gd 1).begin + y, (gd 2).begin + z],
    grid_evaluate := fun g _ _ _ => g.m_data 0 0 0,
    grid_evaluate_deriv := fun g _ _ _ => (g.m_data 0 0 0, fun _ => 1) }

/-- The box `[0, 10]` on each axis, one interval per axis. -/
def gd : grid_dims ℤ := fun _ => ⟨0, 10, 1⟩

/-- An atom of `xs` code `xs` at `coords`, without bonds. -/
def atom_at (xs : Nat) (coords : vec ℤ) : atom ℤ :=
  { el := 1, ad := 0, xs := xs, coords := coords, bonds := [] }

/-- Two movable atoms, the first of type 0 and the second of the out-of-scheme type 7, and
one receptor atom of type 1; every force starts at `(9, 9, 9)`. -/
def m : model ℤ :=
  { num_movable_atoms := 2,
    atoms := fun i => if i = 0 then atom_at 0 ![1, 1, 1] else atom_at 7 ![2, 2, 2],
    coords := fun i => if i = 0 then ![1, 1, 1] else ![2, 2, 2],
    minus_forces := fun _ => ![9, 9, 9],
    grid_atoms := fun _ => atom_at 1 ![1, 1, 3],
    get_atom := fun _ => atom_at 1 ![1, 1, 3] }

/-- A potential table: cutoff 8 squared; the energy of a pair is the sum of its type-pair
index, its squared distance and its angle; derivative factor 2. -/
def p : precalculate ℤ :=
  { cutoff_sqr := 64, atom_typing_used := 0,
    eval_fast := fun type_pair_index r2 theta => type_pair_index + r2 + theta,
    eval_deriv := fun type_pair_index r2 theta => (type_pair_index + r2 + theta, 2) }

/-- A cache over `gd` of slope 1, as constructed. -/
def c0 : cache ℤ := cache.ctor "v" gd 1 0

/-- The direct evaluator over `gd` of slope 1. -/
def nc : non_cache ℤ := non_cache.ctor K m gd p 1

/-- The cache `c0` with the grid of type 0 allocated and holding 4 at the lattice point
`(0, 0, 0)`. -/
def c_ready : cache ℤ :=
  { c0 with grids := fun t => if t = 0 then ((grid.empty).init K gd).set 0 0 0 4 else grid.empty }

/-- One movable atom of type 0 at `(-10, 0, 0)`, outside the box on the first axis, and
one receptor atom of type 1 at `(1, 0, 0)`. -/
def m_out : model ℤ :=
  { num_movable_atoms := 1,
    atoms := fun _ => atom_at 0 ![-10, 0, 0],
    coords := fun _ => ![-10, 0, 0],
    minus_forces := fun _ => 0,
    grid_atoms := fun _ => atom_at 1 ![1, 0, 0],
    get_atom := fun _ => atom_at 1 ![1, 0, 0] }

/-- The direct evaluator over `gd` of slope 1 for `m_out`. -/
def nc_out : non_cache ℤ := non_cache.ctor K m_out gd p 1

/-- The direct evaluator over `gd` of slope 0. -/
def nc_flat : non_cache ℤ := non_cache.ctor K m gd p 0

/-- One movable atom of type 0 at `(1, 1, 1)`, inside the box, and one receptor atom of
type 1 at `(1, 1, 3)`. -/
def m_one : model ℤ :=
  { num_movable_atoms := 1,
    atoms := fun _ => atom_at 0 ![1, 1, 1],
    coords := fun _ => ![1, 1, 1],
    minus_forces := fun _ => 0,
    grid_atoms := fun _ => atom_at 1 ![1, 1, 3],
    get_atom := fun _ => atom_at 1 ![1, 1, 3] }

/-- The direct evaluator over `gd` of slope 1 for `m_one`. -/
def nc_one : non_cache ℤ := non_cache.ctor K m_one gd p 1

/-- The declarations of `K` with six atom types, an angle that depends on its two vectors
(the absolute value of their scalar product), a sulfur bond possible between the sulfur 4
and the type 1, a halogen bond possible between the halogen 5 and the type 1, and a spatial
index that returns the receptor atoms 0 and 1. -/
def K_wide : decls ℤ :=
  { K with
    num_atom_types := fun _ => 6,
    angle := fun v1 v2 => |v1 0 * v2 0 + v1 1 * v2 1 + v1 2 * v2 2|,
    xs_sul_bond_possible := fun x y => (x == 4 && y == 1) || (x == 1 && y == 4),
    xs_hal_any_bond_possible := fun x y => (x == 5 && y == 1) || (x == 1 && y == 5),
    szv_grid_ctor := fun _ _ _ => ⟨fun _ => [0, 1]⟩ }

/-- The movable atoms of `m_geo`: 0 a sulfur bonded to 2 and 3, 1 a halogen bonded to 3,
2 an aromatic carbon, 3 a carbon that is not aromatic, the others of type 1. -/
def geo_atoms (i : Nat) : atom ℤ :=
  if i = 0 then
    { el := 2, ad := 0, xs := 4, coords := ![1, 1, 1], bonds := [⟨⟨2, false⟩⟩, ⟨⟨3, false⟩⟩] }
  else if i = 1 then
    { el := 3, ad := 0, xs := 5, coords := ![5, 1, 1], bonds := [⟨⟨3, false⟩⟩] }
  else if i = 2 then
    { el := 1, ad := 1, xs := 0, coords := ![2, 1, 1], bonds := [] }
  else if i = 3 then
    { el := 1, ad := 0, xs := 0, coords := ![1, 2, 1], bonds := [] }
  else
    { el := 4, ad := 0, xs := 1, coords := ![1, 1, 0], bonds := [] }

/-- The receptor atoms of `m_geo`: 0 of type 1, 1 a sulfur bonded to 3 and 4, 2 a halogen
bonded to 4, 3 an aromatic carbon, the others carbons that are not aromatic. -/
def geo_grid_atoms (i : Nat) : atom ℤ :=
  if i = 0 then
    { el := 4, ad := 0, xs := 1, coords := ![3, 4, 1], bonds := [] }
  else if i = 1 then
    { el := 2, ad := 0, xs := 4, coords := ![1, 1, 3], bonds := [⟨⟨3, true⟩⟩, ⟨⟨4, true⟩⟩] }
  else if i = 2 then
    { el := 3, ad := 0, xs := 5, coords := ![5, 1, 3], bonds := [⟨⟨4, true⟩⟩] }
  else if i = 3 then
    { el := 1, ad := 1, xs := 0, coords := ![3, 2, 3], bonds := [] }
  else
    { el := 1, ad := 0, xs := 0, coords := ![1, 2, 3], bonds := [] }

/-- A model with sulfurs and halogens on both sides: five movable atoms `geo_atoms` and
the receptor atoms `geo_grid_atoms`. -/
def m_geo : model ℤ :=
  { num_movable_atoms := 5,
    atoms := geo_atoms,
    coords := fun i => (geo_atoms i).coords,
    minus_forces := fun _ => 0,
    grid_atoms := geo_grid_atoms,
    get_atom := fun idx => if idx.in_grid then geo_grid_atoms idx.i else geo_atoms idx.i }

/-- The direct evaluator over `gd` of slope 1 for `m_geo`, with the declarations `K_wide`. -/
def nc_geo : non_cache ℤ := non_cache.ctor K_wide m_geo gd p 1

/-- One movable atom of type 0 at the lattice point `(1, 1, 1)` and one receptor atom of
type 1 at `(1, 1, 9)`, at the cutoff distance 8 from it. -/
def m_edge : model ℤ :=
  { num_movable_atoms := 1,
    atoms := fun _ => atom_at 0 ![1, 1, 1],
    coords := fun _ => ![1, 1, 1],
    minus_forces := fun _ => 0,
    grid_atoms := fun _ => atom_at 1 ![1, 1, 9],
    get_atom := fun _ => atom_at 1 ![1, 1, 9] }

/-- The direct evaluator over `gd` of slope 1 for `m_edge`. -/
def nc_edge : non_cache ℤ := non_cache.ctor K m_edge gd p 1

/-- One movable atom of type 1 at `(1, 1, 1)`, not a sulfur, and the receptor atom 0 a
sulfur of type 4 at `(1, 1, 3)`, neither with a bond; the other receptor atoms are of the
out-of-scheme type 7. -/
def m_unset : model ℤ :=
  { num_movable_atoms := 1,
    atoms := fun _ => atom_at 1 ![1, 1, 1],
    coords := fun _ => ![1, 1, 1],
    minus_forces := fun _ => 0,
    grid_atoms := fun j => if j = 0 then atom_at 4 ![1, 1, 3] else atom_at 7 ![1, 1, 3],
    get_atom := fun idx =>
      if idx.in_grid then (if idx.i = 0 then atom_at 4 ![1, 1, 3] else atom_at 7 ![1, 1, 3])
      else atom_at 1 ![1, 1, 1] }

/-- The direct evaluator over `gd` of slope 1 for `m_unset`, with the declarations
`K_wide`. -/
def nc_unset : non_cache ℤ := non_cache.ctor K_wide m_unset gd p 1

end sample

/-! ## Loops -/

section lemmas

variable {F : Type} [LinearOrderedCommRing F]

/-- A loop whose body leaves the state as it is at the elements outside `q`, and is `g` at
those inside, is the loop of `g` over the elements inside `q`. -/
theorem foldlM_filter_of_skip {α σ : Type} (f g : σ → α → Option σ) (q : α → Bool)
    (hskip : ∀ s a, q a = false → f s a = some s) (hin : ∀ s a, q a = true → f s a = g s a)
    (l : List α) (s : σ) :
    l.foldlM f s = (l.filter q).foldlM g s := by
  induction l generalizing s with
  | nil => rfl
  | cons a l ih =>
    cases hq : q a
    · simp [List.filter_cons, hq, hskip s a hq, ih]
    · simp only [List.filter_cons, hq, if_true, List.foldlM_cons, hin s a hq]
      cases g s a with
      | none => rfl
      | some s1 => simpa using ih s1

/-- The energy of a derivative loop: the model is changed in its `minus_forces` only, which
the per-atom terms do not read. -/
theorem deriv_loop_energy (m : model F) (step : F × model F → Nat → Option (F × model F))
    (q : Nat → Bool) (term : Nat → Option (F × vec F))
    (hstep : ∀ e f i, step (e, { m with minus_forces := f }) i =
      if q i = false then some (e, { m with minus_forces := Function.update f i 0 })
      else match term i with
        | some r => some (e + r.1, { m with minus_forces := Function.update f i r.2 })
        | none => none)
    (l : List Nat) (e : F) (f : Nat → vec F) :
    Option.map Prod.fst (l.foldlM step (e, { m with minus_forces := f })) =
      (l.filter q).foldlM (fun e i => Option.map (fun r => e + r.1) (term i)) e := by
  induction l generalizing e f with
  | nil => rfl
  | cons a l ih =>
    cases hq : q a
    · simp [List.filter_cons, hq, hstep, ih]
    · simp only [List.filter_cons, hq, if_true, List.foldlM_cons, hstep]
      cases term a with
      | none => rfl
      | some r => simpa using ih _ _

/-- The forces of a derivative loop: an atom outside `q` that the loop visits, or whose
force was zero before and that the loop sets to zero at most, has a zero force after it. -/
theorem deriv_loop_forces (m : model F) (step : F × model F → Nat → Option (F × model F))
    (q : Nat → Bool) (term : Nat → Option (F × vec F))
    (hstep : ∀ e f i, step (e, { m with minus_forces := f }) i =
      if q i = false then some (e, { m with minus_forces := Function.update f i 0 })
      else match term i with
        | some r => some (e + r.1, { m with minus_forces := Function.update f i r.2 })
        | none => none)
    (k : Nat) (hk : q k = false) (l : List Nat) (e : F) (f : Nat → vec F)
    (h0 : k ∈ l ∨ f k = 0) (r : F × model F)
    (hr : l.foldlM step (e, { m with minus_forces := f }) = some r) :
    r.2.minus_forces k = 0 := by
  induction l generalizing e f with
  | nil =>
    simp at hr
    subst hr
    simpa using h0
  | cons a l ih =>
    simp only [List.foldlM_cons, hstep] at hr
    cases hq : q a
    · simp only [hq, if_true] at hr
      refine ih _ _ ?_ hr
      by_cases hak : k = a
      · right; subst hak; simp
      · rcases h0 with h0 | h0
        · left; simpa [hak] using h0
        · right; simp [Function.update, hak, h0]
    · simp only [hq] at hr
      have hak : k ≠ a := by rintro rfl; simp [hk] at hq
      cases hta : term a with
      | none => simp [hta] at hr
      | some t =>
        simp only [hta] at hr
        refine ih _ _ ?_ hr
        rcases h0 with h0 | h0
        · left; simpa [hak] using h0
        · right; simp [Function.update, hak, h0]

/-- The loop of `cache::eval` is the sum over the in-scheme movable atoms. -/
theorem cache_eval_eq_sum (K : decls F) (c : cache F) (m : model F) (v : F) :
    cache.eval K c m v = sum_terms (cache.eval_atom K c m v) (in_scheme_movable K c.atu m) := by
  unfold cache.eval sum_terms in_scheme_movable
  apply foldlM_filter_of_skip
  · intro s a ha
    simp at ha
    simp [cache.eval_step, ha]
  · intro s a ha
    simp at ha
    simp only [cache.eval_step, ge_iff_le, Nat.not_le.mpr ha, if_false]
    cases cache.eval_atom K c m v a <;> rfl

/-- The loop of `non_cache::eval` is the sum over the in-scheme movable atoms. -/
theorem non_cache_eval_eq_sum (K : decls F) (nc : non_cache F) (m : model F) (v : F) :
    non_cache.eval K nc m v =
      sum_terms (non_cache.eval_atom K nc m v) (in_scheme_movable K nc.p.atom_typing_used m) := by
  unfold non_cache.eval sum_terms in_scheme_movable
  apply foldlM_filter_of_skip
  · intro s a ha
    simp at ha
    simp [non_cache.eval_step, ha]
  · intro s a ha
    simp at ha
    simp only [non_cache.eval_step, ge_iff_le, Nat.not_le.mpr ha, if_false]
    cases non_cache.eval_atom K nc m v a <;> rfl

/-- The shape of the body of the loop of `cache::eval_deriv`. -/
theorem cache_eval_deriv_step_eq (K : decls F) (c : cache F) (m : model F) (v : F) (e : F)
    (f : Nat → vec F) (i : Nat) :
    cache.eval_deriv_step K c v (e, { m with minus_forces := f }) i =
      if decide (K.atom_get (m.atoms i) c.atu < K.num_atom_types c.atu) = false then
        some (e, { m with minus_forces := Function.update f i 0 })
      else match cache.eval_deriv_atom K c m v i with
        | some r => some (e + r.1, { m with minus_forces := Function.update f i r.2 })
        | none => none := by
  by_cases h : K.atom_get (m.atoms i) c.atu < K.num_atom_types c.atu
  · simp only [cache.eval_deriv_step, ge_iff_le, Nat.not_le.mpr h, if_false, h, decide_True]
    rfl
  · simp only [cache.eval_deriv_step, ge_iff_le, Nat.not_lt.mp h, if_true, h, decide_False]
    rfl

/-- The shape of the body of the loop of `non_cache::eval_deriv`. -/
theorem non_cache_eval_deriv_step_eq (K : decls F) (nc : non_cache F) (m : model F) (v : F)
    (e : F) (f : Nat → vec F) (i : Nat) :
    non_cache.eval_deriv_step K nc v (e, { m with minus_forces := f }) i =
      if decide (K.atom_get (m.atoms i) nc.p.atom_typing_used
          < K.num_atom_types nc.p.atom_typing_used) = false then
        some (e, { m with minus_forces := Function.update f i 0 })
      else match non_cache.eval_deriv_atom K nc m v i with
        | some r => some (e + r.1, { m with minus_forces := Function.update f i r.2 })
        | none => none := by
  by_cases h : K.atom_get (m.atoms i) nc.p.atom_typing_used
      < K.num_atom_types nc.p.atom_typing_used
  · simp only [non_cache.eval_deriv_step, ge_iff_le, Nat.not_le.mpr h, if_false, h, decide_True]
    rfl
  · simp only [non_cache.eval_deriv_step, ge_iff_le, Nat.not_lt.mp h, if_true, h, decide_False]
    rfl

end lemmas
/-! ## Lemmas on `cache::populate` -/

section populate_lemmas

variable {F : Type} [LinearOrderedCommRing F]

/-- What every returning step keeps, a returning loop keeps. -/
theorem foldlM_preserves {α σ : Type} (f : σ → α → Option σ) (P : σ → Prop)
    (hf : ∀ s a s1, P s → f s a = some s1 → P s1) (l : List α) (s s1 : σ) (hs : P s)
    (h : l.foldlM f s = some s1) : P s1 := by
  induction l generalizing s with
  | nil => simp at h; subst h; exact hs
  | cons a l ih =>
    simp only [List.foldlM_cons] at h
    cases hfa : f s a with
    | none => simp [hfa] at h
    | some s2 =>
      simp only [hfa] at h
      exact ih s2 (hf s a s2 hs hfa) h

/-- A loop of steps that all return, returns. -/
theorem foldlM_total {α σ : Type} (f : σ → α → Option σ)
    (hf : ∀ s a, ∃ s1, f s a = some s1) (l : List α) (s : σ) :
    ∃ s1, l.foldlM f s = some s1 := by
  induction l generalizing s with
  | nil => exact ⟨s, rfl⟩
  | cons a l ih =>
    obtain ⟨s2, h2⟩ := hf s a
    obtain ⟨s1, h1⟩ := ih s2
    exact ⟨s1, by simp [List.foldlM_cons, h2, h1]⟩

/-- A loop of writes: when the step of the key `k` sets the observation at the places it
hits to `val` and leaves the others, the loop sets the places hit by one of its keys to
`val` and leaves the others. -/
theorem foldlM_writes {κ σ Q V : Type} (W : σ → κ → Option σ) (obs : σ → Q → V)
    (hit : κ → Q → Prop) (val : Q → V)
    (hW : ∀ s k s1, W s k = some s1 → ∀ q,
      (hit k q → obs s1 q = val q) ∧ (¬ hit k q → obs s1 q = obs s q))
    (l : List κ) (s s1 : σ) (h : l.foldlM W s = some s1) (q : Q) :
    ((∃ k ∈ l, hit k q) → obs s1 q = val q) ∧ ((¬ ∃ k ∈ l, hit k q) → obs s1 q = obs s q) := by
  induction l generalizing s with
  | nil => simp at h; subst h; simp
  | cons a l ih =>
    simp only [List.foldlM_cons] at h
    cases hfa : W s a with
    | none => simp [hfa] at h
    | some s2 =>
      simp only [hfa] at h
      have h2 := hW s a s2 hfa q
      have h3 := ih s2 h
      by_cases hl : ∃ k ∈ l, hit k q
      · refine ⟨fun _ => h3.1 hl, fun hn => ?_⟩
        exact absurd (by obtain ⟨k, hk, hkq⟩ := hl; exact ⟨k, List.mem_cons_of_mem _ hk, hkq⟩) hn
      · by_cases ha : hit a q
        · refine ⟨fun _ => (h3.2 hl).trans (h2.1 ha), fun hn => ?_⟩
          exact absurd ⟨a, List.mem_cons_self _ _, ha⟩ hn
        · refine ⟨fun hex => ?_, fun _ => (h3.2 hl).trans (h2.2 ha)⟩
          obtain ⟨k, hk, hkq⟩ := hex
          rcases List.mem_cons.mp hk with rfl | hk
          · exact absurd hkq ha
          · exact absurd ⟨k, hk, hkq⟩ hl

/-- `grid::init` does not read the grid it is called on. -/
theorem grid_init_eq (K : decls F) (g g1 : grid F) (gd : grid_dims F) :
    g.init K gd = g1.init K gd := rfl

/-- Two grids of the same shape and the same values are the same grid. -/
theorem grid_eq_of_shape_of_data (g g1 : grid F) (hs : g.shape = g1.shape)
    (hd : ∀ x y z, g.m_data x y z = g1.m_data x y z) : g = g1 := by
  cases g; cases g1
  simp only [grid.shape, Prod.mk.injEq] at hs
  obtain ⟨h1, h2, h3, h4, h5⟩ := hs
  have hd1 : ∀ x, _ := fun x => funext (fun y => funext (fun z => hd x y z))
  simp only at h1 h2 h3 h4 h5 hd1
  subst h1 h2 h3 h4 h5
  congr
  exact funext hd1

/-- The first loop of `cache::populate`, from any state: what it notes and what it allocates. -/
theorem populate_needed_fold (K : decls F) (gd : grid_dims F) (l : List Nat) (nd : List Nat)
    (gs : Nat → grid F) (t : Nat) :
    (t ∈ (l.foldl (cache.populate_needed_step K gd) (nd, gs)).1 ↔
        t ∈ nd ∨ (t ∈ l ∧ (gs t).initialized = false))
    ∧ (l.foldl (cache.populate_needed_step K gd) (nd, gs)).2 t =
        if t ∈ l ∧ (gs t).initialized = false then (gs t).init K gd else gs t := by
  induction l generalizing nd gs with
  | nil => simp
  | cons a l ih =>
    simp only [List.foldl_cons]
    cases ha : (gs a).initialized
    · have hstep : cache.populate_needed_step K gd (nd, gs) a =
          (nd ++ [a], Function.update gs a ((gs a).init K gd)) := by
        simp [cache.populate_needed_step, ha]
      rw [hstep]
      obtain ⟨h1, h2⟩ := ih (nd ++ [a]) (Function.update gs a ((gs a).init K gd))
      by_cases hta : t = a
      · subst hta
        constructor
        · rw [h1]; simp [ha]
        · have ha1 : (gs t).m_initialized = false := ha
          rw [h2]; simp [ha1, grid.init, grid.initialized]
      · constructor
        · rw [h1]; simp [hta, Function.update]
        · rw [h2]; simp [hta, Function.update]
    · have hstep : cache.populate_needed_step K gd (nd, gs) a = (nd, gs) := by
        simp [cache.populate_needed_step, ha]
      rw [hstep]
      obtain ⟨h1, h2⟩ := ih nd gs
      by_cases hta : t = a
      · subst hta
        constructor
        · rw [h1]; simp [ha]
        · rw [h2]; simp [ha]
      · constructor
        · rw [h1]; simp [hta]
        · rw [h2]; simp [hta]

/-- The loop over `needed` for one candidate, on affinities given by a function of the
type. -/
theorem populate_add_map (K : decls F) (c : cache F) (p : precalculate F) (t1 : Nat)
    (r2 theta : F) (needed : List Nat) (h : Nat → F) :
    cache.populate_add K c p t1 r2 theta needed (needed.map h) =
      if ∀ t ∈ needed, t < K.num_atom_types c.atu then
        some (needed.map (fun t2 => h t2 + p.eval_fast
          (K.triangular_matrix_index_permissive (K.num_atom_types c.atu) t1 t2) r2 theta))
      else none := by
  induction needed with
  | nil => simp [cache.populate_add]
  | cons a l ih =>
    simp only [List.map_cons, cache.populate_add, ih, List.forall_mem_cons]
    by_cases ha : a < K.num_atom_types c.atu
    · by_cases hl : ∀ t ∈ l, t < K.num_atom_types c.atu
      · rw [if_pos hl, if_pos ha, if_pos ⟨ha, hl⟩]
      · rw [if_neg hl, if_pos ha, if_neg (fun hh => hl hh.2)]
    · rw [if_neg ha, if_neg (fun hh => ha hh.1)]

/-- The body of the loop over the candidates, on affinities given by a function of the
type. -/
theorem populate_candidate_map (K : decls F) (c : cache F) (m : model F) (p : precalculate F)
    (needed : List Nat) (probe_coords : vec F) (h : Nat → F) (i : Nat) :
    cache.populate_candidate K c m p needed probe_coords (needed.map h) i =
      if (decide (K.atom_get (m.grid_atoms i) c.atu < K.num_atom_types c.atu) &&
          decide (vec_distance_sqr (m.grid_atoms i).coords probe_coords ≤ p.cutoff_sqr)) = true
      then
        if ∀ t ∈ needed, t < K.num_atom_types c.atu then
          some (needed.map (fun t2 => h t2 + cache.populate_term K c m p probe_coords t2 i))
        else none
      else some (needed.map h) := by
  unfold cache.populate_candidate
  by_cases h1 : K.atom_get (m.grid_atoms i) c.atu < K.num_atom_types c.atu
  · by_cases h2 : vec_distance_sqr (m.grid_atoms i).coords probe_coords ≤ p.cutoff_sqr
    · simp only [ge_iff_le, Nat.not_le.mpr h1, if_false, h2, if_true, populate_add_map, h1,
        decide_True, Bool.and_self]
      rfl
    · simp [Nat.not_le.mpr h1, h2]
  · simp [Nat.not_lt.mp h1, h1]

/-- The loop over the candidates of one lattice point, on affinities given by a function of
the type: each affinity grows by the sum of the terms of the candidates that add. -/
theorem populate_candidates_map (K : decls F) (c : cache F) (m : model F) (p : precalculate F)
    (needed : List Nat) (probe_coords : vec F) (cands : List Nat) (h : Nat → F) :
    cands.foldlM (cache.populate_candidate K c m p needed probe_coords) (needed.map h) =
      if (∀ t ∈ needed, t < K.num_atom_types c.atu) ∨ (∀ i ∈ cands,
          (decide (K.atom_get (m.grid_atoms i) c.atu < K.num_atom_types c.atu) &&
          decide (vec_distance_sqr (m.grid_atoms i).coords probe_coords ≤ p.cutoff_sqr)) = false)
      then
        some (needed.map (fun t2 => h t2 + ((cands.filter (fun i =>
          decide (K.atom_get (m.grid_atoms i) c.atu < K.num_atom_types c.atu) &&
          decide (vec_distance_sqr (m.grid_atoms i).coords probe_coords ≤ p.cutoff_sqr))).map
            (cache.populate_term K c m p probe_coords t2)).sum))
      else none := by
  induction cands generalizing h with
  | nil => simp
  | cons i l ih =>
    simp only [List.foldlM_cons, populate_candidate_map, List.forall_mem_cons]
    cases hc : (decide (K.atom_get (m.grid_atoms i) c.atu < K.num_atom_types c.atu) &&
          decide (vec_distance_sqr (m.grid_atoms i).coords probe_coords ≤ p.cutoff_sqr))
    · simp only [Bool.false_eq_true, if_false, true_and]
      have := ih h
      simp only [Option.bind_eq_bind, Option.some_bind] at this ⊢
      rw [this]
      simp [List.filter_cons, hc]
    · by_cases hN : ∀ t ∈ needed, t < K.num_atom_types c.atu
      · rw [if_pos rfl, if_pos hN, if_pos (Or.inl hN)]
        simp only [Option.bind_eq_bind, Option.some_bind]
        rw [ih, if_pos (Or.inl hN)]
        simp [List.filter_cons, hc, add_assoc]
      · rw [if_pos rfl, if_neg hN, if_neg (by simp [hN])]
        rfl

/-- The loop of writes for one lattice point, on affinities given by a function of the
type: when it returns, every assertion held, the shapes are kept, and the value at the
lattice point of each grid in `needed` is its affinity. -/
theorem populate_write_map (K : decls F) (c : cache F) (x y z : Nat) (needed : List Nat)
    (h : Nat → F) (grids grids1 : Nat → grid F)
    (hw : cache.populate_write K c x y z needed (needed.map h) grids = some grids1) (t : Nat) :
    (grids1 t).shape = (grids t).shape
    ∧ ∀ x1 y1 z1,
      (t ∈ needed ∧ x1 = x ∧ y1 = y ∧ z1 = z → (grids1 t).m_data x1 y1 z1 = h t)
      ∧ (¬ (t ∈ needed ∧ x1 = x ∧ y1 = y ∧ z1 = z) →
          (grids1 t).m_data x1 y1 z1 = (grids t).m_data x1 y1 z1) := by
  induction needed generalizing grids with
  | nil =>
    simp [cache.populate_write] at hw
    subst hw
    simp
  | cons a l ih =>
    simp only [List.map_cons, cache.populate_write] at hw
    by_cases ha : a < K.num_atom_types c.atu
    · simp only [ha, if_true] at hw
      obtain ⟨hs, hd⟩ := ih _ hw
      by_cases hta : t = a
      · subst hta
        refine ⟨?_, fun x1 y1 z1 => ?_⟩
        · rw [hs]; simp [grid.shape, grid.set]
        · have hd1 := hd x1 y1 z1
          by_cases hp : x1 = x ∧ y1 = y ∧ z1 = z
          · refine ⟨fun _ => ?_, fun hn => absurd ⟨List.mem_cons_self _ _, hp⟩ hn⟩
            by_cases htl : t ∈ l
            · exact hd1.1 ⟨htl, hp⟩
            · rw [hd1.2 (fun hh => htl hh.1)]
              simp [hp, grid.set]
          · refine ⟨fun hh => absurd hh.2 hp, fun _ => ?_⟩
            rw [hd1.2 (fun hh => hp hh.2)]
            simp [hp, grid.set]
      · refine ⟨?_, fun x1 y1 z1 => ?_⟩
        · rw [hs]; simp [Function.update, hta]
        · have hd1 := hd x1 y1 z1
          simp only [List.mem_cons, hta, false_or]
          simpa [Function.update, hta] using hd1
    · simp [ha] at hw

/-- The loop of writes returns when every type in `needed` is inside the scheme. -/
theorem populate_write_total (K : decls F) (c : cache F) (x y z : Nat) (needed : List Nat)
    (hN : ∀ t ∈ needed, t < K.num_atom_types c.atu) (affinities : List F)
    (grids : Nat → grid F) :
    ∃ grids1, cache.populate_write K c x y z needed affinities grids = some grids1 := by
  induction needed generalizing affinities grids with
  | nil => exact ⟨grids, by simp [cache.populate_write]⟩
  | cons a l ih =>
    cases affinities with
    | nil => exact ⟨grids, by simp [cache.populate_write]⟩
    | cons aff affs =>
      simp only [cache.populate_write, hN a (List.mem_cons_self _ _), if_true]
      exact ih (fun t ht => hN t (List.mem_cons_of_mem _ ht)) _ _

/-- The body of the lattice loops for the point `(x, y, z)`: when it returns, the shapes
are kept and the value at `(x, y, z)` of each grid in `needed` is the sum of the terms of
the candidates of the point. -/
theorem populate_point_spec (K : decls F) (c : cache F) (m : model F) (p : precalculate F)
    (needed : List Nat) (ig : szv_grid F) (gd0 : grid_dims F) (x y z : Nat)
    (grids grids1 : Nat → grid F)
    (hp : cache.populate_point K c m p needed ig gd0 x y z grids = some grids1) (t : Nat) :
    (grids1 t).shape = (grids t).shape
    ∧ ∀ x1 y1 z1,
      (t ∈ needed ∧ x1 = x ∧ y1 = y ∧ z1 = z → (grids1 t).m_data x1 y1 z1 =
        cache.populate_sum K c m p ig (K.index_to_argument gd0 x y z) t)
      ∧ (¬ (t ∈ needed ∧ x1 = x ∧ y1 = y ∧ z1 = z) →
          (grids1 t).m_data x1 y1 z1 = (grids t).m_data x1 y1 z1) := by
  unfold cache.populate_point at hp
  have hrep : List.replicate needed.length (0 : F) = needed.map (fun _ => (0 : F)) := by
    simp
  simp only [hrep, populate_candidates_map] at hp
  by_cases hc : (∀ t ∈ needed, t < K.num_atom_types c.atu) ∨
      (∀ i ∈ ig.possibilities (K.index_to_argument gd0 x y z),
        (decide (K.atom_get (m.grid_atoms i) c.atu < K.num_atom_types c.atu) &&
          decide (vec_distance_sqr (m.grid_atoms i).coords (K.index_to_argument gd0 x y z)
            ≤ p.cutoff_sqr)) = false)
  · rw [if_pos hc] at hp
    have := populate_write_map K c x y z needed _ grids grids1 hp t
    simpa [cache.populate_sum] using this
  · rw [if_neg hc] at hp
    simp at hp

/-- The body of the lattice loops returns when every type in `needed` is inside the
scheme. -/
theorem populate_point_total (K : decls F) (c : cache F) (m : model F) (p : precalculate F)
    (needed : List Nat) (hN : ∀ t ∈ needed, t < K.num_atom_types c.atu) (ig : szv_grid F)
    (gd0 : grid_dims F) (x y z : Nat) (grids : Nat → grid F) :
    ∃ grids1, cache.populate_point K c m p needed ig gd0 x y z grids = some grids1 := by
  unfold cache.populate_point
  have hrep : List.replicate needed.length (0 : F) = needed.map (fun _ => (0 : F)) := by
    simp
  simp only [hrep, populate_candidates_map, if_pos (Or.inl hN)]
  exact populate_write_total K c x y z needed hN _ _

/-- The three nested lattice loops of `cache::populate`, over the extents `I`, `J`, `L`:
when they return, the shapes are kept, and each grid in `needed` holds at each lattice
point the sum of the terms of the candidates of the point; nothing else is changed. -/
theorem populate_loops_spec (K : decls F) (c : cache F) (m : model F) (p : precalculate F)
    (needed : List Nat) (ig : szv_grid F) (gd0 : grid_dims F) (I J L : Nat)
    (grids grids1 : Nat → grid F)
    (hl : (List.range I).foldlM (fun grids x =>
        (List.range J).foldlM (fun grids y =>
          (List.range L).foldlM (fun grids z =>
            cache.populate_point K c m p needed ig gd0 x y z grids) grids) grids) grids
      = some grids1) (t : Nat) :
    (grids1 t).shape = (grids t).shape
    ∧ ∀ x y z,
      (t ∈ needed ∧ x < I ∧ y < J ∧ z < L → (grids1 t).m_data x y z =
        cache.populate_sum K c m p ig (K.index_to_argument gd0 x y z) t)
      ∧ (¬ (t ∈ needed ∧ x < I ∧ y < J ∧ z < L) →
          (grids1 t).m_data x y z = (grids t).m_data x y z) := by
  constructor
  · refine foldlM_preserves _ (fun gs => (gs t).shape = (grids t).shape) ?_ _ _ _ rfl hl
    intro s x s1 hs hx
    refine foldlM_preserves _ (fun gs => (gs t).shape = (grids t).shape) ?_ _ _ _ hs hx
    intro s y s1 hs hy
    refine foldlM_preserves _ (fun gs => (gs t).shape = (grids t).shape) ?_ _ _ _ hs hy
    intro s z s1 hs hz
    exact ((populate_point_spec K c m p needed ig gd0 x y z s s1 hz t).1).trans hs
  · intro x y z
    have key := foldlM_writes
      (fun grids x => (List.range J).foldlM (fun grids y =>
          (List.range L).foldlM (fun grids z =>
            cache.populate_point K c m p needed ig gd0 x y z grids) grids) grids)
      (fun (gs : Nat → grid F) (q : Nat × Nat × Nat × Nat) => (gs q.1).m_data q.2.1 q.2.2.1 q.2.2.2)
      (fun x q => q.1 ∈ needed ∧ q.2.1 = x ∧ q.2.2.1 < J ∧ q.2.2.2 < L)
      (fun q => cache.populate_sum K c m p ig
        (K.index_to_argument gd0 q.2.1 q.2.2.1 q.2.2.2) q.1)
      ?_ (List.range I) grids grids1 hl (t, x, y, z)
    · dsimp only at key
      obtain ⟨k1, k2⟩ := key
      constructor
      · intro hh
        exact k1 ⟨x, List.mem_range.mpr hh.2.1, hh.1, rfl, hh.2.2.1, hh.2.2.2⟩
      · intro hh
        refine k2 ?_
        rintro ⟨k, hk, h1, h2, h3, h4⟩
        exact hh ⟨h1, h2 ▸ List.mem_range.mp hk, h3, h4⟩
    · intro s x0 s1 hx q
      have key2 := foldlM_writes
        (fun grids y => (List.range L).foldlM (fun grids z =>
            cache.populate_point K c m p needed ig gd0 x0 y z grids) grids)
        (fun (gs : Nat → grid F) (q : Nat × Nat × Nat × Nat) =>
          (gs q.1).m_data q.2.1 q.2.2.1 q.2.2.2)
        (fun y q => q.1 ∈ needed ∧ q.2.1 = x0 ∧ q.2.2.1 = y ∧ q.2.2.2 < L)
        (fun q => cache.populate_sum K c m p ig
          (K.index_to_argument gd0 q.2.1 q.2.2.1 q.2.2.2) q.1)
        ?_ (List.range J) s s1 hx q
      · dsimp only at key2 ⊢
        obtain ⟨k1, k2⟩ := key2
        constructor
        · intro hh
          exact k1 ⟨q.2.2.1, List.mem_range.mpr hh.2.2.1, hh.1, hh.2.1, rfl, hh.2.2.2⟩
        · intro hh
          refine k2 ?_
          rintro ⟨k, hk, h1, h2, h3, h4⟩
          exact hh ⟨h1, h2, h3 ▸ List.mem_range.mp hk, h4⟩
      · intro s2 y0 s3 hy q
        have key3 := foldlM_writes
          (fun grids z => cache.populate_point K c m p needed ig gd0 x0 y0 z grids)
          (fun (gs : Nat → grid F) (q : Nat × Nat × Nat × Nat) =>
            (gs q.1).m_data q.2.1 q.2.2.1 q.2.2.2)
          (fun z q => q.1 ∈ needed ∧ q.2.1 = x0 ∧ q.2.2.1 = y0 ∧ q.2.2.2 = z)
          (fun q => cache.populate_sum K c m p ig
            (K.index_to_argument gd0 q.2.1 q.2.2.1 q.2.2.2) q.1)
          ?_ (List.range L) s2 s3 hy q
        · dsimp only at key3 ⊢
          obtain ⟨k1, k2⟩ := key3
          constructor
          · intro hh
            exact k1 ⟨q.2.2.2, List.mem_range.mpr hh.2.2.2, hh.1, hh.2.1, hh.2.2.1, rfl⟩
          · intro hh
            refine k2 ?_
            rintro ⟨k, hk, h1, h2, h3, h4⟩
            exact hh ⟨h1, h2, h3, h4 ▸ List.mem_range.mp hk⟩
        · intro s4 z0 s5 hz q
          have h5 := (populate_point_spec K c m p needed ig gd0 x0 y0 z0 s4 s5 hz q.1).2
            q.2.1 q.2.2.1 q.2.2.2
          dsimp only
          constructor
          · intro hh
            rw [h5.1 hh, hh.2.1, hh.2.2.1, hh.2.2.2]
          · intro hh
            exact h5.2 hh

/-- The three nested lattice loops return when every type in `needed` is inside the
scheme. -/
theorem populate_loops_total (K : decls F) (c : cache F) (m : model F) (p : precalculate F)
    (needed : List Nat) (hN : ∀ t ∈ needed, t < K.num_atom_types c.atu) (ig : szv_grid F)
    (gd0 : grid_dims F) (I J L : Nat) (grids : Nat → grid F) :
    ∃ grids1, (List.range I).foldlM (fun grids x =>
        (List.range J).foldlM (fun grids y =>
          (List.range L).foldlM (fun grids z =>
            cache.populate_point K c m p needed ig gd0 x y z grids) grids) grids) grids
      = some grids1 := by
  refine foldlM_total _ (fun s x => ?_) _ _
  refine foldlM_total _ (fun s y => ?_) _ _
  refine foldlM_total _ (fun s z => ?_) _ _
  exact populate_point_total K c m p needed hN ig gd0 x y z s

/-- What `cache::populate` leaves when it returns: the configuration is kept; a requested
grid that was not initialized has the shape `init` gives it over the `grid_dims` of the
cache and holds, at each lattice point, the sum of the terms of the candidates of the
point; every other grid is as it was. -/
theorem populate_spec (K : decls F) (c : cache F) (m : model F) (p : precalculate F)
    (L : List Nat) (c1 : cache F) (h : cache.populate K c m p L = some c1) :
    (c1.scoring_function_version = c.scoring_function_version ∧ c1.gd = c.gd
      ∧ c1.slope = c.slope ∧ c1.atu = c.atu)
    ∧ ∀ t,
      (t ∈ L ∧ (c.grids t).initialized = false →
        (c1.grids t).shape = ((c.grids t).init K c.gd).shape
        ∧ ∀ x y z, x < K.grid_points (c.gd 0) → y < K.grid_points (c.gd 1) →
          z < K.grid_points (c.gd 2) →
          (c1.grids t).m_data x y z =
            cache.populate_sum K c m p (K.szv_grid_ctor m (K.szv_grid_dims c.gd) p.cutoff_sqr)
              (K.index_to_argument c.gd x y z) t)
      ∧ (¬ (t ∈ L ∧ (c.grids t).initialized = false) → c1.grids t = c.grids t) := by
  have hmem : ∀ t, t ∈ (cache.populate_needed K c L).1 ↔
      (t ∈ L ∧ (c.grids t).initialized = false) := by
    intro t
    simpa using (populate_needed_fold K c.gd L [] c.grids t).1
  have hgs : ∀ t, (cache.populate_needed K c L).2 t =
      if t ∈ L ∧ (c.grids t).initialized = false then (c.grids t).init K c.gd
      else c.grids t := fun t => (populate_needed_fold K c.gd L [] c.grids t).2
  unfold cache.populate at h
  simp only at h
  split at h
  · rename_i hnd
    simp only [Option.some.injEq] at h
    subst h
    refine ⟨⟨rfl, rfl, rfl, rfl⟩, fun t => ?_⟩
    have hnot : ¬ (t ∈ L ∧ (c.grids t).initialized = false) := by
      rw [← hmem t, hnd]; simp
    refine ⟨fun hh => absurd hh hnot, fun _ => ?_⟩
    simp only
    rw [hgs t, if_neg hnot]
  · rename_i front rest hnd
    have hfront : (cache.populate_needed K c L).2 front = (c.grids front).init K c.gd := by
      rw [hgs front, if_pos ((hmem front).mp (by rw [hnd]; exact List.mem_cons_self _ _))]
    rw [hfront] at h
    split at h
    · rename_i grids hloop
      simp only [Option.some.injEq] at h
      subst h
      refine ⟨⟨rfl, rfl, rfl, rfl⟩, fun t => ?_⟩
      have hspec := populate_loops_spec K c m p _ _ _ _ _ _ _ _ hloop t
      simp only [grid.init] at hspec
      obtain ⟨hshape, hdata⟩ := hspec
      constructor
      · intro hh
        have htn : t ∈ (cache.populate_needed K c L).1 := (hmem t).mpr hh
        refine ⟨?_, fun x y z hx hy hz => ?_⟩
        · rw [hshape, hgs t, if_pos hh]
        · exact (hdata x y z).1 ⟨htn, hx, hy, hz⟩
      · intro hh
        have htn : ¬ t ∈ (cache.populate_needed K c L).1 := fun h1 => hh ((hmem t).mp h1)
        have hg : (cache.populate_needed K c L).2 t = c.grids t := by rw [hgs t, if_neg hh]
        simp only
        rw [← hg]
        refine grid_eq_of_shape_of_data _ _ hshape (fun x y z => ?_)
        exact (hdata x y z).2 (fun h1 => htn h1.1)
    · simp at h

/-- `cache::populate` returns when every requested type is inside the scheme. -/
theorem populate_total (K : decls F) (c : cache F) (m : model F) (p : precalculate F)
    (L : List Nat) (hL : ∀ t ∈ L, t < K.num_atom_types c.atu) :
    ∃ c1, cache.populate K c m p L = some c1 := by
  have hmem : ∀ t, t ∈ (cache.populate_needed K c L).1 → t ∈ L := by
    intro t ht
    have := (populate_needed_fold K c.gd L [] c.grids t).1.mp ht
    simp only [List.not_mem_nil, false_or] at this
    exact this.1
  unfold cache.populate
  simp only
  split
  · exact ⟨_, rfl⟩
  · rename_i front rest hnd
    have hN : ∀ t ∈ (cache.populate_needed K c L).1, t < K.num_atom_types c.atu :=
      fun t ht => hL t (hmem t ht)
    obtain ⟨grids1, hg⟩ := populate_loops_total K c m p (cache.populate_needed K c L).1 hN
      (K.szv_grid_ctor m (K.szv_grid_dims c.gd) p.cutoff_sqr)
      ((cache.populate_needed K c L).2 front).m_gd
      ((cache.populate_needed K c L).2 front).m_i
      ((cache.populate_needed K c L).2 front).m_j
      ((cache.populate_needed K c L).2 front).m_k
      (cache.populate_needed K c L).2
    rw [hg]
    exact ⟨_, rfl⟩

/-- The first loop of `cache::populate` notes nothing and changes nothing when every
requested grid is initialized. -/
theorem populate_needed_of_initialized (K : decls F) (c : cache F) (L : List Nat)
    (hI : ∀ t ∈ L, (c.grids t).initialized = true) :
    cache.populate_needed K c L = ([], c.grids) := by
  unfold cache.populate_needed
  induction L with
  | nil => rfl
  | cons a l ih =>
    have ha := hI a (List.mem_cons_self _ _)
    simp only [List.foldl_cons, cache.populate_needed_step, ha, Bool.not_true,
      Bool.false_eq_true, if_false]
    exact ih (fun t ht => hI t (List.mem_cons_of_mem _ ht))

end populate_lemmas
/-! ## Lemmas on `non_cache.cpp` -/

section non_cache_lemmas

variable {F : Type} [LinearOrderedCommRing F]

/-- The three axes, in the order of the loops. -/
theorem finRange_three : List.finRange 3 = [0, 1, 2] := by decide

/-- One step of the loop over the axes in `non_cache::eval`. -/
theorem clamp_step_eq (gd : grid_dims F) (a : vec F) (st : vec F × F) (k : Fin 3) :
    (∀ j, (non_cache.clamp_step gd a st k).1 j =
      if j = k then
        (if 0 < (gd j).n then
          (if a j < (gd j).begin then (gd j).begin
            else if a j > (gd j).end_ then (gd j).end_ else st.1 j)
          else st.1 j)
      else st.1 j)
    ∧ (non_cache.clamp_step gd a st k).2 = st.2 + outside_distance (gd k) (a k) := by
  unfold non_cache.clamp_step outside_distance
  by_cases hn : 0 < (gd k).n
  · by_cases h1 : a k < (gd k).begin
    · refine ⟨fun j => ?_, ?_⟩
      · by_cases hj : j = k
        · subst hj; simp [hn, h1]
        · simp [hn, h1, hj, Function.update]
      · simp [hn, h1, abs_of_neg (sub_neg.mpr h1)]
    · by_cases h2 : a k > (gd k).end_
      · refine ⟨fun j => ?_, ?_⟩
        · by_cases hj : j = k
          · subst hj; simp [hn, h1, h2]
          · simp [hn, h1, h2, hj, Function.update]
        · simp [hn, h1, h2, abs_of_pos (sub_pos.mpr h2)]
      · refine ⟨fun j => ?_, ?_⟩
        · by_cases hj : j = k
          · subst hj; simp [hn, h1, h2]
          · simp [hn, h1, h2, hj]
        · simp [hn, h1, h2]
  · refine ⟨fun j => ?_, ?_⟩
    · by_cases hj : j = k
      · subst hj; simp [hn]
      · simp [hn, hj]
    · simp [hn]

/-- The loop over the axes in `non_cache::eval`, over any list of axes and from any state. -/
theorem clamp_fold (gd : grid_dims F) (a : vec F) (l : List (Fin 3)) (st : vec F × F) :
    (∀ j, (l.foldl (non_cache.clamp_step gd a) st).1 j =
      if j ∈ l then
        (if 0 < (gd j).n then
          (if a j < (gd j).begin then (gd j).begin
            else if a j > (gd j).end_ then (gd j).end_ else st.1 j)
          else st.1 j)
      else st.1 j)
    ∧ (l.foldl (non_cache.clamp_step gd a) st).2 =
        st.2 + (l.map (fun k => outside_distance (gd k) (a k))).sum := by
  induction l generalizing st with
  | nil => simp
  | cons k l ih =>
    obtain ⟨h1, h2⟩ := clamp_step_eq gd a st k
    obtain ⟨i1, i2⟩ := ih (non_cache.clamp_step gd a st k)
    simp only [List.foldl_cons]
    refine ⟨fun j => ?_, ?_⟩
    · rw [i1 j, h1 j]
      by_cases hj : j = k
      · subst hj
        by_cases hl : j ∈ l
        · simp only [hl, if_true, List.mem_cons, true_or]
          split_ifs <;> rfl
        · simp only [hl, if_false, if_true, List.mem_cons, true_or]
      · simp [hj]
    · rw [i2, h2]
      simp [add_assoc]

/-- The clamped coordinates, axis by axis. -/
theorem clamp_fst (gd : grid_dims F) (a : vec F) :
    (non_cache.clamp gd a).1 = fun j => clamp_coord (gd j) (a j) := by
  funext j
  have h := (clamp_fold gd a (List.finRange 3) (a, 0)).1 j
  simp only [List.mem_finRange, if_true] at h
  exact h

/-- The sum of the clamping distances, axis by axis. -/
theorem clamp_snd (gd : grid_dims F) (a : vec F) :
    (non_cache.clamp gd a).2 =
      outside_distance (gd 0) (a 0) + outside_distance (gd 1) (a 1)
        + outside_distance (gd 2) (a 2) := by
  have h := (clamp_fold gd a (List.finRange 3) (a, 0)).2
  rw [finRange_three] at h
  simp only [non_cache.clamp, finRange_three]
  rw [h]
  simp [add_assoc]

/-- One step of the loop over the axes in `non_cache::eval_deriv` does to the clamped
coordinates and to the penalty what the step in `non_cache::eval` does. -/
theorem clamp_deriv_step_eq (gd : grid_dims F) (a : vec F) (st : vec F × vec F × F)
    (k : Fin 3) :
    ((non_cache.clamp_deriv_step gd a st k).1, (non_cache.clamp_deriv_step gd a st k).2.2) =
      non_cache.clamp_step gd a (st.1, st.2.2) k := by
  unfold non_cache.clamp_deriv_step non_cache.clamp_step
  split_ifs <;> rfl

/-- The loop over the axes in `non_cache::eval_deriv` computes the clamped coordinates and
the penalty of `non_cache::eval`. -/
theorem clamp_deriv_eq (gd : grid_dims F) (a : vec F) :
    (non_cache.clamp_deriv gd a).1 = (non_cache.clamp gd a).1
    ∧ (non_cache.clamp_deriv gd a).2.2 = (non_cache.clamp gd a).2 := by
  have key : ∀ (l : List (Fin 3)) (st : vec F × vec F × F),
      ((l.foldl (non_cache.clamp_deriv_step gd a) st).1,
        (l.foldl (non_cache.clamp_deriv_step gd a) st).2.2) =
      l.foldl (non_cache.clamp_step gd a) (st.1, st.2.2) := by
    intro l
    induction l with
    | nil => intro st; rfl
    | cons k l ih =>
      intro st
      simp only [List.foldl_cons]
      rw [ih, clamp_deriv_step_eq]
  have h := key (List.finRange 3) (a, 0, 0)
  simp only [non_cache.clamp_deriv, non_cache.clamp]
  exact Prod.ext_iff.mp h

/-- Inside the box on an axis, or on an axis where `n` is zero, the coordinate is not
moved and lies at distance zero. -/
theorem clamp_coord_inside (d : grid_dim F) (x : F)
    (h : 0 < d.n → d.begin ≤ x ∧ x ≤ d.end_) :
    clamp_coord d x = x ∧ outside_distance d x = 0 := by
  unfold clamp_coord outside_distance
  by_cases hn : 0 < d.n
  · obtain ⟨h1, h2⟩ := h hn
    simp [hn, not_lt.mpr h1, not_lt.mpr h2]
  · simp [hn]

/-- Moving a coordinate that is not above `begin` further down adds the step to its
distance, in a box where `begin` is not above `end`. -/
theorem outside_distance_lower (d : grid_dim F) (x y : F) (hn : 0 < d.n)
    (hbox : d.begin ≤ d.end_) (hy : y < x) (hx : x ≤ d.begin) :
    outside_distance d y = outside_distance d x + (x - y) := by
  unfold outside_distance
  have h1 : y < d.begin := lt_of_lt_of_le hy hx
  have h3 : ¬ x > d.end_ := not_lt.mpr (le_trans hx hbox)
  rcases lt_or_eq_of_le hx with h2 | h2
  · simp [hn, h1, h2]
  · subst h2
    simp [hn, h1, h3]

/-- Moving a coordinate that is not below `end` further up adds the step to its distance,
in a box where `begin` is not above `end`. -/
theorem outside_distance_upper (d : grid_dim F) (x y : F) (hn : 0 < d.n)
    (hbox : d.begin ≤ d.end_) (hx : d.end_ ≤ x) (hy : x < y) :
    outside_distance d y = outside_distance d x + (y - x) := by
  unfold outside_distance
  have h1 : ¬ y < d.begin := not_lt.mpr (le_trans hbox (le_trans hx (le_of_lt hy)))
  have h2 : ¬ x < d.begin := not_lt.mpr (le_trans hbox hx)
  have h3 : y > d.end_ := lt_of_le_of_lt hx hy
  rcases lt_or_eq_of_le hx with h4 | h4
  · simp [hn, h1, h2, h3, h4]
  · subst h4
    simp [hn, h1, h2, h3]

/-- The per-atom term of `non_cache::eval` with the clamping loop in closed form: the
spatial index is queried, and the candidates are run, at the clamped coordinates. -/
theorem eval_atom_eq (K : decls F) (nc : non_cache F) (m : model F) (v : F) (i : Nat) :
    non_cache.eval_atom K nc m v i =
      Option.map
        (fun this_e => K.curl this_e v + non_cache.out_of_bounds_penalty nc (m.coords i))
        ((nc.sgrid.possibilities (fun j => clamp_coord (nc.gd j) (m.coords i j))).foldlM
          (non_cache.eval_candidate K nc m i (fun j => clamp_coord (nc.gd j) (m.coords i j)))
          0) := by
  unfold non_cache.eval_atom
  simp only [clamp_fst]
  cases (nc.sgrid.possibilities (fun j => clamp_coord (nc.gd j) (m.coords i j))).foldlM
    (non_cache.eval_candidate K nc m i (fun j => clamp_coord (nc.gd j) (m.coords i j))) 0 <;>
    rfl

/-- The body of the loop over the candidates of `non_cache::eval` for an in-scheme
receptor atom: the squared distance is taken from `adjusted_a_coords`. -/
theorem eval_candidate_eq (K : decls F) (nc : non_cache F) (m : model F) (i : Nat)
    (adjusted_a_coords : vec F) (this_e : F) (j : Nat)
    (hj : K.atom_get (m.grid_atoms j) nc.p.atom_typing_used
      < K.num_atom_types nc.p.atom_typing_used) :
    non_cache.eval_candidate K nc m i adjusted_a_coords this_e j =
      if vec_distance_sqr adjusted_a_coords (m.grid_atoms j).coords < nc.p.cutoff_sqr then
        Option.map (fun th => this_e + nc.p.eval_fast
            (K.get_type_pair_index nc.p.atom_typing_used (m.atoms i) (m.grid_atoms j))
            (vec_distance_sqr adjusted_a_coords (m.grid_atoms j).coords) th)
          (non_cache.theta K m i (m.atoms i) (m.grid_atoms j))
      else some this_e := by
  unfold non_cache.eval_candidate vec_distance_sqr
  simp only [ge_iff_le, Nat.not_le.mpr hj, if_false]
  split_ifs
  · cases non_cache.theta K m i (m.atoms i) (m.grid_atoms j) <;> rfl
  · rfl

/-- The body of the loop over the candidates of `non_cache::eval_deriv` for an in-scheme
receptor atom: the squared distance and the displacement are taken from
`adjusted_a_coords`. -/
theorem eval_deriv_candidate_eq (K : decls F) (nc : non_cache F) (m : model F) (i : Nat)
    (adjusted_a_coords : vec F) (st : F × vec F) (j : Nat)
    (hj : K.atom_get (m.grid_atoms j) nc.p.atom_typing_used
      < K.num_atom_types nc.p.atom_typing_used) :
    non_cache.eval_deriv_candidate K nc m i adjusted_a_coords st j =
      if vec_distance_sqr adjusted_a_coords (m.grid_atoms j).coords < nc.p.cutoff_sqr then
        Option.map (fun th =>
            (st.1 + (nc.p.eval_deriv
              (K.get_type_pair_index nc.p.atom_typing_used (m.atoms i) (m.grid_atoms j))
              (vec_distance_sqr adjusted_a_coords (m.grid_atoms j).coords) th).1,
             st.2 + (nc.p.eval_deriv
              (K.get_type_pair_index nc.p.atom_typing_used (m.atoms i) (m.grid_atoms j))
              (vec_distance_sqr adjusted_a_coords (m.grid_atoms j).coords) th).2 •
                (adjusted_a_coords - (m.grid_atoms j).coords)))
          (non_cache.theta K m i (m.atoms i) (m.grid_atoms j))
      else some st := by
  unfold non_cache.eval_deriv_candidate vec_distance_sqr
  simp only [ge_iff_le, Nat.not_le.mpr hj, if_false]
  split_ifs
  · cases non_cache.theta K m i (m.atoms i) (m.grid_atoms j) <;> rfl
  · rfl

/-- One step of the loop over the axes in `non_cache::eval_deriv`, on
`out_of_bounds_deriv`. -/
theorem clamp_deriv_step_sign (gd : grid_dims F) (a : vec F) (st : vec F × vec F × F)
    (k : Fin 3) (j : Fin 3) :
    (non_cache.clamp_deriv_step gd a st k).2.1 j =
      if j = k then
        (if 0 < (gd j).n then
          (if a j < (gd j).begin then -1 else if a j > (gd j).end_ then 1 else st.2.1 j)
          else st.2.1 j)
      else st.2.1 j := by
  unfold non_cache.clamp_deriv_step
  by_cases hj : j = k
  · subst hj
    by_cases hn : 0 < (gd j).n
    · by_cases h1 : a j < (gd j).begin
      · simp [hn, h1]
      · by_cases h2 : a j > (gd j).end_
        · simp [hn, h1, h2]
        · simp [hn, h1, h2]
    · simp [hn]
  · simp only [hj, if_false]
    split_ifs <;> simp [Function.update, hj]

/-- The loop over the axes in `non_cache::eval_deriv`, on `out_of_bounds_deriv`, over any
list of axes and from any state. -/
theorem clamp_deriv_fold_sign (gd : grid_dims F) (a : vec F) (l : List (Fin 3))
    (st : vec F × vec F × F) (j : Fin 3) :
    (l.foldl (non_cache.clamp_deriv_step gd a) st).2.1 j =
      if j ∈ l then
        (if 0 < (gd j).n then
          (if a j < (gd j).begin then -1 else if a j > (gd j).end_ then 1 else st.2.1 j)
          else st.2.1 j)
      else st.2.1 j := by
  induction l generalizing st with
  | nil => simp
  | cons k l ih =>
    simp only [List.foldl_cons]
    rw [ih, clamp_deriv_step_sign]
    by_cases hj : j = k
    · subst hj
      by_cases hl : j ∈ l
      · simp only [hl, if_true, List.mem_cons, true_or]
        split_ifs <;> rfl
      · simp only [hl, if_false, if_true, List.mem_cons, true_or]
    · simp [hj]

/-- The out-of-bounds direction of `non_cache::eval_deriv`, axis by axis. -/
theorem clamp_deriv_sign (gd : grid_dims F) (a : vec F) :
    (non_cache.clamp_deriv gd a).2.1 = fun j => outside_sign (gd j) (a j) := by
  funext j
  have h := clamp_deriv_fold_sign gd a (List.finRange 3) (a, 0, 0) j
  simp only [List.mem_finRange, if_true] at h
  exact h

/-- The energy of the loop over the candidates of `non_cache::eval_deriv` is the `this_e`
of the loop of `non_cache::eval`, when the derivative form of the potential table returns
the energy of `eval_fast` as its first component. -/
theorem eval_deriv_candidates_fst (K : decls F) (nc : non_cache F) (m : model F) (i : Nat)
    (adjusted_a_coords : vec F)
    (hp : ∀ idx r2 th, (nc.p.eval_deriv idx r2 th).1 = nc.p.eval_fast idx r2 th)
    (cands : List Nat) (st : F × vec F) :
    Option.map Prod.fst
        (cands.foldlM (non_cache.eval_deriv_candidate K nc m i adjusted_a_coords) st) =
      cands.foldlM (non_cache.eval_candidate K nc m i adjusted_a_coords) st.1 := by
  induction cands generalizing st with
  | nil => rfl
  | cons j l ih =>
    simp only [List.foldlM_cons]
    by_cases hj : K.atom_get (m.grid_atoms j) nc.p.atom_typing_used
        < K.num_atom_types nc.p.atom_typing_used
    · rw [eval_candidate_eq K nc m i adjusted_a_coords st.1 j hj,
        eval_deriv_candidate_eq K nc m i adjusted_a_coords st j hj]
      by_cases hr : vec_distance_sqr adjusted_a_coords (m.grid_atoms j).coords < nc.p.cutoff_sqr
      · rw [if_pos hr, if_pos hr]
        cases non_cache.theta K m i (m.atoms i) (m.grid_atoms j) with
        | none => rfl
        | some th =>
          simp only [Option.map_some', Option.bind_eq_bind, Option.some_bind]
          rw [ih, hp]
      · rw [if_neg hr, if_neg hr]
        simp only [Option.bind_eq_bind, Option.some_bind]
        exact ih st
    · have h1 : non_cache.eval_candidate K nc m i adjusted_a_coords st.1 j = some st.1 := by
        simp [non_cache.eval_candidate, Nat.not_lt.mp hj]
      have h2 : non_cache.eval_deriv_candidate K nc m i adjusted_a_coords st j = some st := by
        simp [non_cache.eval_deriv_candidate, Nat.not_lt.mp hj]
      rw [h1, h2]
      simp only [Option.bind_eq_bind, Option.some_bind]
      exact ih st

/-- The per-atom term of `non_cache::eval_deriv` with the clamping loop in closed form. -/
theorem eval_deriv_atom_eq (K : decls F) (nc : non_cache F) (m : model F) (v : F) (i : Nat) :
    non_cache.eval_deriv_atom K nc m v i =
      Option.map
        (fun r => ((K.curl_deriv r.1 r.2 v).1 + non_cache.out_of_bounds_penalty nc (m.coords i),
          (K.curl_deriv r.1 r.2 v).2 + nc.slope • (non_cache.clamp_deriv nc.gd (m.coords i)).2.1))
        ((nc.sgrid.possibilities (fun j => clamp_coord (nc.gd j) (m.coords i j))).foldlM
          (non_cache.eval_deriv_candidate K nc m i
            (fun j => clamp_coord (nc.gd j) (m.coords i j))) (0, 0)) := by
  unfold non_cache.eval_deriv_atom non_cache.out_of_bounds_penalty
  simp only [(clamp_deriv_eq nc.gd (m.coords i)).1, (clamp_deriv_eq nc.gd (m.coords i)).2,
    clamp_fst]
  cases (nc.sgrid.possibilities (fun j => clamp_coord (nc.gd j) (m.coords i j))).foldlM
    (non_cache.eval_deriv_candidate K nc m i (fun j => clamp_coord (nc.gd j) (m.coords i j)))
    (0, 0) <;> rfl

/-- The energy of `non_cache::eval_deriv` is the sum, over the in-scheme movable atoms, of
the energies of their per-atom terms. -/
theorem non_cache_eval_deriv_energy (K : decls F) (nc : non_cache F) (m : model F) (v : F) :
    Option.map Prod.fst (non_cache.eval_deriv K nc m v) =
      sum_terms (fun i => Option.map Prod.fst (non_cache.eval_deriv_atom K nc m v i))
        (in_scheme_movable K nc.p.atom_typing_used m) := by
  have h := deriv_loop_energy m (non_cache.eval_deriv_step K nc v) _ _
    (non_cache_eval_deriv_step_eq K nc m v) (List.range m.num_movable_atoms) 0 m.minus_forces
  simpa [sum_terms, in_scheme_movable, Option.map_map, Function.comp_def] using h

end non_cache_lemmas

section claims

variable {F : Type} [LinearOrderedCommRing F]

/-- C1. A movable atom whose type id is not below the number of types of the typing in use
adds nothing to the energy of `cache::eval`, `cache::eval_deriv`, `non_cache::eval` and
`non_cache::eval_deriv`: each energy is the sum of the per-atom terms over the in-scheme
movable atoms only.  After `cache::eval_deriv` and after `non_cache::eval_deriv` the
`minus_forces` entry of such an atom is the zero vector. -/
theorem out_of_scheme_atoms_add_nothing (K : decls F) (c : cache F) (nc : non_cache F)
    (m : model F) (v : F) :
    cache.eval K c m v = sum_terms (cache.eval_atom K c m v) (in_scheme_movable K c.atu m)
    ∧ Option.map Prod.fst (cache.eval_deriv K c m v) =
        sum_terms (fun i => Option.map Prod.fst (cache.eval_deriv_atom K c m v i))
          (in_scheme_movable K c.atu m)
    ∧ non_cache.eval K nc m v =
        sum_terms (non_cache.eval_atom K nc m v) (in_scheme_movable K nc.p.atom_typing_used m)
    ∧ Option.map Prod.fst (non_cache.eval_deriv K nc m v) =
        sum_terms (fun i => Option.map Prod.fst (non_cache.eval_deriv_atom K nc m v i))
          (in_scheme_movable K nc.p.atom_typing_used m)
    ∧ (∀ r, cache.eval_deriv K c m v = some r → ∀ i, i < m.num_movable_atoms →
        K.num_atom_types c.atu ≤ K.atom_get (m.atoms i) c.atu → r.2.minus_forces i = 0)
    ∧ (∀ r, non_cache.eval_deriv K nc m v = some r → ∀ i, i < m.num_movable_atoms →
        K.num_atom_types nc.p.atom_typing_used ≤ K.atom_get (m.atoms i) nc.p.atom_typing_used →
        r.2.minus_forces i = 0) := by
  refine ⟨cache_eval_eq_sum K c m v, ?_, non_cache_eval_eq_sum K nc m v, ?_, ?_, ?_⟩
  · have h := deriv_loop_energy m (cache.eval_deriv_step K c v) _ _
      (cache_eval_deriv_step_eq K c m v) (List.range m.num_movable_atoms) 0 m.minus_forces
    simpa [sum_terms, in_scheme_movable, Option.map_map, Function.comp_def] using h
  · have h := deriv_loop_energy m (non_cache.eval_deriv_step K nc v) _ _
      (non_cache_eval_deriv_step_eq K nc m v) (List.range m.num_movable_atoms) 0 m.minus_forces
    simpa [sum_terms, in_scheme_movable, Option.map_map, Function.comp_def] using h
  · intro r hr i hi hout
    exact deriv_loop_forces m (cache.eval_deriv_step K c v) _ _
      (cache_eval_deriv_step_eq K c m v) i (by simpa using hout)
      (List.range m.num_movable_atoms) 0 m.minus_forces (Or.inl (by simpa using hi)) r hr
  · intro r hr i hi hout
    exact deriv_loop_forces m (non_cache.eval_deriv_step K nc v) _ _
      (non_cache_eval_deriv_step_eq K nc m v) i (by simpa using hout)
      (List.range m.num_movable_atoms) 0 m.minus_forces (Or.inl (by simpa using hi)) r hr

/-- C1 at the sample configuration: the second movable atom is of the out-of-scheme type 7,
and both derivative evaluators leave a zero force for it. -/
theorem out_of_scheme_atoms_add_nothing_witness :
    (∃ r, cache.eval_deriv sample.K sample.c_ready sample.m 1000 = some r ∧
      r.1 = 4 ∧ r.2.minus_forces 0 = ![1, 1, 1] ∧ r.2.minus_forces 1 = 0)
    ∧ (∃ r, non_cache.eval_deriv sample.K sample.nc sample.m 1000 = some r ∧
      r.1 = 185 ∧ r.2.minus_forces 1 = 0) :=
  ⟨⟨_, rfl, by decide, by decide,
      (out_of_scheme_atoms_add_nothing sample.K sample.c_ready sample.nc sample.m 1000).2.2.2.2.1
        _ rfl 1 (by decide) (by decide)⟩,
    ⟨_, rfl, by decide,
      (out_of_scheme_atoms_add_nothing sample.K sample.c_ready sample.nc sample.m 1000).2.2.2.2.2
        _ rfl 1 (by decide) (by decide)⟩⟩

/-- C2. `cache::populate` is idempotent: when every requested type is inside the scheme,
the first call `populate(L)` returns, and in a second call `populate(L)` (for whichever
model and potential table) the first loop finds every requested grid initialized, so it
notes no type and changes no grid, and the call returns the cache as the first call left
it. -/
theorem populate_idempotent (K : decls F) (c : cache F) (m : model F) (p : precalculate F)
    (L : List Nat) (hL : ∀ t ∈ L, t < K.num_atom_types c.atu) :
    ∃ c1, cache.populate K c m p L = some c1
      ∧ cache.populate_needed K c1 L = ([], c1.grids)
      ∧ ∀ (m2 : model F) (p2 : precalculate F), cache.populate K c1 m2 p2 L = some c1 := by
  obtain ⟨c1, h1⟩ := populate_total K c m p L hL
  have hspec := (populate_spec K c m p L c1 h1).2
  have hI : ∀ t ∈ L, (c1.grids t).initialized = true := by
    intro t ht
    cases hc : (c.grids t).initialized
    · have := ((hspec t).1 ⟨ht, hc⟩).1
      simp only [grid.shape, grid.init, Prod.mk.injEq] at this
      exact this.1
    · have := (hspec t).2 (fun hh => by simp [hc] at hh)
      rw [this]; exact hc
  have hnd := populate_needed_of_initialized K c1 L hI
  refine ⟨c1, h1, hnd, fun m2 p2 => ?_⟩
  unfold cache.populate
  simp only [hnd]

/-- C2 at the sample configuration, for the request of the types 0 and 1 on a freshly
constructed cache. -/
theorem populate_idempotent_witness :
    ∃ c1, cache.populate sample.K sample.c0 sample.m sample.p [0, 1] = some c1
      ∧ cache.populate_needed sample.K c1 [0, 1] = ([], c1.grids)
      ∧ ∀ (m2 : model ℤ) (p2 : precalculate ℤ),
          cache.populate sample.K c1 m2 p2 [0, 1] = some c1 :=
  populate_idempotent sample.K sample.c0 sample.m sample.p [0, 1] (by decide)

/-- C3. After `cache::populate` (which returns when every requested type is inside the
scheme), for every requested type `t2` whose grid was not initialized before the call and
every lattice point `(x, y, z)` of the `grid_dims` of the cache, the value stored in
`grids[t2]` at `(x, y, z)` is the sum, over the receptor atoms `i` that the spatial index
returns for the lattice point, whose type `t1` is inside the scheme and whose squared
distance `r2` to the lattice point is at most the squared cutoff, of
`eval_fast(triangular_matrix_index_permissive(nat, t1, t2), r2, theta)`. -/
theorem populate_stores_sum (K : decls F) (c : cache F) (m : model F) (p : precalculate F)
    (L : List Nat) (hL : ∀ t ∈ L, t < K.num_atom_types c.atu) :
    ∃ c1, cache.populate K c m p L = some c1
      ∧ ∀ t2 ∈ L, (c.grids t2).initialized = false →
        ∀ x y z, x < K.grid_points (c.gd 0) → y < K.grid_points (c.gd 1) →
          z < K.grid_points (c.gd 2) →
          (c1.grids t2).m_data x y z =
            (((((K.szv_grid_ctor m (K.szv_grid_dims c.gd) p.cutoff_sqr).possibilities
                (K.index_to_argument c.gd x y z)).filter (fun i =>
                  decide (K.atom_get (m.grid_atoms i) c.atu < K.num_atom_types c.atu) &&
                  decide (vec_distance_sqr (m.grid_atoms i).coords
                    (K.index_to_argument c.gd x y z) ≤ p.cutoff_sqr))).map
              (fun i => p.eval_fast
                (K.triangular_matrix_index_permissive (K.num_atom_types c.atu)
                  (K.atom_get (m.grid_atoms i) c.atu) t2)
                (vec_distance_sqr (m.grid_atoms i).coords (K.index_to_argument c.gd x y z))
                (cache.populate_theta K m (m.grid_atoms i)
                  (K.index_to_argument c.gd x y z)))).sum) := by
  obtain ⟨c1, h1⟩ := populate_total K c m p L hL
  refine ⟨c1, h1, fun t2 ht2 hun x y z hx hy hz => ?_⟩
  exact (((populate_spec K c m p L c1 h1).2 t2).1 ⟨ht2, hun⟩).2 x y z hx hy hz

/-- C3 at the sample configuration: the value stored for the type 0 at the lattice point
`(1, 1, 1)` is the term of the one receptor atom, 1 + 4 + 180. -/
theorem populate_stores_sum_witness :
    ∃ c1, cache.populate sample.K sample.c0 sample.m sample.p [0, 1] = some c1
      ∧ (c1.grids 0).m_data 1 1 1 = 185 := by
  obtain ⟨c1, h1, h2⟩ :=
    populate_stores_sum sample.K sample.c0 sample.m sample.p [0, 1] (by decide)
  exact ⟨c1, h1, (h2 0 (by decide) rfl 1 1 1 (by decide) (by decide) (by decide)).trans
    (by decide)⟩

/-- C4. `cache::populate` changes only the grids of the requested types that were not
initialized when it was called: a grid that was initialized before the call, and the grid
of a type that is not requested, are after the call what they were before it.  The call
returns when every requested type is inside the scheme. -/
theorem populate_frame (K : decls F) (c : cache F) (m : model F) (p : precalculate F)
    (L : List Nat) :
    (∀ c1, cache.populate K c m p L = some c1 →
      ∀ t, (c.grids t).initialized = true ∨ t ∉ L → c1.grids t = c.grids t)
    ∧ ((∀ t ∈ L, t < K.num_atom_types c.atu) → ∃ c1, cache.populate K c m p L = some c1) := by
  refine ⟨fun c1 h1 t ht => ?_, populate_total K c m p L⟩
  refine ((populate_spec K c m p L c1 h1).2 t).2 ?_
  rintro ⟨h2, h3⟩
  rcases ht with ht | ht
  · rw [ht] at h3; exact absurd h3 (by simp)
  · exact ht h2

/-- C4 at the sample configuration: the request of the type 1 on the cache whose grid of
type 0 is initialized leaves that grid, and the grid of the type 5, as they were. -/
theorem populate_frame_witness :
    ∃ c1, cache.populate sample.K sample.c_ready sample.m sample.p [1] = some c1
      ∧ c1.grids 0 = sample.c_ready.grids 0 ∧ c1.grids 5 = sample.c_ready.grids 5 := by
  obtain ⟨c1, h1⟩ :=
    (populate_frame sample.K sample.c_ready sample.m sample.p [1]).2 (by decide)
  exact ⟨c1, h1,
    (populate_frame sample.K sample.c_ready sample.m sample.p [1]).1 c1 h1 0 (Or.inl rfl),
    (populate_frame sample.K sample.c_ready sample.m sample.p [1]).1 c1 h1 5
      (Or.inr (by decide))⟩

/-- C5. `cache::load`, reading the archive that `cache::save` wrote for a cache `c0`,
succeeds if and only if the archived version is the version of the loading cache `c`, the
comparison `eq` accepts the archived `grid_dims` against those of `c`, and the archived
atom typing is that of `c`.  When one of the three differs and the other two match, it
throws the exception of that field: `energy_mismatch` for the version,
`grid_dims_mismatch` for the `grid_dims`, `cache_mismatch` for the atom typing. -/
theorem load_succeeds_iff (K : decls F) (c c0 : cache F) :
    ((cache.load K c (cache.save c0 [])).1 = Except.ok () ↔
      (c0.scoring_function_version = c.scoring_function_version ∧ K.eq c0.gd c.gd = true
        ∧ c0.atu = c.atu))
    ∧ (c0.scoring_function_version ≠ c.scoring_function_version → K.eq c0.gd c.gd = true →
        c0.atu = c.atu →
        (cache.load K c (cache.save c0 [])).1 = Except.error load_error.energy_mismatch)
    ∧ (c0.scoring_function_version = c.scoring_function_version → K.eq c0.gd c.gd = false →
        c0.atu = c.atu →
        (cache.load K c (cache.save c0 [])).1 = Except.error load_error.grid_dims_mismatch)
    ∧ (c0.scoring_function_version = c.scoring_function_version → K.eq c0.gd c.gd = true →
        c0.atu ≠ c.atu →
        (cache.load K c (cache.save c0 [])).1 = Except.error load_error.cache_mismatch) := by
  simp only [cache.save, List.nil_append, cache.load]
  refine ⟨?_, ?_, ?_, ?_⟩
  · by_cases h1 : c0.scoring_function_version = c.scoring_function_version
    · cases h2 : K.eq c0.gd c.gd
      · simp [h1, h2]
      · by_cases h3 : c0.atu = c.atu
        · simp [h1, h2, h3]
        · simp [h1, h2, h3]
    · simp [h1]
  · intro h1 h2 h3
    simp [h1]
  · intro h1 h2 h3
    simp [h1, h2]
  · intro h1 h2 h3
    simp [h1, h2, h3]

/-- C5 at the sample configuration: a cache constructed with the version "w" refuses the
archive of the cache of version "v" with `energy_mismatch`. -/
theorem load_succeeds_iff_witness :
    (cache.load sample.K (cache.ctor "w" sample.gd 1 0) (cache.save sample.c_ready [])).1 =
      Except.error load_error.energy_mismatch :=
  (load_succeeds_iff sample.K (cache.ctor "w" sample.gd 1 0) sample.c_ready).2.1
    (by decide) (by decide) (by decide)

/-- C6. Round trip: the archive that `cache::save` writes for a cache `c0` (whatever is
written to the archive after it), read by `cache::load` into a cache `c` of the same
version, `grid_dims` and atom typing, is accepted, and leaves in `c` the grids of `c0` and
the configuration of `c`; the comparison `eq` is taken to accept these `grid_dims`
compared with themselves. -/
theorem save_load_round_trip (K : decls F) (c c0 : cache F) (rest : archive F)
    (hv : c.scoring_function_version = c0.scoring_function_version) (hgd : c.gd = c0.gd)
    (hatu : c.atu = c0.atu) (heq : K.eq c0.gd c0.gd = true) :
    (cache.load K c (cache.save c0 [] ++ rest)).1 = Except.ok ()
    ∧ (cache.load K c (cache.save c0 [] ++ rest)).2.grids = c0.grids
    ∧ (cache.load K c (cache.save c0 [] ++ rest)).2 = { c with grids := c0.grids } := by
  have hsave : cache.save c0 [] ++ rest =
      archive_item.str c0.scoring_function_version :: archive_item.dims c0.gd ::
        archive_item.typing c0.atu :: archive_item.grid_vector c0.grids :: rest := rfl
  have hload : cache.load K c (cache.save c0 [] ++ rest) =
      (Except.ok (), { c with grids := c0.grids }) := by
    rw [hsave]
    unfold cache.load
    rw [hv, hgd, hatu]
    simp only [ne_eq, not_true_eq_false, if_false, heq, Bool.not_true, Bool.false_eq_true]
  rw [hload]
  exact ⟨rfl, rfl, rfl⟩

/-- C6 at the sample configuration: the archive of the cache holding a grid for the type 0,
read into a freshly constructed cache of the same configuration. -/
theorem save_load_round_trip_witness :
    (cache.load sample.K sample.c0 (cache.save sample.c_ready [] ++ [])).1 = Except.ok ()
    ∧ (cache.load sample.K sample.c0 (cache.save sample.c_ready [] ++ [])).2.grids =
        sample.c_ready.grids
    ∧ (cache.load sample.K sample.c0 (cache.save sample.c_ready [] ++ [])).2 =
        { sample.c0 with grids := sample.c_ready.grids } :=
  save_load_round_trip sample.K sample.c0 sample.c_ready [] rfl rfl rfl (by decide)

/-- C7, as stated, fails.  The movable atom of `sample.m_out` is at `(-10, 0, 0)`, outside
the box `[0, 10]` on the first axis, and the receptor atom at `(1, 0, 0)`: their squared
distance is 121, beyond the squared cutoff 64, so with the true distance the pair adds
nothing.  `non_cache::eval` takes the squared distance 1 from the clamped coordinates
`(0, 0, 0)`, counts the pair with the energy 1 + 1 + 180, and returns it with the
penalty 10. -/
theorem eval_true_distance_counterexample :
    vec_distance_sqr (sample.m_out.coords 0) (sample.m_out.grid_atoms 0).coords = 121
    ∧ ¬ ((121 : ℤ) < sample.nc_out.p.cutoff_sqr)
    ∧ non_cache.eval_candidate_unclamped sample.K sample.nc_out sample.m_out 0 0 0 = some 0
    ∧ non_cache.eval_candidate sample.K sample.nc_out sample.m_out 0
        (non_cache.clamp sample.nc_out.gd (sample.m_out.coords 0)).1 0 0 = some 182
    ∧ non_cache.eval sample.K sample.nc_out sample.m_out 1000 = some 192 := by
  decide

/-- C7, amended.  In `non_cache::eval` and `non_cache::eval_deriv` the energy is the sum of
the per-atom terms over the in-scheme movable atoms; for such an atom `i`, the clamped
coordinates are the coordinates of the atom moved into `[begin, end]` on each axis where
`n` is positive; in both functions the spatial index is queried at the clamped coordinates
and the loop over the candidates is run on them; and for each in-scheme candidate the
squared distance that is compared with the cutoff and passed to the potential table is the
squared distance between the clamped coordinates and the receptor atom.  When the atom is
inside the box on every axis where `n` is positive, the clamped coordinates are its
coordinates, so that squared distance is the true one. -/
theorem eval_uses_clamped_distance (K : decls F) (nc : non_cache F) (m : model F) (v : F)
    (i : Nat) :
    non_cache.eval K nc m v =
        sum_terms (non_cache.eval_atom K nc m v)
          (in_scheme_movable K nc.p.atom_typing_used m)
    ∧ Option.map Prod.fst (non_cache.eval_deriv K nc m v) =
        sum_terms (fun i => Option.map Prod.fst (non_cache.eval_deriv_atom K nc m v i))
          (in_scheme_movable K nc.p.atom_typing_used m)
    ∧ (non_cache.clamp nc.gd (m.coords i)).1 = (fun j => clamp_coord (nc.gd j) (m.coords i j))
    ∧ (non_cache.clamp_deriv nc.gd (m.coords i)).1
        = (fun j => clamp_coord (nc.gd j) (m.coords i j))
    ∧ non_cache.eval_atom K nc m v i =
        Option.map
          (fun this_e => K.curl this_e v + non_cache.out_of_bounds_penalty nc (m.coords i))
          ((nc.sgrid.possibilities (fun j => clamp_coord (nc.gd j) (m.coords i j))).foldlM
            (non_cache.eval_candidate K nc m i
              (fun j => clamp_coord (nc.gd j) (m.coords i j))) 0)
    ∧ non_cache.eval_deriv_atom K nc m v i =
        Option.map
          (fun r =>
            ((K.curl_deriv r.1 r.2 v).1 + non_cache.out_of_bounds_penalty nc (m.coords i),
              (K.curl_deriv r.1 r.2 v).2
                + nc.slope • (non_cache.clamp_deriv nc.gd (m.coords i)).2.1))
          ((nc.sgrid.possibilities (fun j => clamp_coord (nc.gd j) (m.coords i j))).foldlM
            (non_cache.eval_deriv_candidate K nc m i
              (fun j => clamp_coord (nc.gd j) (m.coords i j))) (0, 0))
    ∧ (∀ (adjusted_a_coords : vec F) (this_e : F) (j : Nat),
        K.atom_get (m.grid_atoms j) nc.p.atom_typing_used
          < K.num_atom_types nc.p.atom_typing_used →
        non_cache.eval_candidate K nc m i adjusted_a_coords this_e j =
          if vec_distance_sqr adjusted_a_coords (m.grid_atoms j).coords < nc.p.cutoff_sqr then
            Option.map (fun th => this_e + nc.p.eval_fast
                (K.get_type_pair_index nc.p.atom_typing_used (m.atoms i) (m.grid_atoms j))
                (vec_distance_sqr adjusted_a_coords (m.grid_atoms j).coords) th)
              (non_cache.theta K m i (m.atoms i) (m.grid_atoms j))
          else some this_e)
    ∧ (∀ (adjusted_a_coords : vec F) (st : F × vec F) (j : Nat),
        K.atom_get (m.grid_atoms j) nc.p.atom_typing_used
          < K.num_atom_types nc.p.atom_typing_used →
        non_cache.eval_deriv_candidate K nc m i adjusted_a_coords st j =
          if vec_distance_sqr adjusted_a_coords (m.grid_atoms j).coords < nc.p.cutoff_sqr then
            Option.map (fun th =>
                (st.1 + (nc.p.eval_deriv
                  (K.get_type_pair_index nc.p.atom_typing_used (m.atoms i) (m.grid_atoms j))
                  (vec_distance_sqr adjusted_a_coords (m.grid_atoms j).coords) th).1,
                 st.2 + (nc.p.eval_deriv
                  (K.get_type_pair_index nc.p.atom_typing_used (m.atoms i) (m.grid_atoms j))
                  (vec_distance_sqr adjusted_a_coords (m.grid_atoms j).coords) th).2 •
                    (adjusted_a_coords - (m.grid_atoms j).coords)))
              (non_cache.theta K m i (m.atoms i) (m.grid_atoms j))
          else some st)
    ∧ ((∀ j, 0 < (nc.gd j).n →
          (nc.gd j).begin ≤ m.coords i j ∧ m.coords i j ≤ (nc.gd j).end_) →
        (fun j => clamp_coord (nc.gd j) (m.coords i j)) = m.coords i) := by
  refine ⟨non_cache_eval_eq_sum K nc m v, non_cache_eval_deriv_energy K nc m v,
    clamp_fst _ _, ?_, eval_atom_eq K nc m v i, eval_deriv_atom_eq K nc m v i, ?_, ?_, ?_⟩
  · rw [(clamp_deriv_eq _ _).1, clamp_fst]
  · intro adj this_e j hj
    exact eval_candidate_eq K nc m i adj this_e j hj
  · intro adj st j hj
    exact eval_deriv_candidate_eq K nc m i adj st j hj
  · intro h
    funext j
    exact (clamp_coord_inside (nc.gd j) (m.coords i j) (h j)).1

/-- C7 amended, at the sample configuration: for the atom outside the box the pair is
evaluated at the squared distance 1 of the clamped coordinates, by the loop body of
`non_cache::eval` and by the per-atom term of `non_cache::eval_deriv`, whose energy is 182
plus the penalty 10; and for the atom of `sample.m_one`, inside the box, the clamped
coordinates are its coordinates. -/
theorem eval_uses_clamped_distance_witness :
    non_cache.eval_candidate sample.K sample.nc_out sample.m_out 0 ![0, 0, 0] 0 0 = some 182
    ∧ Option.map Prod.fst
        (non_cache.eval_deriv_atom sample.K sample.nc_out sample.m_out 1000 0) = some 192
    ∧ (fun j => clamp_coord (sample.nc_one.gd j) (sample.m_one.coords 0 j))
        = sample.m_one.coords 0 :=
  ⟨((eval_uses_clamped_distance sample.K sample.nc_out sample.m_out 1000 0).2.2.2.2.2.2.1
      ![0, 0, 0] 0 0 (by decide)).trans (by decide),
    (congrArg (Option.map Prod.fst)
      (eval_uses_clamped_distance sample.K sample.nc_out sample.m_out 1000 0).2.2.2.2.2.1).trans
      (by decide),
    (eval_uses_clamped_distance sample.K sample.nc_one sample.m_one 1000 0).2.2.2.2.2.2.2.2
      (by decide)⟩

/-- C8, as stated, fails for a slope that is not positive.  With the slope 0, the atom at
`(-2, 5, 5)` is strictly farther outside the box `[0, 10]` on the first axis than the atom
at `(-1, 5, 5)`, and the penalty of both is 0. -/
theorem penalty_strict_counterexample :
    (![-2, 5, 5] : vec ℤ) 0 < (![-1, 5, 5] : vec ℤ) 0
    ∧ (![-1, 5, 5] : vec ℤ) 0 < (sample.nc_flat.gd 0).begin
    ∧ 0 < (sample.nc_flat.gd 0).n
    ∧ non_cache.out_of_bounds_penalty sample.nc_flat ![-1, 5, 5] = 0
    ∧ non_cache.out_of_bounds_penalty sample.nc_flat ![-2, 5, 5] = 0
    ∧ ¬ (non_cache.out_of_bounds_penalty sample.nc_flat ![-1, 5, 5]
          < non_cache.out_of_bounds_penalty sample.nc_flat ![-2, 5, 5]) := by
  decide

/-- C8, amended.  In `non_cache::eval` the out-of-bounds penalty of an in-scheme movable
atom is the slope times the sum, over the axes where `n` is positive, of the distance by
which the coordinate lies outside `[begin, end]`, and it is added to the energy of the
atom after `curl`, outside the cap.  In a box where `begin` is not above `end` on the axis
`j`, moving the atom farther outside along `j` changes the penalty by the slope times the
extra distance, which is a strict increase when the slope is positive.  For an atom inside
the box on every axis where `n` is positive the penalty is zero. -/
theorem out_of_bounds_penalty_spec (K : decls F) (nc : non_cache F) (m : model F) (v : F)
    (i : Nat) :
    (∀ a : vec F, non_cache.out_of_bounds_penalty nc a =
      nc.slope * (outside_distance (nc.gd 0) (a 0) + outside_distance (nc.gd 1) (a 1)
        + outside_distance (nc.gd 2) (a 2)))
    ∧ non_cache.eval_atom K nc m v i =
        Option.map
          (fun this_e => K.curl this_e v + non_cache.out_of_bounds_penalty nc (m.coords i))
          ((nc.sgrid.possibilities (non_cache.clamp nc.gd (m.coords i)).1).foldlM
            (non_cache.eval_candidate K nc m i (non_cache.clamp nc.gd (m.coords i)).1) 0)
    ∧ (∀ (a a1 : vec F) (j : Fin 3), 0 < (nc.gd j).n → (nc.gd j).begin ≤ (nc.gd j).end_ →
        (∀ k, k ≠ j → a1 k = a k) →
        ((a1 j < a j ∧ a j ≤ (nc.gd j).begin) ∨ ((nc.gd j).end_ ≤ a j ∧ a j < a1 j)) →
        non_cache.out_of_bounds_penalty nc a1 =
            non_cache.out_of_bounds_penalty nc a + nc.slope * |a1 j - a j|
        ∧ (0 < nc.slope →
            non_cache.out_of_bounds_penalty nc a < non_cache.out_of_bounds_penalty nc a1))
    ∧ (∀ a : vec F,
        (∀ j, 0 < (nc.gd j).n → (nc.gd j).begin ≤ a j ∧ a j ≤ (nc.gd j).end_) →
        non_cache.out_of_bounds_penalty nc a = 0) := by
  have hpen : ∀ a : vec F, non_cache.out_of_bounds_penalty nc a =
      nc.slope * (outside_distance (nc.gd 0) (a 0) + outside_distance (nc.gd 1) (a 1)
        + outside_distance (nc.gd 2) (a 2)) := by
    intro a
    rw [non_cache.out_of_bounds_penalty, clamp_snd, mul_comm]
  refine ⟨hpen, ?_, ?_, ?_⟩
  · rw [eval_atom_eq, clamp_fst]
  · intro a a1 j hn hbox hsame hmove
    have hd : outside_distance (nc.gd j) (a1 j) =
        outside_distance (nc.gd j) (a j) + |a1 j - a j| ∧ 0 < |a1 j - a j| := by
      rcases hmove with ⟨h1, h2⟩ | ⟨h1, h2⟩
      · rw [abs_of_neg (sub_neg.mpr h1), neg_sub]
        exact ⟨outside_distance_lower _ _ _ hn hbox h1 h2, sub_pos.mpr h1⟩
      · rw [abs_of_pos (sub_pos.mpr h2)]
        exact ⟨outside_distance_upper _ _ _ hn hbox h1 h2, sub_pos.mpr h2⟩
    have heq : non_cache.out_of_bounds_penalty nc a1 =
        non_cache.out_of_bounds_penalty nc a + nc.slope * |a1 j - a j| := by
      rw [hpen, hpen]
      have hj : j = 0 ∨ j = 1 ∨ j = 2 := by fin_cases j <;> simp
      rcases hj with rfl | rfl | rfl
      · rw [hsame 1 (by decide), hsame 2 (by decide), hd.1]; ring
      · rw [hsame 0 (by decide), hsame 2 (by decide), hd.1]; ring
      · rw [hsame 0 (by decide), hsame 1 (by decide), hd.1]; ring
    refine ⟨heq, fun hs => ?_⟩
    rw [heq]
    exact lt_add_of_pos_right _ (mul_pos hs hd.2)
  · intro a h
    rw [hpen, (clamp_coord_inside _ _ (h 0)).2, (clamp_coord_inside _ _ (h 1)).2,
      (clamp_coord_inside _ _ (h 2)).2]
    simp

/-- C8 amended, at the sample configuration of slope 1: moving the atom from `(-1, 5, 5)`
to `(-3, 5, 5)` raises the penalty from 1 by 2. -/
theorem out_of_bounds_penalty_spec_witness :
    non_cache.out_of_bounds_penalty sample.nc ![-3, 5, 5] = 1 + 1 * 2
    ∧ non_cache.out_of_bounds_penalty sample.nc ![-1, 5, 5]
        < non_cache.out_of_bounds_penalty sample.nc ![-3, 5, 5]
    ∧ non_cache.out_of_bounds_penalty sample.nc ![4, 5, 5] = 0 :=
  ⟨((out_of_bounds_penalty_spec sample.K sample.nc sample.m 1000 0).2.2.1
      ![-1, 5, 5] ![-3, 5, 5] 0 (by decide) (by decide) (by decide)
      (Or.inl (by decide))).1.trans (by decide),
    ((out_of_bounds_penalty_spec sample.K sample.nc sample.m 1000 0).2.2.1
      ![-1, 5, 5] ![-3, 5, 5] 0 (by decide) (by decide) (by decide)
      (Or.inl (by decide))).2 (by decide),
    (out_of_bounds_penalty_spec sample.K sample.nc sample.m 1000 0).2.2.2
      ![4, 5, 5] (by decide)⟩

/-- C9. `non_cache::within(m, margin)` returns true if and only if every movable atom that
is not a hydrogen has, on every axis `j` with `gd[j].n > 0`, its coordinate in the closed
interval `[gd[j].begin - margin, gd[j].end + margin]`; hydrogens and axes where `n` is
zero put no condition. -/
theorem within_iff (K : decls F) (nc : non_cache F) (m : model F) (margin : F) :
    non_cache.within K nc m margin = true ↔
      ∀ i, i < m.num_movable_atoms → K.is_hydrogen (m.atoms i) = false →
        ∀ j : Fin 3, 0 < (nc.gd j).n →
          (nc.gd j).begin - margin ≤ m.coords i j ∧ m.coords i j ≤ (nc.gd j).end_ + margin := by
  unfold non_cache.within
  simp only [List.all_eq_true, List.mem_range]
  constructor
  · intro h i hi hh j hn
    have h1 := h i hi
    simp only [hh, Bool.false_eq_true, if_false] at h1
    have h2 := List.all_eq_true.mp h1 j (List.mem_finRange j)
    simp only [gt_iff_lt, hn, if_true] at h2
    by_cases h3 : m.coords i j < (nc.gd j).begin - margin ∨ (nc.gd j).end_ + margin < m.coords i j
    · simp [h3] at h2
    · exact ⟨not_lt.mp (fun h4 => h3 (Or.inl h4)), not_lt.mp (fun h4 => h3 (Or.inr h4))⟩
  · intro h i hi
    cases hh : K.is_hydrogen (m.atoms i)
    · simp only [Bool.false_eq_true, if_false]
      rw [List.all_eq_true]
      intro j _
      by_cases hn : 0 < (nc.gd j).n
      · obtain ⟨h1, h2⟩ := h i hi hh j hn
        simp [hn, not_lt.mpr h1, not_lt.mpr h2]
      · simp [hn]
    · simp

/-- C9 at the sample configuration: both movable atoms of `sample.m` are inside the box. -/
theorem within_iff_witness :
    non_cache.within sample.K sample.nc sample.m 0 = true
    ∧ (sample.nc.gd 0).begin - 0 ≤ sample.m.coords 1 0 :=
  ⟨by decide,
    ((within_iff sample.K sample.nc sample.m 0).mp (by decide) 1 (by decide) (by decide) 0
      (by decide)).1⟩

/-- C10, as stated, fails: the energy of the pair goes through `curl` before it is
returned.  For the one movable atom of `sample.m_one` and its one receptor atom, inside
the cutoff, the potential table gives 1 + 4 + 180, and with the cap 100 `non_cache::eval`
returns 100. -/
theorem eval_single_pair_counterexample :
    vec_distance_sqr (sample.m_one.coords 0) (sample.m_one.grid_atoms 0).coords = 4
    ∧ (4 : ℤ) < sample.nc_one.p.cutoff_sqr
    ∧ sample.nc_one.p.eval_fast
        (sample.K.get_type_pair_index sample.nc_one.p.atom_typing_used
          (sample.m_one.atoms 0) (sample.m_one.grid_atoms 0)) 4 180 = 185
    ∧ non_cache.eval sample.K sample.nc_one sample.m_one 100 = some 100 := by
  decide

/-- C10, amended.  For a model with one movable atom, in-scheme and inside the box, and
one in-scheme receptor atom `j` returned by the spatial index, neither of the two a halogen
nor a sulfur (a sulfur bond being possible only for a pair with a sulfur),
`non_cache::eval` returns
`curl` applied, with the cap `v`, to the value of `eval_fast` at the type-pair index of
the pair, its squared distance and `theta = 180` when the squared distance is below the
squared cutoff, and `curl` applied to zero when it is not: zero, for a `curl` that leaves
a zero energy as it is. -/
theorem eval_single_pair (K : decls F) (nc : non_cache F) (m : model F) (v : F) (j : Nat)
    (hone : m.num_movable_atoms = 1)
    (ha : K.atom_get (m.atoms 0) nc.p.atom_typing_used
      < K.num_atom_types nc.p.atom_typing_used)
    (hbox : ∀ k, 0 < (nc.gd k).n →
      (nc.gd k).begin ≤ m.coords 0 k ∧ m.coords 0 k ≤ (nc.gd k).end_)
    (hidx : nc.sgrid.possibilities (m.coords 0) = [j])
    (hb : K.atom_get (m.grid_atoms j) nc.p.atom_typing_used
      < K.num_atom_types nc.p.atom_typing_used)
    (hsul : ∀ x y, K.xs_sul_bond_possible x y = true → K.xs_is_S x = true ∨ K.xs_is_S y = true)
    (hHa : K.xs_is_halogen (m.atoms 0).xs = false)
    (hHb : K.xs_is_halogen (m.grid_atoms j).xs = false)
    (hSa : K.xs_is_S (m.atoms 0).xs = false) (hSb : K.xs_is_S (m.grid_atoms j).xs = false) :
    (vec_distance_sqr (m.coords 0) (m.grid_atoms j).coords < nc.p.cutoff_sqr →
      non_cache.eval K nc m v = some (K.curl (nc.p.eval_fast
        (K.get_type_pair_index nc.p.atom_typing_used (m.atoms 0) (m.grid_atoms j))
        (vec_distance_sqr (m.coords 0) (m.grid_atoms j).coords) 180) v))
    ∧ (nc.p.cutoff_sqr ≤ vec_distance_sqr (m.coords 0) (m.grid_atoms j).coords →
      non_cache.eval K nc m v = some (K.curl 0 v))
    ∧ (nc.p.cutoff_sqr ≤ vec_distance_sqr (m.coords 0) (m.grid_atoms j).coords →
      K.curl 0 v = 0 → non_cache.eval K nc m v = some 0) := by
  have hadj : (fun k => clamp_coord (nc.gd k) (m.coords 0 k)) = m.coords 0 := by
    funext k
    exact (clamp_coord_inside (nc.gd k) (m.coords 0 k) (hbox k)).1
  have hpen : non_cache.out_of_bounds_penalty nc (m.coords 0) = 0 := by
    rw [non_cache.out_of_bounds_penalty, clamp_snd, (clamp_coord_inside _ _ (hbox 0)).2,
      (clamp_coord_inside _ _ (hbox 1)).2, (clamp_coord_inside _ _ (hbox 2)).2]
    simp
  have htheta : non_cache.theta K m 0 (m.atoms 0) (m.grid_atoms j) = some 180 := by
    have hns : K.xs_sul_bond_possible (m.atoms 0).xs (m.grid_atoms j).xs = false := by
      cases h : K.xs_sul_bond_possible (m.atoms 0).xs (m.grid_atoms j).xs
      · rfl
      · rcases hsul _ _ h with h1 | h1
        · rw [hSa] at h1; exact absurd h1 (by simp)
        · rw [hSb] at h1; exact absurd h1 (by simp)
    simp [non_cache.theta, hns]
  have heval : non_cache.eval K nc m v =
      Option.map (fun r => r) (non_cache.eval_atom K nc m v 0) := by
    have hr : List.range 1 = [0] := rfl
    simp only [non_cache.eval, hone, hr, List.foldlM_cons, List.foldlM_nil,
      non_cache.eval_step, ge_iff_le, Nat.not_le.mpr ha, if_false]
    cases non_cache.eval_atom K nc m v 0 <;> simp
  rw [heval, eval_atom_eq, hadj, hidx, hpen]
  simp only [List.foldlM_cons, List.foldlM_nil, eval_candidate_eq K nc m 0 _ _ j hb, htheta]
  refine ⟨fun hlt => ?_, fun hge => ?_, fun hge hz => ?_⟩
  · simp [hlt]
  · simp [not_lt.mpr hge]
  · simp [not_lt.mpr hge, hz]

/-- C10 amended, at the sample configuration, where the movable atom has the `xs` code 0
and the receptor atom the code 1, neither the halogen 5 nor the sulfur 4, with a cap that
the energy of the pair stays below: the value of `eval_fast` is returned. -/
theorem eval_single_pair_witness :
    non_cache.eval sample.K sample.nc_one sample.m_one 1000 = some 185 :=
  ((eval_single_pair sample.K sample.nc_one sample.m_one 1000 0 rfl (by decide) (by decide)
    rfl (by decide) (fun x y h => by simpa [sample.K] using h) (by decide) (by decide)
    (by decide) (by decide)).1 (by decide)).trans (by decide)

/-- The vector `theta_holder` of `cache::populate` for a sulfur with the two bonds `b0` and
`b1`. -/
theorem populate_theta_holder_pair (K : decls F) (m : model F) (a : atom F)
    (probe_coords : vec F) (b0 b1 : bond) (hb : a.bonds = [b0, b1]) :
    cache.populate_theta_holder K m a probe_coords =
      [cache.populate_bond_angle K m a probe_coords b0,
        cache.populate_bond_angle K m a probe_coords b1] := by
  unfold cache.populate_theta_holder cache.populate_bond_angle
  rw [hb]
  simp only [List.foldl_cons, List.foldl_nil]
  split_ifs <;> rfl

/-- The choice `x > y ? x : y` is the larger of the two. -/
theorem ite_gt_eq_max (x y : F) : (if x > y then x else y) = max x y := by
  by_cases h : x > y
  · rw [if_pos h, max_eq_left (le_of_lt h)]
  · rw [if_neg h, max_eq_right (not_lt.mp h)]

/-- The body of the loop over the candidates of `cache::populate` for an in-scheme receptor
atom within the cutoff, all the needed types being inside the scheme: each affinity grows
by `eval_fast` at the type-pair index, the squared distance and the `theta` of the atom. -/
theorem populate_candidate_counted (K : decls F) (c : cache F) (m : model F)
    (p : precalculate F) (needed : List Nat) (probe_coords : vec F) (h : Nat → F) (i : Nat)
    (hin : K.atom_get (m.grid_atoms i) c.atu < K.num_atom_types c.atu)
    (hr : vec_distance_sqr (m.grid_atoms i).coords probe_coords ≤ p.cutoff_sqr)
    (hN : ∀ t ∈ needed, t < K.num_atom_types c.atu) :
    cache.populate_candidate K c m p needed probe_coords (needed.map h) i =
      some (needed.map (fun t2 => h t2 + p.eval_fast
        (K.triangular_matrix_index_permissive (K.num_atom_types c.atu)
          (K.atom_get (m.grid_atoms i) c.atu) t2)
        (vec_distance_sqr (m.grid_atoms i).coords probe_coords)
        (cache.populate_theta K m (m.grid_atoms i) probe_coords))) := by
  rw [populate_candidate_map, if_pos (by simp [hin, hr]), if_pos hN]
  rfl

/-- The `theta` of `cache::populate` for a sulfur whose bond count is not two. -/
theorem populate_theta_of_sulfur_not_two (K : decls F) (m : model F) (a : atom F)
    (probe_coords : vec F) (hS : K.xs_is_S a.xs = true) (hlen : a.bonds.length ≠ 2) :
    cache.populate_theta K m a probe_coords = 0 := by
  simp [cache.populate_theta, hS, hlen]

/-- The `theta` of `cache::populate` for a sulfur with the two bonds `b0` and `b1`. -/
theorem populate_theta_of_sulfur_two (K : decls F) (m : model F) (a : atom F)
    (probe_coords : vec F) (hS : K.xs_is_S a.xs = true) (b0 b1 : bond)
    (hb : a.bonds = [b0, b1]) :
    cache.populate_theta K m a probe_coords =
      max (cache.populate_bond_angle K m a probe_coords b0)
        (cache.populate_bond_angle K m a probe_coords b1) := by
  have hlen : a.bonds.length = 2 := by rw [hb]; rfl
  simp only [cache.populate_theta, hS, if_true, hlen,
    populate_theta_holder_pair K m a probe_coords b0 b1 hb, List.getD_cons_zero,
    List.getD_cons_succ]
  exact ite_gt_eq_max _ _

/-- A value that follows the rule of `cache::populate` for the receptor atom `a` (for a
sulfur, 0 when the bond count is not two and the larger of the two per-bond values
otherwise; 180 for an atom that is not a sulfur) is the `theta` of `cache::populate`. -/
theorem populate_theta_of_rule (K : decls F) (m : model F) (a : atom F) (probe_coords : vec F)
    (th : F)
    (h0 : K.xs_is_S a.xs = true → a.bonds.length ≠ 2 → th = 0)
    (h2 : K.xs_is_S a.xs = true → ∀ b0 b1, a.bonds = [b0, b1] →
      th = max (cache.populate_bond_angle K m a probe_coords b0)
        (cache.populate_bond_angle K m a probe_coords b1))
    (h180 : K.xs_is_S a.xs = false → th = 180) :
    cache.populate_theta K m a probe_coords = th := by
  cases hS : K.xs_is_S a.xs
  · rw [h180 hS]
    simp [cache.populate_theta, hS]
  · by_cases hlen : a.bonds.length = 2
    · obtain ⟨b0, b1, hb⟩ := List.length_eq_two.mp hlen
      rw [h2 hS b0 b1 hb]
      exact populate_theta_of_sulfur_two K m a probe_coords hS b0 b1 hb
    · rw [h0 hS hlen]
      exact populate_theta_of_sulfur_not_two K m a probe_coords hS hlen

/-- The values that `cache::populate` stores, with the `theta` of each counted candidate
given by any function `th` that agrees with the `theta` of the loop body on the counted
candidates of the lattice point. -/
theorem populate_stores_of_theta (K : decls F) (c : cache F) (m : model F) (p : precalculate F)
    (L : List Nat) (hL : ∀ t ∈ L, t < K.num_atom_types c.atu) :
    ∃ c1, cache.populate K c m p L = some c1
      ∧ ∀ t2 ∈ L, (c.grids t2).initialized = false →
        ∀ x y z, x < K.grid_points (c.gd 0) → y < K.grid_points (c.gd 1) →
          z < K.grid_points (c.gd 2) →
          ∀ th : Nat → F,
            (∀ i ∈ (K.szv_grid_ctor m (K.szv_grid_dims c.gd) p.cutoff_sqr).possibilities
                (K.index_to_argument c.gd x y z),
              K.atom_get (m.grid_atoms i) c.atu < K.num_atom_types c.atu →
              vec_distance_sqr (m.grid_atoms i).coords (K.index_to_argument c.gd x y z)
                ≤ p.cutoff_sqr →
              cache.populate_theta K m (m.grid_atoms i) (K.index_to_argument c.gd x y z)
                = th i) →
          (c1.grids t2).m_data x y z =
            (((((K.szv_grid_ctor m (K.szv_grid_dims c.gd) p.cutoff_sqr).possibilities
                (K.index_to_argument c.gd x y z)).filter (fun i =>
                  decide (K.atom_get (m.grid_atoms i) c.atu < K.num_atom_types c.atu) &&
                  decide (vec_distance_sqr (m.grid_atoms i).coords
                    (K.index_to_argument c.gd x y z) ≤ p.cutoff_sqr))).map
              (fun i => p.eval_fast
                (K.triangular_matrix_index_permissive (K.num_atom_types c.atu)
                  (K.atom_get (m.grid_atoms i) c.atu) t2)
                (vec_distance_sqr (m.grid_atoms i).coords (K.index_to_argument c.gd x y z))
                (th i))).sum) := by
  obtain ⟨c1, h1⟩ := populate_total K c m p L hL
  refine ⟨c1, h1, fun t2 ht2 hun x y z hx hy hz th hth => ?_⟩
  rw [(((populate_spec K c m p L c1 h1).2 t2).1 ⟨ht2, hun⟩).2 x y z hx hy hz]
  refine congrArg List.sum (List.map_congr_left (fun i hi => ?_))
  rw [List.mem_filter] at hi
  have hi2 := hi.2
  simp only [Bool.and_eq_true, decide_eq_true_eq] at hi2
  show p.eval_fast _ _ _ = p.eval_fast _ _ _
  rw [hth i hi.1 hi2.1 hi2.2]

/-- C12. Sulfur rule during grid population.  In the body of the loop of `cache::populate`
over the candidates, for a receptor atom `i` that is a sulfur, inside the scheme and within
the cutoff of the lattice point, the value added to the affinity of each needed type `t2`
(`h t2` being the affinity so far) is `eval_fast` at the type-pair index, the squared
distance and a `theta` that is 0 when the bond count of the sulfur is not two, and
otherwise the larger of the two per-bond values, the value of a bond being the angle at the
sulfur between (sulfur - neighbour) and (sulfur - lattice point) when the neighbour is
aromatic and 0 otherwise.  With two bonds of which exactly one neighbour is aromatic,
`theta` is the angle against the aromatic neighbour, an angle being taken not to be
negative.  The value that `cache::populate` stores at a lattice point for a needed type is
the sum of `eval_fast` over the counted candidates, the `theta` of each sulfur among them
being the one of this rule (and that of the others 180). -/
theorem populate_sulfur_theta (K : decls F) (c : cache F) (m : model F) (p : precalculate F)
    (needed : List Nat) (probe_coords : vec F) (h : Nat → F) (i : Nat)
    (hS : K.xs_is_S (m.grid_atoms i).xs = true)
    (hin : K.atom_get (m.grid_atoms i) c.atu < K.num_atom_types c.atu)
    (hr : vec_distance_sqr (m.grid_atoms i).coords probe_coords ≤ p.cutoff_sqr)
    (hN : ∀ t ∈ needed, t < K.num_atom_types c.atu) :
    ((m.grid_atoms i).bonds.length ≠ 2 →
      cache.populate_candidate K c m p needed probe_coords (needed.map h) i =
        some (needed.map (fun t2 => h t2 + p.eval_fast
          (K.triangular_matrix_index_permissive (K.num_atom_types c.atu)
            (K.atom_get (m.grid_atoms i) c.atu) t2)
          (vec_distance_sqr (m.grid_atoms i).coords probe_coords) 0)))
    ∧ (∀ b0 b1, (m.grid_atoms i).bonds = [b0, b1] →
      cache.populate_candidate K c m p needed probe_coords (needed.map h) i =
        some (needed.map (fun t2 => h t2 + p.eval_fast
          (K.triangular_matrix_index_permissive (K.num_atom_types c.atu)
            (K.atom_get (m.grid_atoms i) c.atu) t2)
          (vec_distance_sqr (m.grid_atoms i).coords probe_coords)
          (max (cache.populate_bond_angle K m (m.grid_atoms i) probe_coords b0)
            (cache.populate_bond_angle K m (m.grid_atoms i) probe_coords b1)))))
    ∧ (∀ b0 b1, (m.grid_atoms i).bonds = [b0, b1] →
        (m.get_atom b0.connected_atom_index).ad = K.AD_TYPE_A →
        (m.get_atom b1.connected_atom_index).ad ≠ K.AD_TYPE_A →
        0 ≤ K.angle ((m.grid_atoms i).coords - (m.get_atom b0.connected_atom_index).coords)
          ((m.grid_atoms i).coords - probe_coords) →
      cache.populate_candidate K c m p needed probe_coords (needed.map h) i =
        some (needed.map (fun t2 => h t2 + p.eval_fast
          (K.triangular_matrix_index_permissive (K.num_atom_types c.atu)
            (K.atom_get (m.grid_atoms i) c.atu) t2)
          (vec_distance_sqr (m.grid_atoms i).coords probe_coords)
          (K.angle ((m.grid_atoms i).coords - (m.get_atom b0.connected_atom_index).coords)
            ((m.grid_atoms i).coords - probe_coords)))))
    ∧ (∀ b0 b1, (m.grid_atoms i).bonds = [b0, b1] →
        (m.get_atom b0.connected_atom_index).ad ≠ K.AD_TYPE_A →
        (m.get_atom b1.connected_atom_index).ad = K.AD_TYPE_A →
        0 ≤ K.angle ((m.grid_atoms i).coords - (m.get_atom b1.connected_atom_index).coords)
          ((m.grid_atoms i).coords - probe_coords) →
      cache.populate_candidate K c m p needed probe_coords (needed.map h) i =
        some (needed.map (fun t2 => h t2 + p.eval_fast
          (K.triangular_matrix_index_permissive (K.num_atom_types c.atu)
            (K.atom_get (m.grid_atoms i) c.atu) t2)
          (vec_distance_sqr (m.grid_atoms i).coords probe_coords)
          (K.angle ((m.grid_atoms i).coords - (m.get_atom b1.connected_atom_index).coords)
            ((m.grid_atoms i).coords - probe_coords)))))
    ∧ (∀ L : List Nat, (∀ t ∈ L, t < K.num_atom_types c.atu) →
        ∃ c1, cache.populate K c m p L = some c1
          ∧ ∀ t2 ∈ L, (c.grids t2).initialized = false →
            ∀ x y z, x < K.grid_points (c.gd 0) → y < K.grid_points (c.gd 1) →
              z < K.grid_points (c.gd 2) →
              ∀ th : Nat → F,
                (∀ k ∈ (K.szv_grid_ctor m (K.szv_grid_dims c.gd) p.cutoff_sqr).possibilities
                    (K.index_to_argument c.gd x y z),
                  K.atom_get (m.grid_atoms k) c.atu < K.num_atom_types c.atu →
                  vec_distance_sqr (m.grid_atoms k).coords (K.index_to_argument c.gd x y z)
                    ≤ p.cutoff_sqr →
                  (K.xs_is_S (m.grid_atoms k).xs = true →
                    (m.grid_atoms k).bonds.length ≠ 2 → th k = 0)
                  ∧ (K.xs_is_S (m.grid_atoms k).xs = true →
                    ∀ b0 b1, (m.grid_atoms k).bonds = [b0, b1] →
                      th k = max
                        (cache.populate_bond_angle K m (m.grid_atoms k)
                          (K.index_to_argument c.gd x y z) b0)
                        (cache.populate_bond_angle K m (m.grid_atoms k)
                          (K.index_to_argument c.gd x y z) b1))
                  ∧ (K.xs_is_S (m.grid_atoms k).xs = false → th k = 180)) →
              (c1.grids t2).m_data x y z =
                (((((K.szv_grid_ctor m (K.szv_grid_dims c.gd) p.cutoff_sqr).possibilities
                    (K.index_to_argument c.gd x y z)).filter (fun k =>
                      decide (K.atom_get (m.grid_atoms k) c.atu < K.num_atom_types c.atu) &&
                      decide (vec_distance_sqr (m.grid_atoms k).coords
                        (K.index_to_argument c.gd x y z) ≤ p.cutoff_sqr))).map
                  (fun k => p.eval_fast
                    (K.triangular_matrix_index_permissive (K.num_atom_types c.atu)
                      (K.atom_get (m.grid_atoms k) c.atu) t2)
                    (vec_distance_sqr (m.grid_atoms k).coords
                      (K.index_to_argument c.gd x y z))
                    (th k))).sum)) := by
  have hc := populate_candidate_counted K c m p needed probe_coords h i hin hr hN
  have hmax := populate_theta_of_sulfur_two K m (m.grid_atoms i) probe_coords hS
  refine ⟨fun hlen => ?_, fun b0 b1 hb => ?_, fun b0 b1 hb h0 h1 hpos => ?_,
    fun b0 b1 hb h0 h1 hpos => ?_, fun L hL => ?_⟩
  · rw [hc, populate_theta_of_sulfur_not_two K m (m.grid_atoms i) probe_coords hS hlen]
  · rw [hc, hmax b0 b1 hb]
  · rw [hc, hmax b0 b1 hb]
    simp only [cache.populate_bond_angle, h0, h1, if_true, if_false]
    rw [max_eq_left hpos]
  · rw [hc, hmax b0 b1 hb]
    simp only [cache.populate_bond_angle, h0, h1, if_true, if_false]
    rw [max_eq_right hpos]
  · obtain ⟨c1, h1, h2⟩ := populate_stores_of_theta K c m p L hL
    refine ⟨c1, h1, fun t2 ht2 hun x y z hx hy hz th hth => ?_⟩
    refine h2 t2 ht2 hun x y z hx hy hz th (fun k hk hkin hkr => ?_)
    obtain ⟨r0, r2, r180⟩ := hth k hk hkin hkr
    exact populate_theta_of_rule K m (m.grid_atoms k) _ (th k) r0 r2 r180

/-- C12 at the sample configuration: the receptor sulfur 1 of `sample.m_geo`, of type 4 at
`(1, 1, 3)`, has two bonds, the first to an aromatic carbon; for the lattice point
`(0, 0, 0)`, at the squared distance 11, its `theta` is the angle 3 against that carbon,
and the loop body adds 4 + 11 + 3 to the affinity of the type 0 and 5 + 11 + 3 to that of
the type 1. -/
theorem populate_sulfur_theta_witness :
    cache.populate_candidate sample.K_wide sample.c0 sample.m_geo sample.p [0, 1] ![0, 0, 0]
      [0, 0] 1 = some [18, 19] :=
  ((populate_sulfur_theta sample.K_wide sample.c0 sample.m_geo sample.p [0, 1] ![0, 0, 0]
    (fun _ => 0) 1 (by decide) (by decide) (by decide) (by decide)).2.2.1
      ⟨⟨3, true⟩⟩ ⟨⟨4, true⟩⟩ rfl (by decide) (by decide) (by decide)).trans (by decide)

/-- C14. Default angle: when neither atom of the pair is a sulfur (a sulfur bond being
possible only for a pair with a sulfur), `theta` is assigned and is 180 at the three call
sites.  In `cache::populate`, the body of the loop over the candidates adds, for an
in-scheme receptor atom within the cutoff, `eval_fast` at `theta = 180` to the affinity of
each needed type (`h t2` being the affinity so far), and the value stored at a lattice
point none of whose counted candidates is a sulfur is the sum of `eval_fast` at
`theta = 180` over them.  In `non_cache::eval` and `non_cache::eval_deriv` the body of the
loop over the candidates evaluates the in-scheme candidate within the cutoff at
`theta = 180`.  Whether an atom is a halogen makes no difference. -/
theorem default_theta (K : decls F) (c : cache F) (nc : non_cache F) (m : model F)
    (p : precalculate F) (probe_coords : vec F) (i j : Nat)
    (hsul : ∀ x y, K.xs_sul_bond_possible x y = true → K.xs_is_S x = true ∨ K.xs_is_S y = true)
    (ha : K.xs_is_S (m.atoms i).xs = false) (hb : K.xs_is_S (m.grid_atoms j).xs = false) :
    cache.populate_theta K m (m.grid_atoms j) probe_coords = 180
    ∧ (∀ (needed : List Nat) (h : Nat → F),
        K.atom_get (m.grid_atoms j) c.atu < K.num_atom_types c.atu →
        vec_distance_sqr (m.grid_atoms j).coords probe_coords ≤ p.cutoff_sqr →
        (∀ t ∈ needed, t < K.num_atom_types c.atu) →
        cache.populate_candidate K c m p needed probe_coords (needed.map h) j =
          some (needed.map (fun t2 => h t2 + p.eval_fast
            (K.triangular_matrix_index_permissive (K.num_atom_types c.atu)
              (K.atom_get (m.grid_atoms j) c.atu) t2)
            (vec_distance_sqr (m.grid_atoms j).coords probe_coords) 180)))
    ∧ (∀ L : List Nat, (∀ t ∈ L, t < K.num_atom_types c.atu) →
        ∃ c1, cache.populate K c m p L = some c1
          ∧ ∀ t2 ∈ L, (c.grids t2).initialized = false →
            ∀ x y z, x < K.grid_points (c.gd 0) → y < K.grid_points (c.gd 1) →
              z < K.grid_points (c.gd 2) →
              (∀ k ∈ (K.szv_grid_ctor m (K.szv_grid_dims c.gd) p.cutoff_sqr).possibilities
                  (K.index_to_argument c.gd x y z),
                K.atom_get (m.grid_atoms k) c.atu < K.num_atom_types c.atu →
                vec_distance_sqr (m.grid_atoms k).coords (K.index_to_argument c.gd x y z)
                  ≤ p.cutoff_sqr →
                K.xs_is_S (m.grid_atoms k).xs = false) →
              (c1.grids t2).m_data x y z =
                (((((K.szv_grid_ctor m (K.szv_grid_dims c.gd) p.cutoff_sqr).possibilities
                    (K.index_to_argument c.gd x y z)).filter (fun k =>
                      decide (K.atom_get (m.grid_atoms k) c.atu < K.num_atom_types c.atu) &&
                      decide (vec_distance_sqr (m.grid_atoms k).coords
                        (K.index_to_argument c.gd x y z) ≤ p.cutoff_sqr))).map
                  (fun k => p.eval_fast
                    (K.triangular_matrix_index_permissive (K.num_atom_types c.atu)
                      (K.atom_get (m.grid_atoms k) c.atu) t2)
                    (vec_distance_sqr (m.grid_atoms k).coords
                      (K.index_to_argument c.gd x y z))
                    180)).sum))
    ∧ non_cache.theta K m i (m.atoms i) (m.grid_atoms j) = some 180
    ∧ (K.atom_get (m.grid_atoms j) nc.p.atom_typing_used
          < K.num_atom_types nc.p.atom_typing_used →
        ∀ (adjusted_a_coords : vec F) (this_e : F),
          non_cache.eval_candidate K nc m i adjusted_a_coords this_e j =
            if vec_distance_sqr adjusted_a_coords (m.grid_atoms j).coords < nc.p.cutoff_sqr
            then some (this_e + nc.p.eval_fast
              (K.get_type_pair_index nc.p.atom_typing_used (m.atoms i) (m.grid_atoms j))
              (vec_distance_sqr adjusted_a_coords (m.grid_atoms j).coords) 180)
            else some this_e)
    ∧ (K.atom_get (m.grid_atoms j) nc.p.atom_typing_used
          < K.num_atom_types nc.p.atom_typing_used →
        ∀ (adjusted_a_coords : vec F) (st : F × vec F),
          non_cache.eval_deriv_candidate K nc m i adjusted_a_coords st j =
            if vec_distance_sqr adjusted_a_coords (m.grid_atoms j).coords < nc.p.cutoff_sqr
            then some
              (st.1 + (nc.p.eval_deriv
                (K.get_type_pair_index nc.p.atom_typing_used (m.atoms i) (m.grid_atoms j))
                (vec_distance_sqr adjusted_a_coords (m.grid_atoms j).coords) 180).1,
               st.2 + (nc.p.eval_deriv
                (K.get_type_pair_index nc.p.atom_typing_used (m.atoms i) (m.grid_atoms j))
                (vec_distance_sqr adjusted_a_coords (m.grid_atoms j).coords) 180).2 •
                  (adjusted_a_coords - (m.grid_atoms j).coords))
            else some st) := by
  have hpt : cache.populate_theta K m (m.grid_atoms j) probe_coords = 180 := by
    simp [cache.populate_theta, hb]
  have hns : K.xs_sul_bond_possible (m.atoms i).xs (m.grid_atoms j).xs = false := by
    cases h : K.xs_sul_bond_possible (m.atoms i).xs (m.grid_atoms j).xs
    · rfl
    · rcases hsul _ _ h with h1 | h1
      · rw [ha] at h1; exact absurd h1 (by simp)
      · rw [hb] at h1; exact absurd h1 (by simp)
  have hth : non_cache.theta K m i (m.atoms i) (m.grid_atoms j) = some 180 := by
    simp [non_cache.theta, hns]
  refine ⟨hpt, ?_, ?_, hth, ?_, ?_⟩
  · intro needed h hin hr hN
    rw [populate_candidate_counted K c m p needed probe_coords h j hin hr hN, hpt]
  · intro L hL
    obtain ⟨c1, h1, h2⟩ := populate_stores_of_theta K c m p L hL
    refine ⟨c1, h1, fun t2 ht2 hun x y z hx hy hz hnS => ?_⟩
    refine h2 t2 ht2 hun x y z hx hy hz (fun _ => 180) (fun k hk hkin hkr => ?_)
    simp [cache.populate_theta, hnS k hk hkin hkr]
  · intro hj adj this_e
    rw [eval_candidate_eq K nc m i adj this_e j hj, hth]
    rfl
  · intro hj adj st
    rw [eval_deriv_candidate_eq K nc m i adj st j hj, hth]
    rfl

/-- C14 at the sample configuration: for the movable atom of type 0 and the receptor atom
of type 1 of `sample.m_one`, at the squared distance 4 of the lattice point `(1, 1, 1)`,
the loop body of `cache::populate` adds `eval_fast` at `theta = 180` to each affinity,
1 + 4 + 180 for the type 0 and 2 + 4 + 180 for the type 1, and the loop body of
`non_cache::eval` adds 1 + 4 + 180. -/
theorem default_theta_witness :
    cache.populate_candidate sample.K sample.c0 sample.m_one sample.p [0, 1] ![1, 1, 1]
        [0, 0] 0 = some [185, 186]
    ∧ non_cache.eval_candidate sample.K sample.nc_one sample.m_one 0 ![1, 1, 1] 0 0
        = some 185 :=
  ⟨((default_theta sample.K sample.c0 sample.nc_one sample.m_one sample.p ![1, 1, 1] 0 0
      (fun x y h => by simpa [sample.K] using h) (by decide) (by decide)).2.1 [0, 1]
      (fun _ => 0) (by decide) (by decide) (by decide)).trans (by decide),
    ((default_theta sample.K sample.c0 sample.nc_one sample.m_one sample.p ![1, 1, 1] 0 0
      (fun x y h => by simpa [sample.K] using h) (by decide) (by decide)).2.2.2.2.1
      (by decide) ![1, 1, 1] 0).trans (by decide)⟩

/-- In `cache::populate` the `theta` of a receptor atom that is not a sulfur is 180,
whatever the halogen block assigned. -/
theorem populate_theta_of_not_sulfur (K : decls F) (m : model F) (a : atom F)
    (probe_coords : vec F) (hS : K.xs_is_S a.xs = false) :
    cache.populate_theta K m a probe_coords = 180 := by
  simp [cache.populate_theta, hS]

/-- In `non_cache::eval` and `non_cache::eval_deriv` the `theta` of a pair for which no
sulfur bond is possible is 180, whatever the halogen block assigned. -/
theorem theta_of_no_sulfur_bond (K : decls F) (m : model F) (i : Nat) (a b : atom F)
    (hp : K.xs_sul_bond_possible a.xs b.xs = false) :
    non_cache.theta K m i a b = some 180 := by
  simp [non_cache.theta, hp]

/-- C15: the code at the failing input.  The receptor atom 2 of `sample.m_geo` is a halogen
bonded to a carbon; for the lattice point `(0, 0, 0)` the halogen block of
`cache::populate` assigns to `theta` the angle 19 between (halogen - carbon) and
(halogen - lattice point), and the `else` of the sulfur conditional that follows
overwrites it: the `theta` passed to `eval_fast` is 180. -/
theorem populate_halogen_theta_overwritten :
    sample.K_wide.xs_is_halogen (sample.m_geo.grid_atoms 2).xs = true
    ∧ (sample.m_geo.grid_atoms 2).bonds = [⟨⟨4, true⟩⟩]
    ∧ (sample.m_geo.get_atom ⟨4, true⟩).el = sample.K_wide.EL_TYPE_C
    ∧ sample.K_wide.angle
        ((sample.m_geo.grid_atoms 2).coords - (sample.m_geo.get_atom ⟨4, true⟩).coords)
        ((sample.m_geo.grid_atoms 2).coords - ![0, 0, 0]) = 19
    ∧ cache.populate_theta_halogen sample.K_wide sample.m_geo (sample.m_geo.grid_atoms 2)
        ![0, 0, 0] = some 19
    ∧ cache.populate_theta sample.K_wide sample.m_geo (sample.m_geo.grid_atoms 2)
        ![0, 0, 0] = 180
    ∧ cache.populate_term sample.K_wide sample.c0 sample.m_geo sample.p ![0, 0, 0] 1 2 =
        sample.p.eval_fast 6 35 180 :=
  ⟨by decide, rfl, by decide, by decide, by decide, by decide, by decide⟩

/-- C16: the code at the failing inputs.  In `sample.m_geo` a halogen bond is possible
between the movable halogen 1, bonded to a carbon, and the receptor atom 0: the halogen
block assigns to `theta` the angle 11 at the halogen, and the `else` of the sulfur
conditional overwrites it with 180.  A halogen bond is possible too between the movable
atom 4 and the receptor halogen 2, bonded to a carbon: the angle 16 at the halogen goes to
a `theta` declared inside the loop, the outer `theta` is not assigned by the halogen block,
and the `theta` passed to the potential table is 180. -/
theorem halogen_theta_overwritten :
    (sample.K_wide.xs_hal_any_bond_possible (sample.m_geo.atoms 1).xs
        (sample.m_geo.grid_atoms 0).xs = true
      ∧ sample.K_wide.xs_is_halogen (sample.m_geo.atoms 1).xs = true
      ∧ (sample.m_geo.get_atom ⟨3, false⟩).el = sample.K_wide.EL_TYPE_C
      ∧ sample.K_wide.angle (sample.m_geo.coords 1 - sample.m_geo.coords 3)
          (sample.m_geo.coords 1 - (sample.m_geo.grid_atoms 0).coords) = 11
      ∧ non_cache.theta_halogen sample.K_wide sample.m_geo 1 (sample.m_geo.atoms 1)
          (sample.m_geo.grid_atoms 0) = some 11
      ∧ non_cache.theta sample.K_wide sample.m_geo 1 (sample.m_geo.atoms 1)
          (sample.m_geo.grid_atoms 0) = some 180)
    ∧ (sample.K_wide.xs_hal_any_bond_possible (sample.m_geo.atoms 4).xs
        (sample.m_geo.grid_atoms 2).xs = true
      ∧ sample.K_wide.xs_is_halogen (sample.m_geo.grid_atoms 2).xs = true
      ∧ (sample.m_geo.get_atom ⟨4, true⟩).el = sample.K_wide.EL_TYPE_C
      ∧ sample.K_wide.angle
          ((sample.m_geo.grid_atoms 2).coords - (sample.m_geo.get_atom ⟨4, true⟩).coords)
          ((sample.m_geo.grid_atoms 2).coords - sample.m_geo.coords 4) = 16
      ∧ non_cache.theta_halogen sample.K_wide sample.m_geo 4 (sample.m_geo.atoms 4)
          (sample.m_geo.grid_atoms 2) = none
      ∧ non_cache.theta sample.K_wide sample.m_geo 4 (sample.m_geo.atoms 4)
          (sample.m_geo.grid_atoms 2) = some 180) := by
  decide

/-- The squared distance is symmetric. -/
theorem vec_distance_sqr_comm (a b : vec F) : vec_distance_sqr a b = vec_distance_sqr b a := by
  simp only [vec_distance_sqr, sqr, Pi.sub_apply]
  ring

/-- The loop over the candidates of `non_cache::eval`, when `theta` is assigned, with the
value `th j`, for each in-scheme candidate `j` within the cutoff: `this_e` grows by the sum
of the values of `eval_fast` over these candidates. -/
theorem eval_candidates_sum (K : decls F) (nc : non_cache F) (m : model F) (i : Nat)
    (adjusted_a_coords : vec F) (th : Nat → F) (cands : List Nat)
    (hth : ∀ j ∈ cands,
      K.atom_get (m.grid_atoms j) nc.p.atom_typing_used
        < K.num_atom_types nc.p.atom_typing_used →
      vec_distance_sqr adjusted_a_coords (m.grid_atoms j).coords < nc.p.cutoff_sqr →
      non_cache.theta K m i (m.atoms i) (m.grid_atoms j) = some (th j))
    (this_e : F) :
    cands.foldlM (non_cache.eval_candidate K nc m i adjusted_a_coords) this_e =
      some (this_e + ((cands.filter (fun j =>
          decide (K.atom_get (m.grid_atoms j) nc.p.atom_typing_used
            < K.num_atom_types nc.p.atom_typing_used) &&
          decide (vec_distance_sqr adjusted_a_coords (m.grid_atoms j).coords
            < nc.p.cutoff_sqr))).map
        (fun j => nc.p.eval_fast
          (K.get_type_pair_index nc.p.atom_typing_used (m.atoms i) (m.grid_atoms j))
          (vec_distance_sqr adjusted_a_coords (m.grid_atoms j).coords) (th j))).sum) := by
  induction cands generalizing this_e with
  | nil => simp
  | cons j l ih =>
    have ih1 := ih (fun k hk => hth k (List.mem_cons_of_mem _ hk))
    simp only [List.foldlM_cons]
    by_cases hj : K.atom_get (m.grid_atoms j) nc.p.atom_typing_used
        < K.num_atom_types nc.p.atom_typing_used
    · rw [eval_candidate_eq K nc m i adjusted_a_coords this_e j hj]
      by_cases hr : vec_distance_sqr adjusted_a_coords (m.grid_atoms j).coords < nc.p.cutoff_sqr
      · rw [if_pos hr, hth j (List.mem_cons_self _ _) hj hr]
        simp only [Option.map_some', Option.bind_eq_bind, Option.some_bind]
        rw [ih1]
        simp [List.filter_cons, hj, hr, add_assoc]
      · rw [if_neg hr]
        simp only [Option.bind_eq_bind, Option.some_bind]
        rw [ih1]
        simp [List.filter_cons, hj, hr]
    · have hskip : non_cache.eval_candidate K nc m i adjusted_a_coords this_e j = some this_e := by
        simp [non_cache.eval_candidate, Nat.not_lt.mp hj]
      rw [hskip]
      simp only [Option.bind_eq_bind, Option.some_bind]
      rw [ih1]
      simp [List.filter_cons, hj]

/-- C11, as stated, fails.  In `sample.m_edge` the receptor atom lies at the squared
distance 64 from the lattice point `(1, 1, 1)`, which is the squared cutoff:
`cache::populate` tests `r2 <= cutoff_sqr` and stores 1 + 64 + 180 for the type 0, and
`non_cache::eval` tests `r2 < cutoff_sqr` and accumulates 0 for the atom of type 0 at that
point.  In `sample.m_geo` the receptor atom 1 is a sulfur: for the type 1 and the lattice
point `(1, 1, 0)` `cache::populate` takes `theta` from the bonds of the receptor sulfur and
stores 210, and `non_cache::eval`, for the atom 4 of type 1 at that point, reads a `theta`
that no branch assigned. -/
theorem grid_value_direct_sum_counterexample :
    (Option.map (fun c1 => (c1.grids 0).m_data 1 1 1)
        (cache.populate sample.K sample.c0 sample.m_edge sample.p [0]) = some 245
      ∧ sample.m_edge.coords 0 = sample.K.index_to_argument sample.c0.gd 1 1 1
      ∧ (sample.nc_edge.sgrid.possibilities
            (non_cache.clamp sample.nc_edge.gd (sample.m_edge.coords 0)).1).foldlM
          (non_cache.eval_candidate sample.K sample.nc_edge sample.m_edge 0
            (non_cache.clamp sample.nc_edge.gd (sample.m_edge.coords 0)).1) 0 = some 0)
    ∧ (Option.map (fun c1 => (c1.grids 1).m_data 1 1 0)
        (cache.populate sample.K_wide sample.c0 sample.m_geo sample.p [1]) = some 210
      ∧ sample.m_geo.coords 4 = sample.K_wide.index_to_argument sample.c0.gd 1 1 0
      ∧ (sample.nc_geo.sgrid.possibilities
            (non_cache.clamp sample.nc_geo.gd (sample.m_geo.coords 4)).1).foldlM
          (non_cache.eval_candidate sample.K_wide sample.nc_geo sample.m_geo 4
            (non_cache.clamp sample.nc_geo.gd (sample.m_geo.coords 4)).1) 0 = none) := by
  decide

/-- C11, amended.  Grid cache versus direct evaluator: for a requested in-scheme type `t`
whose grid `cache::populate` fills, a lattice point `P` inside the box, and a movable atom
`i` of type `t` located at `P`, with the same model, potential table, `grid_dims` and atom
typing on both sides (so the same spatial index), the value that `cache::populate` stores
for `t` at `P` is the pairwise sum that `non_cache::eval` accumulates for the atom before
`curl`, and `non_cache::eval` adds `curl` of that value for the atom, provided that for
each in-scheme candidate of `P`: its squared distance to `P` is not the squared cutoff;
the geometry correction of the direct evaluator gives the `theta` that the one of
`cache::populate` gives; and the two type-pair indices agree. -/
theorem grid_value_eq_direct_sum (K : decls F) (c : cache F) (m : model F) (p : precalculate F)
    (L : List Nat) (slope v : F) (t x y z i : Nat)
    (hL : ∀ t ∈ L, t < K.num_atom_types c.atu) (ht : t ∈ L)
    (hun : (c.grids t).initialized = false)
    (hx : x < K.grid_points (c.gd 0)) (hy : y < K.grid_points (c.gd 1))
    (hz : z < K.grid_points (c.gd 2))
    (hatu : p.atom_typing_used = c.atu)
    (hbox : ∀ k, 0 < (c.gd k).n → (c.gd k).begin ≤ K.index_to_argument c.gd x y z k
      ∧ K.index_to_argument c.gd x y z k ≤ (c.gd k).end_)
    (htype : K.atom_get (m.atoms i) c.atu = t)
    (hpos : m.coords i = K.index_to_argument c.gd x y z)
    (hedge : ∀ j ∈ (K.szv_grid_ctor m (K.szv_grid_dims c.gd) p.cutoff_sqr).possibilities
        (K.index_to_argument c.gd x y z),
      K.atom_get (m.grid_atoms j) c.atu < K.num_atom_types c.atu →
      vec_distance_sqr (m.grid_atoms j).coords (K.index_to_argument c.gd x y z)
        ≠ p.cutoff_sqr)
    (htheta : ∀ j ∈ (K.szv_grid_ctor m (K.szv_grid_dims c.gd) p.cutoff_sqr).possibilities
        (K.index_to_argument c.gd x y z),
      K.atom_get (m.grid_atoms j) c.atu < K.num_atom_types c.atu →
      vec_distance_sqr (m.grid_atoms j).coords (K.index_to_argument c.gd x y z)
        < p.cutoff_sqr →
      non_cache.theta K m i (m.atoms i) (m.grid_atoms j) =
        some (cache.populate_theta K m (m.grid_atoms j) (K.index_to_argument c.gd x y z)))
    (hidx : ∀ j ∈ (K.szv_grid_ctor m (K.szv_grid_dims c.gd) p.cutoff_sqr).possibilities
        (K.index_to_argument c.gd x y z),
      K.atom_get (m.grid_atoms j) c.atu < K.num_atom_types c.atu →
      vec_distance_sqr (m.grid_atoms j).coords (K.index_to_argument c.gd x y z)
        < p.cutoff_sqr →
      K.get_type_pair_index c.atu (m.atoms i) (m.grid_atoms j) =
        K.triangular_matrix_index_permissive (K.num_atom_types c.atu)
          (K.atom_get (m.grid_atoms j) c.atu) (K.atom_get (m.atoms i) c.atu)) :
    ∃ c1, cache.populate K c m p L = some c1
      ∧ ((non_cache.ctor K m c.gd p slope).sgrid.possibilities
            (non_cache.clamp (non_cache.ctor K m c.gd p slope).gd (m.coords i)).1).foldlM
          (non_cache.eval_candidate K (non_cache.ctor K m c.gd p slope) m i
            (non_cache.clamp (non_cache.ctor K m c.gd p slope).gd (m.coords i)).1) 0
          = some ((c1.grids t).m_data x y z)
      ∧ non_cache.eval_atom K (non_cache.ctor K m c.gd p slope) m v i =
          some (K.curl ((c1.grids t).m_data x y z) v) := by
  obtain ⟨c1, h1⟩ := populate_total K c m p L hL
  have hval := (((populate_spec K c m p L c1 h1).2 t).1 ⟨ht, hun⟩).2 x y z hx hy hz
  have hadj : (non_cache.clamp (non_cache.ctor K m c.gd p slope).gd (m.coords i)).1
      = K.index_to_argument c.gd x y z := by
    rw [clamp_fst, hpos]
    funext k
    exact (clamp_coord_inside (c.gd k) _ (hbox k)).1
  have hpen : non_cache.out_of_bounds_penalty (non_cache.ctor K m c.gd p slope) (m.coords i)
      = 0 := by
    rw [non_cache.out_of_bounds_penalty, clamp_snd, hpos]
    have e0 := (clamp_coord_inside (c.gd 0) _ (hbox 0)).2
    have e1 := (clamp_coord_inside (c.gd 1) _ (hbox 1)).2
    have e2 := (clamp_coord_inside (c.gd 2) _ (hbox 2)).2
    simp only [non_cache.ctor]
    rw [e0, e1, e2]
    simp
  have hfold : ((non_cache.ctor K m c.gd p slope).sgrid.possibilities
        (K.index_to_argument c.gd x y z)).foldlM
      (non_cache.eval_candidate K (non_cache.ctor K m c.gd p slope) m i
        (K.index_to_argument c.gd x y z)) 0 = some ((c1.grids t).m_data x y z) := by
    rw [eval_candidates_sum K (non_cache.ctor K m c.gd p slope) m i
      (K.index_to_argument c.gd x y z)
      (fun j => cache.populate_theta K m (m.grid_atoms j) (K.index_to_argument c.gd x y z))]
    · rw [hval, zero_add]
      simp only [non_cache.ctor, hatu, cache.populate_sum]
      have hfilter : ∀ j ∈ (K.szv_grid_ctor m (K.szv_grid_dims c.gd) p.cutoff_sqr).possibilities
          (K.index_to_argument c.gd x y z),
          (decide (K.atom_get (m.grid_atoms j) c.atu < K.num_atom_types c.atu) &&
            decide (vec_distance_sqr (K.index_to_argument c.gd x y z) (m.grid_atoms j).coords
              < p.cutoff_sqr)) =
          (decide (K.atom_get (m.grid_atoms j) c.atu < K.num_atom_types c.atu) &&
            decide (vec_distance_sqr (m.grid_atoms j).coords (K.index_to_argument c.gd x y z)
              ≤ p.cutoff_sqr)) := by
        intro j hj
        by_cases hin : K.atom_get (m.grid_atoms j) c.atu < K.num_atom_types c.atu
        · have hne := hedge j hj hin
          rw [vec_distance_sqr_comm (K.index_to_argument c.gd x y z)]
          simp only [hin, decide_True, Bool.true_and, decide_eq_decide]
          exact ⟨le_of_lt, fun h => lt_of_le_of_ne h hne⟩
        · simp [hin]
      rw [List.filter_congr hfilter]
      refine congrArg some (congrArg List.sum (List.map_congr_left (fun j hj => ?_)))
      have hj1 := List.mem_filter.mp hj
      have hin : K.atom_get (m.grid_atoms j) c.atu < K.num_atom_types c.atu := by
        have := hj1.2
        simp only [Bool.and_eq_true, decide_eq_true_eq] at this
        exact this.1
      have hle : vec_distance_sqr (m.grid_atoms j).coords (K.index_to_argument c.gd x y z)
          ≤ p.cutoff_sqr := by
        have := hj1.2
        simp only [Bool.and_eq_true, decide_eq_true_eq] at this
        exact this.2
      have hlt := lt_of_le_of_ne hle (hedge j hj1.1 hin)
      rw [hidx j hj1.1 hin hlt, htype, vec_distance_sqr_comm (K.index_to_argument c.gd x y z)]
      rfl
    · intro j hj hin hlt
      simp only [non_cache.ctor, hatu] at hj hin hlt
      rw [vec_distance_sqr_comm] at hlt
      exact htheta j hj hin hlt
  refine ⟨c1, h1, ?_, ?_⟩
  · rw [hadj]; exact hfold
  · rw [eval_atom_eq, ← clamp_fst, hadj, hfold, hpen]
    simp

/-- C11 amended, at the sample configuration: for the type 0 and the lattice point
`(1, 1, 1)` of `sample.m_one`, whose receptor atom is at the squared distance 4, the value
stored and the sum accumulated are both 1 + 4 + 180. -/
theorem grid_value_eq_direct_sum_witness :
    ∃ c1, cache.populate sample.K sample.c0 sample.m_one sample.p [0] = some c1
      ∧ (c1.grids 0).m_data 1 1 1 = 185
      ∧ non_cache.eval_atom sample.K sample.nc_one sample.m_one 1000 0 = some 185 := by
  obtain ⟨c1, h1, h2, h3⟩ := grid_value_eq_direct_sum sample.K sample.c0 sample.m_one sample.p
    [0] 1 1000 0 1 1 1 0 (by decide) (by decide) rfl (by decide) (by decide) (by decide) rfl
    (by decide) rfl (by decide) (by decide) (by decide) (by decide)
  have h4 : non_cache.eval_atom sample.K sample.nc_one sample.m_one 1000 0 = some 185 := by
    decide
  refine ⟨c1, h1, ?_, h4⟩
  have h5 := h3.symm.trans h4
  have h6 : sample.K.curl ((c1.grids 0).m_data 1 1 1) 1000 = 185 := Option.some.inj h5
  have h7 := h2.symm.trans (by decide : _ = some (185 : ℤ))
  exact Option.some.inj h7

/-- A loop that returns, and whose body agrees with a total body wherever it returns, ends
in the state of the total loop. -/
theorem foldlM_some_foldl {α σ : Type} (f : σ → α → Option σ) (g : σ → α → σ)
    (h : ∀ s a s1, f s a = some s1 → g s a = s1) (l : List α) (s s1 : σ)
    (hl : l.foldlM f s = some s1) : l.foldl g s = s1 := by
  induction l generalizing s with
  | nil => simpa using hl
  | cons a l ih =>
    simp only [List.foldlM_cons] at hl
    cases hf : f s a with
    | none => simp [hf] at hl
    | some s2 =>
      rw [hf] at hl
      simp only [List.foldl_cons, h s a s2 hf]
      exact ih s2 hl

/-- Where the body of the loop over the candidates of `non_cache::eval` returns with every
`theta` assigned, the body that reads a never-assigned `theta` as a stale value returns the
same, whatever the stale values. -/
theorem eval_candidate_stale_of_some (K : decls F) (nc : non_cache F) (m : model F)
    (stale : Nat → Nat → F) (i : Nat) (adj : vec F) (this_e : F) (j : Nat) (x : F)
    (h : non_cache.eval_candidate K nc m i adj this_e j = some x) :
    non_cache.eval_candidate_stale K nc m stale i adj this_e j = x := by
  unfold non_cache.eval_candidate at h
  unfold non_cache.eval_candidate_stale
  by_cases h1 : K.atom_get (m.grid_atoms j) nc.p.atom_typing_used
      ≥ K.num_atom_types nc.p.atom_typing_used
  · simp only [h1, if_true] at h ⊢
    exact Option.some.inj h
  · simp only [h1, if_false] at h ⊢
    by_cases h2 : sqr (adj - (m.grid_atoms j).coords) < nc.p.cutoff_sqr
    · simp only [h2, if_true] at h ⊢
      cases hth : non_cache.theta K m i (m.atoms i) (m.grid_atoms j) with
      | none => simp [hth] at h
      | some th =>
        simp only [hth] at h
        exact Option.some.inj h
    · simp only [h2, if_false] at h ⊢
      exact Option.some.inj h

/-- The same for the body of the loop over the candidates of `non_cache::eval_deriv`. -/
theorem eval_deriv_candidate_stale_of_some (K : decls F) (nc : non_cache F) (m : model F)
    (stale : Nat → Nat → F) (i : Nat) (adj : vec F) (st : F × vec F) (j : Nat)
    (x : F × vec F)
    (h : non_cache.eval_deriv_candidate K nc m i adj st j = some x) :
    non_cache.eval_deriv_candidate_stale K nc m stale i adj st j = x := by
  unfold non_cache.eval_deriv_candidate at h
  unfold non_cache.eval_deriv_candidate_stale
  by_cases h1 : K.atom_get (m.grid_atoms j) nc.p.atom_typing_used
      ≥ K.num_atom_types nc.p.atom_typing_used
  · simp only [h1, if_true] at h ⊢
    exact Option.some.inj h
  · simp only [h1, if_false] at h ⊢
    by_cases h2 : sqr (adj - (m.grid_atoms j).coords) < nc.p.cutoff_sqr
    · simp only [h2, if_true] at h ⊢
      cases hth : non_cache.theta K m i (m.atoms i) (m.grid_atoms j) with
      | none => simp [hth] at h
      | some th =>
        simp only [hth] at h
        exact Option.some.inj h
    · simp only [h2, if_false] at h ⊢
      exact Option.some.inj h

/-- Where the per-atom term of `non_cache::eval` returns with every `theta` assigned, the
term that reads a never-assigned `theta` as a stale value is the same. -/
theorem eval_atom_stale_of_some (K : decls F) (nc : non_cache F) (m : model F) (v : F)
    (stale : Nat → Nat → F) (i : Nat) (r : F) (ha : non_cache.eval_atom K nc m v i = some r) :
    non_cache.eval_atom_stale K nc m v stale i = r := by
  unfold non_cache.eval_atom at ha
  unfold non_cache.eval_atom_stale
  dsimp only at ha ⊢
  split at ha
  · next this_e hc =>
    rw [foldlM_some_foldl _ _
      (eval_candidate_stale_of_some K nc m stale i (non_cache.clamp nc.gd (m.coords i)).1)
      _ _ _ hc]
    exact Option.some.inj ha
  · exact absurd ha (by simp)

/-- The same for the per-atom term of `non_cache::eval_deriv`. -/
theorem eval_deriv_atom_stale_of_some (K : decls F) (nc : non_cache F) (m : model F) (v : F)
    (stale : Nat → Nat → F) (i : Nat) (q : F × vec F)
    (ha : non_cache.eval_deriv_atom K nc m v i = some q) :
    non_cache.eval_deriv_atom_stale K nc m v stale i = q := by
  unfold non_cache.eval_deriv_atom at ha
  unfold non_cache.eval_deriv_atom_stale
  dsimp only at ha ⊢
  split at ha
  · next w hc =>
    rw [foldlM_some_foldl _ _
      (eval_deriv_candidate_stale_of_some K nc m stale i
        (non_cache.clamp_deriv nc.gd (m.coords i)).1) _ _ _ hc]
    exact Option.some.inj ha
  · exact absurd ha (by simp)

/-- Where `non_cache::eval` returns with every `theta` it reads assigned, the number that
the code returns is that result, whatever the storage of a never-assigned `theta` holds. -/
theorem eval_stale_of_some (K : decls F) (nc : non_cache F) (m : model F) (v : F)
    (stale : Nat → Nat → F) (e : F) (h : non_cache.eval K nc m v = some e) :
    non_cache.eval_stale K nc m v stale = e := by
  refine foldlM_some_foldl _ _ (fun s i s1 hs => ?_) _ _ _ h
  unfold non_cache.eval_step at hs
  unfold non_cache.eval_step_stale
  by_cases h1 : K.atom_get (m.atoms i) nc.p.atom_typing_used
      ≥ K.num_atom_types nc.p.atom_typing_used
  · simp only [h1, if_true] at hs ⊢
    exact Option.some.inj hs
  · simp only [h1, if_false] at hs ⊢
    cases ha : non_cache.eval_atom K nc m v i with
    | none => simp [ha] at hs
    | some r =>
      simp only [ha] at hs
      rw [eval_atom_stale_of_some K nc m v stale i r ha]
      exact Option.some.inj hs

/-- Where `non_cache::eval_deriv` returns with every `theta` it reads assigned, the energy
and the forces that the code returns are that result, whatever the storage of a
never-assigned `theta` holds. -/
theorem eval_deriv_stale_of_some (K : decls F) (nc : non_cache F) (m : model F) (v : F)
    (stale : Nat → Nat → F) (r : F × model F) (h : non_cache.eval_deriv K nc m v = some r) :
    non_cache.eval_deriv_stale K nc m v stale = r := by
  refine foldlM_some_foldl _ _ (fun s i s1 hs => ?_) _ _ _ h
  unfold non_cache.eval_deriv_step at hs
  unfold non_cache.eval_deriv_step_stale
  by_cases h1 : K.atom_get (s.2.atoms i) nc.p.atom_typing_used
      ≥ K.num_atom_types nc.p.atom_typing_used
  · simp only [h1, if_true] at hs ⊢
    exact Option.some.inj hs
  · simp only [h1, if_false] at hs ⊢
    cases ha : non_cache.eval_deriv_atom K nc s.2 v i with
    | none => simp [ha] at hs
    | some q =>
      simp only [ha] at hs
      rw [eval_deriv_atom_stale_of_some K nc s.2 v stale i q ha]
      exact Option.some.inj hs

/-- The energy of the loop over the candidates of `non_cache::eval_deriv` is the `this_e`
of the loop of `non_cache::eval`, when the derivative form of the potential table returns
the energy of `eval_fast` as its first component and the two functions find the same value
in a never-assigned `theta`. -/
theorem eval_deriv_candidates_stale_fst (K : decls F) (nc : non_cache F) (m : model F)
    (s1 s2 : Nat → Nat → F) (i : Nat) (adj : vec F)
    (hp : ∀ idx r2 th, (nc.p.eval_deriv idx r2 th).1 = nc.p.eval_fast idx r2 th)
    (hst : ∀ j, non_cache.theta K m i (m.atoms i) (m.grid_atoms j) = none → s1 i j = s2 i j)
    (cands : List Nat) (st : F × vec F) :
    (cands.foldl (non_cache.eval_deriv_candidate_stale K nc m s2 i adj) st).1 =
      cands.foldl (non_cache.eval_candidate_stale K nc m s1 i adj) st.1 := by
  induction cands generalizing st with
  | nil => rfl
  | cons j l ih =>
    simp only [List.foldl_cons]
    rw [ih]
    congr 1
    unfold non_cache.eval_deriv_candidate_stale non_cache.eval_candidate_stale
    have hth : non_cache.theta_read (non_cache.theta K m i (m.atoms i) (m.grid_atoms j)) (s2 i j)
        = non_cache.theta_read (non_cache.theta K m i (m.atoms i) (m.grid_atoms j))
            (s1 i j) := by
      cases h : non_cache.theta K m i (m.atoms i) (m.grid_atoms j) with
      | none => exact (hst j h).symm
      | some th => rfl
    simp only [hth]
    split_ifs
    · rfl
    · simp only [hp]
    · rfl

/-- The energy returned by `non_cache::eval_deriv` is the energy returned by
`non_cache::eval` when the derivative form of the potential table returns the energy of
`eval_fast`, the joint `curl` caps the energy as the scalar one does, and the two functions
find the same value in a never-assigned `theta`: in particular when every `theta` that is
read was assigned. -/
theorem eval_deriv_stale_energy (K : decls F) (nc : non_cache F) (m : model F) (v : F)
    (s1 s2 : Nat → Nat → F)
    (hp : ∀ idx r2 th, (nc.p.eval_deriv idx r2 th).1 = nc.p.eval_fast idx r2 th)
    (hcurl : ∀ (e : F) (d : vec F) (v : F), (K.curl_deriv e d v).1 = K.curl e v)
    (hst : ∀ i j, non_cache.theta K m i (m.atoms i) (m.grid_atoms j) = none →
      s1 i j = s2 i j) :
    (non_cache.eval_deriv_stale K nc m v s2).1 = non_cache.eval_stale K nc m v s1 := by
  have hatom : ∀ i, (non_cache.eval_deriv_atom_stale K nc m v s2 i).1 =
      non_cache.eval_atom_stale K nc m v s1 i := by
    intro i
    unfold non_cache.eval_deriv_atom_stale non_cache.eval_atom_stale
      non_cache.out_of_bounds_penalty
    simp only [(clamp_deriv_eq nc.gd (m.coords i)).1, (clamp_deriv_eq nc.gd (m.coords i)).2,
      hcurl, eval_deriv_candidates_stale_fst K nc m s1 s2 i _ hp (hst i)]
  have hloop : ∀ (l : List Nat) (e : F) (f : Nat → vec F),
      (l.foldl (non_cache.eval_deriv_step_stale K nc v s2)
        (e, { m with minus_forces := f })).1 =
      l.foldl (non_cache.eval_step_stale K nc m v s1) e := by
    intro l
    induction l with
    | nil => intro e f; rfl
    | cons a l ih =>
      intro e f
      simp only [List.foldl_cons]
      have hstep : ∃ f1 : Nat → vec F, non_cache.eval_deriv_step_stale K nc v s2
          (e, { m with minus_forces := f }) a =
          (non_cache.eval_step_stale K nc m v s1 e a, { m with minus_forces := f1 }) := by
        unfold non_cache.eval_deriv_step_stale non_cache.eval_step_stale
        by_cases h1 : K.atom_get (m.atoms a) nc.p.atom_typing_used
            ≥ K.num_atom_types nc.p.atom_typing_used
        · refine ⟨Function.update f a 0, ?_⟩
          simp only [h1, if_true]
          rfl
        · refine ⟨Function.update f a (non_cache.eval_deriv_atom_stale K nc m v s2 a).2, ?_⟩
          simp only [h1, if_false]
          rw [← hatom a]
          rfl
      obtain ⟨f1, hf1⟩ := hstep
      rw [hf1]
      exact ih _ _
  exact hloop (List.range m.num_movable_atoms) 0 m.minus_forces

/-- On a model where `non_cache::eval` returns with every `theta` it reads assigned, and
provided the derivative form of the potential table returns as its first component the
energy of `eval_fast` and the joint `curl` caps the energy as the scalar `curl` does,
`non_cache::eval_deriv` returns as well, with the same energy, and these are the numbers
that the code returns whatever the storage of a never-assigned `theta` holds. -/
theorem eval_deriv_energy_of_assigned (K : decls F) (nc : non_cache F) (m : model F) (v : F)
    (hp : ∀ idx r2 th, (nc.p.eval_deriv idx r2 th).1 = nc.p.eval_fast idx r2 th)
    (hcurl : ∀ (e : F) (d : vec F) (v : F), (K.curl_deriv e d v).1 = K.curl e v)
    (e : F) (h : non_cache.eval K nc m v = some e) :
    ∃ r, non_cache.eval_deriv K nc m v = some r ∧ r.1 = e
      ∧ ∀ s1 s2 : Nat → Nat → F, non_cache.eval_stale K nc m v s1 = e
        ∧ (non_cache.eval_deriv_stale K nc m v s2).1 = e := by
  have h1 : Option.map Prod.fst (non_cache.eval_deriv K nc m v) = non_cache.eval K nc m v := by
    rw [non_cache_eval_deriv_energy, non_cache_eval_eq_sum]
    congr 1
    funext i
    rw [eval_deriv_atom_eq, eval_atom_eq, Option.map_map,
      ← eval_deriv_candidates_fst K nc m i _ hp _ (0, 0), Option.map_map]
    congr 1
    funext r
    simp [hcurl]
  rw [h] at h1
  cases hr : non_cache.eval_deriv K nc m v with
  | none => simp [hr] at h1
  | some r =>
    rw [hr] at h1
    have hre : r.1 = e := Option.some.inj h1
    refine ⟨r, rfl, hre, fun s1 s2 => ⟨eval_stale_of_some K nc m v s1 e h, ?_⟩⟩
    rw [eval_deriv_stale_of_some K nc m v s2 r hr, hre]

/-- C17: the code at the failing input.  `sample.m_unset` has one movable atom of type 1,
not a sulfur, and one in-scheme receptor atom, a sulfur at the squared distance 4, below
the squared cutoff 64; the derivative form of `sample.p` returns the energy of `eval_fast`
and the joint `curl` of `sample.K_wide` caps as the scalar one, so the provisos of the claim
hold.  A sulfur bond is possible for the pair and the movable atom is not the sulfur, so
neither the halogen block nor the sulfur block assigns `theta`, and both functions read it
unassigned.  When the storage of `theta` holds 0 in `non_cache::eval` and 10 in
`non_cache::eval_deriv`, the one returns 5 + 4 + 0 and the other 5 + 4 + 10 as the
energy. -/
theorem eval_deriv_energy_differs :
    (∀ idx r2 th, (sample.nc_unset.p.eval_deriv idx r2 th).1
        = sample.nc_unset.p.eval_fast idx r2 th)
    ∧ (∀ (e : ℤ) (d : vec ℤ) (v : ℤ),
        (sample.K_wide.curl_deriv e d v).1 = sample.K_wide.curl e v)
    ∧ sample.K_wide.xs_sul_bond_possible (sample.m_unset.atoms 0).xs
        (sample.m_unset.grid_atoms 0).xs = true
    ∧ sample.K_wide.xs_is_S (sample.m_unset.atoms 0).xs = false
    ∧ vec_distance_sqr (sample.m_unset.coords 0) (sample.m_unset.grid_atoms 0).coords = 4
    ∧ non_cache.theta sample.K_wide sample.m_unset 0 (sample.m_unset.atoms 0)
        (sample.m_unset.grid_atoms 0) = none
    ∧ non_cache.eval_stale sample.K_wide sample.nc_unset sample.m_unset 1000
        (fun _ _ => 0) = 9
    ∧ (non_cache.eval_deriv_stale sample.K_wide sample.nc_unset sample.m_unset 1000
        (fun _ _ => 10)).1 = 19 := by
  refine ⟨fun _ _ _ => rfl, fun e d v => ?_, by decide, by decide, by decide, by decide,
    by decide, by decide⟩
  show (if e > v then ((v, 0) : ℤ × vec ℤ) else (e, d)).1 = if e > v then v else e
  split_ifs <;> rfl

/-- The loop over the candidates of `non_cache::eval_deriv`, when `theta` is assigned, with
the value `th j`, for each in-scheme candidate `j` within the cutoff: `this_e` grows by the
sum of the energies and `deriv` by the sum of the derivatives times the displacements. -/
theorem eval_deriv_candidates_sum (K : decls F) (nc : non_cache F) (m : model F) (i : Nat)
    (adjusted_a_coords : vec F) (th : Nat → F) (cands : List Nat)
    (hth : ∀ j ∈ cands,
      K.atom_get (m.grid_atoms j) nc.p.atom_typing_used
        < K.num_atom_types nc.p.atom_typing_used →
      vec_distance_sqr adjusted_a_coords (m.grid_atoms j).coords < nc.p.cutoff_sqr →
      non_cache.theta K m i (m.atoms i) (m.grid_atoms j) = some (th j))
    (st : F × vec F) :
    cands.foldlM (non_cache.eval_deriv_candidate K nc m i adjusted_a_coords) st =
      some
        (st.1 + ((cands.filter (fun j =>
            decide (K.atom_get (m.grid_atoms j) nc.p.atom_typing_used
              < K.num_atom_types nc.p.atom_typing_used) &&
            decide (vec_distance_sqr adjusted_a_coords (m.grid_atoms j).coords
              < nc.p.cutoff_sqr))).map
          (fun j => (nc.p.eval_deriv
            (K.get_type_pair_index nc.p.atom_typing_used (m.atoms i) (m.grid_atoms j))
            (vec_distance_sqr adjusted_a_coords (m.grid_atoms j).coords) (th j)).1)).sum,
         st.2 + ((cands.filter (fun j =>
            decide (K.atom_get (m.grid_atoms j) nc.p.atom_typing_used
              < K.num_atom_types nc.p.atom_typing_used) &&
            decide (vec_distance_sqr adjusted_a_coords (m.grid_atoms j).coords
              < nc.p.cutoff_sqr))).map
          (fun j => (nc.p.eval_deriv
            (K.get_type_pair_index nc.p.atom_typing_used (m.atoms i) (m.grid_atoms j))
            (vec_distance_sqr adjusted_a_coords (m.grid_atoms j).coords) (th j)).2 •
              (adjusted_a_coords - (m.grid_atoms j).coords))).sum) := by
  induction cands generalizing st with
  | nil => simp
  | cons j l ih =>
    have ih1 := ih (fun k hk => hth k (List.mem_cons_of_mem _ hk))
    simp only [List.foldlM_cons]
    by_cases hj : K.atom_get (m.grid_atoms j) nc.p.atom_typing_used
        < K.num_atom_types nc.p.atom_typing_used
    · rw [eval_deriv_candidate_eq K nc m i adjusted_a_coords st j hj]
      by_cases hr : vec_distance_sqr adjusted_a_coords (m.grid_atoms j).coords < nc.p.cutoff_sqr
      · rw [if_pos hr, hth j (List.mem_cons_self _ _) hj hr]
        simp only [Option.map_some', Option.bind_eq_bind, Option.some_bind]
        rw [ih1]
        simp [List.filter_cons, hj, hr, add_assoc]
      · rw [if_neg hr]
        simp only [Option.bind_eq_bind, Option.some_bind]
        rw [ih1]
        simp [List.filter_cons, hj, hr]
    · have hskip : non_cache.eval_deriv_candidate K nc m i adjusted_a_coords st j = some st := by
        simp [non_cache.eval_deriv_candidate, Nat.not_lt.mp hj]
      rw [hskip]
      simp only [Option.bind_eq_bind, Option.some_bind]
      rw [ih1]
      simp [List.filter_cons, hj]

/-- The forces of a derivative loop: an atom inside `q` that the loop visits has, after
it, the force of its per-atom term. -/
theorem deriv_loop_written (m : model F) (step : F × model F → Nat → Option (F × model F))
    (q : Nat → Bool) (term : Nat → Option (F × vec F))
    (hstep : ∀ e f i, step (e, { m with minus_forces := f }) i =
      if q i = false then some (e, { m with minus_forces := Function.update f i 0 })
      else match term i with
        | some r => some (e + r.1, { m with minus_forces := Function.update f i r.2 })
        | none => none)
    (k : Nat) (hk : q k = true) (l : List Nat) (e : F) (f : Nat → vec F)
    (h0 : k ∈ l ∨ ∃ t, term k = some t ∧ f k = t.2) (r : F × model F)
    (hr : l.foldlM step (e, { m with minus_forces := f }) = some r) :
    ∃ t, term k = some t ∧ r.2.minus_forces k = t.2 := by
  induction l generalizing e f with
  | nil =>
    simp at hr
    subst hr
    simpa using h0
  | cons a l ih =>
    simp only [List.foldlM_cons, hstep] at hr
    cases hq : q a
    · simp only [hq, if_true] at hr
      have hak : k ≠ a := by rintro rfl; simp [hk] at hq
      refine ih _ _ ?_ hr
      rcases h0 with h0 | ⟨t, h1, h2⟩
      · left; simpa [hak] using h0
      · right; exact ⟨t, h1, by simp [Function.update, hak, h2]⟩
    · simp only [hq] at hr
      cases hta : term a with
      | none => simp [hta] at hr
      | some t =>
        simp only [hta] at hr
        refine ih _ _ ?_ hr
        by_cases hak : k = a
        · right; subst hak; exact ⟨t, hta, by simp⟩
        · rcases h0 with h0 | ⟨t1, h1, h2⟩
          · left; simpa [hak] using h0
          · right; exact ⟨t1, h1, by simp [Function.update, hak, h2]⟩

/-- The out-of-bounds penalty is the slope times the sum of the distances on the three
axes. -/
theorem out_of_bounds_penalty_eq (nc : non_cache F) (a : vec F) :
    non_cache.out_of_bounds_penalty nc a =
      nc.slope * (outside_distance (nc.gd 0) (a 0) + outside_distance (nc.gd 1) (a 1)
        + outside_distance (nc.gd 2) (a 2)) := by
  rw [non_cache.out_of_bounds_penalty, clamp_snd, mul_comm]

/-- Between two coordinates with the same out-of-bounds direction the distance changes by
the direction times the step. -/
theorem outside_distance_same_piece (d : grid_dim F) (x y : F)
    (h : outside_sign d y = outside_sign d x) :
    outside_distance d y = outside_distance d x + outside_sign d x * (y - x) := by
  have hm1 : (-1 : F) < 0 := neg_one_lt_zero
  have h01 : (0 : F) < 1 := zero_lt_one
  unfold outside_sign at h
  unfold outside_distance outside_sign
  by_cases hn : 0 < d.n
  · simp only [hn, if_true] at h ⊢
    by_cases hx : x < d.begin
    · simp only [hx, if_true] at h ⊢
      by_cases hy : y < d.begin
      · simp only [hy, if_true]; ring
      · simp only [hy, if_false] at h
        split_ifs at h
        · exact absurd h (ne_of_gt (lt_trans hm1 h01))
        · exact absurd h (ne_of_gt hm1)
    · simp only [hx, if_false] at h ⊢
      by_cases hx2 : x > d.end_
      · simp only [hx2, if_true] at h ⊢
        by_cases hy : y < d.begin
        · simp only [hy, if_true] at h
          exact absurd h (ne_of_lt (lt_trans hm1 h01))
        · simp only [hy, if_false] at h ⊢
          by_cases hy2 : y > d.end_
          · simp only [hy2, if_true]; ring
          · simp only [hy2, if_false] at h
            exact absurd h (ne_of_lt h01)
      · simp only [hx2, if_false] at h ⊢
        by_cases hy : y < d.begin
        · simp only [hy, if_true] at h
          exact absurd h (ne_of_lt hm1)
        · simp only [hy, if_false] at h ⊢
          by_cases hy2 : y > d.end_
          · simp only [hy2, if_true] at h
            exact absurd h (ne_of_gt h01)
          · simp only [hy2, if_false]; ring
  · simp [hn]

/-- C18. In `non_cache::eval_deriv`, for an in-scheme movable atom `i` (the `theta` of each
candidate that counts being assigned), the vector written to `minus_forces[i]` is the
vector that `curl` returns for the sum of (derivative times pair displacement) over the
candidates inside the cutoff, plus the slope times the vector whose component on the axis
`j` is -1 if the coordinate is below `gd[j].begin`, +1 if it is above `gd[j].end` and 0
otherwise (0 on an axis where `n` is zero).  That out-of-bounds vector is the gradient of
the out-of-bounds penalty: between two positions that differ on the axis `j` only and
have the same direction there, the penalty changes by the component `j` of the vector
times the step. -/
theorem eval_deriv_force (K : decls F) (nc : non_cache F) (m : model F) (v : F) (i : Nat)
    (th : Nat → F) (hi : i < m.num_movable_atoms)
    (hin : K.atom_get (m.atoms i) nc.p.atom_typing_used
      < K.num_atom_types nc.p.atom_typing_used)
    (hth : ∀ j ∈ non_cache.counted K nc m i,
      non_cache.theta K m i (m.atoms i) (m.grid_atoms j) = some (th j)) :
    non_cache.eval_deriv_atom K nc m v i =
      some ((K.curl_deriv (non_cache.energy_sum K nc m i th)
            (non_cache.deriv_sum K nc m i th) v).1
          + non_cache.out_of_bounds_penalty nc (m.coords i),
        (K.curl_deriv (non_cache.energy_sum K nc m i th)
            (non_cache.deriv_sum K nc m i th) v).2
          + nc.slope • (fun j => outside_sign (nc.gd j) (m.coords i j)))
    ∧ (∀ r, non_cache.eval_deriv K nc m v = some r →
        r.2.minus_forces i =
          (K.curl_deriv (non_cache.energy_sum K nc m i th)
              (non_cache.deriv_sum K nc m i th) v).2
            + nc.slope • (fun j => outside_sign (nc.gd j) (m.coords i j)))
    ∧ (∀ (a a1 : vec F) (j : Fin 3), (∀ k, k ≠ j → a1 k = a k) →
        outside_sign (nc.gd j) (a1 j) = outside_sign (nc.gd j) (a j) →
        non_cache.out_of_bounds_penalty nc a1 =
          non_cache.out_of_bounds_penalty nc a
            + (nc.slope • (fun k => outside_sign (nc.gd k) (a k))) j * (a1 j - a j)) := by
  have hatom : non_cache.eval_deriv_atom K nc m v i =
      some ((K.curl_deriv (non_cache.energy_sum K nc m i th)
            (non_cache.deriv_sum K nc m i th) v).1
          + non_cache.out_of_bounds_penalty nc (m.coords i),
        (K.curl_deriv (non_cache.energy_sum K nc m i th)
            (non_cache.deriv_sum K nc m i th) v).2
          + nc.slope • (fun j => outside_sign (nc.gd j) (m.coords i j))) := by
    rw [eval_deriv_atom_eq, clamp_deriv_sign,
      eval_deriv_candidates_sum K nc m i _ th _ ?_ (0, 0)]
    · simp only [Option.map_some', zero_add]
      rfl
    · intro j hj h1 h2
      refine hth j ?_
      unfold non_cache.counted
      rw [List.mem_filter]
      exact ⟨hj, by simp [h1, h2]⟩
  refine ⟨hatom, ?_, ?_⟩
  · intro r hr
    obtain ⟨t, ht1, ht2⟩ := deriv_loop_written m (non_cache.eval_deriv_step K nc v) _ _
      (non_cache_eval_deriv_step_eq K nc m v) i (by simpa using hin)
      (List.range m.num_movable_atoms) 0 m.minus_forces (Or.inl (by simpa using hi)) r hr
    rw [hatom] at ht1
    rw [ht2, ← Option.some.inj ht1]
  · intro a a1 j hsame hsign
    rw [out_of_bounds_penalty_eq, out_of_bounds_penalty_eq]
    have hd := outside_distance_same_piece (nc.gd j) (a j) (a1 j) hsign
    simp only [Pi.smul_apply, smul_eq_mul]
    have hj : j = 0 ∨ j = 1 ∨ j = 2 := by fin_cases j <;> simp
    rcases hj with rfl | rfl | rfl
    · rw [hsame 1 (by decide), hsame 2 (by decide), hd]; ring
    · rw [hsame 0 (by decide), hsame 2 (by decide), hd]; ring
    · rw [hsame 0 (by decide), hsame 1 (by decide), hd]; ring

/-- C18 at the sample configuration: for the atom of `sample.m_out` at `(-10, 0, 0)`, below
the box on the first axis, the one pair gives the derivative 2 times the displacement
`(-1, 0, 0)`, and the force written is `(-2, 0, 0)` plus the slope 1 times
`(-1, 0, 0)`. -/
theorem eval_deriv_force_witness :
    ∃ r, non_cache.eval_deriv sample.K sample.nc_out sample.m_out 1000 = some r
      ∧ r.2.minus_forces 0 = ![-3, 0, 0] :=
  ⟨_, rfl, ((eval_deriv_force sample.K sample.nc_out sample.m_out 1000 0 (fun _ => 180)
    (by decide) (by decide) (by decide)).2.1 _ rfl).trans (by decide)⟩

/-- The shape that `cache::populate` leaves: every requested grid is initialized, and an
initialized grid that was not initialized before is allocated over the `grid_dims` of the
cache. -/
theorem populate_shapes (K : decls F) (c : cache F) (m : model F) (p : precalculate F)
    (L : List Nat) (c1 : cache F) (h : cache.populate K c m p L = some c1) (t : Nat) :
    (t ∈ L → (c1.grids t).initialized = true)
    ∧ ((c1.grids t).initialized = true → (c.grids t).initialized = false →
        (c1.grids t).m_gd = c.gd ∧ (c1.grids t).m_i = K.grid_points (c.gd 0)
          ∧ (c1.grids t).m_j = K.grid_points (c.gd 1)
          ∧ (c1.grids t).m_k = K.grid_points (c.gd 2))
    ∧ ((c.grids t).initialized = true → c1.grids t = c.grids t) := by
  have hspec := (populate_spec K c m p L c1 h).2 t
  refine ⟨fun ht => ?_, fun h1 h0 => ?_, fun h1 => ?_⟩
  · cases hc : (c.grids t).initialized
    · have := (hspec.1 ⟨ht, hc⟩).1
      simp only [grid.shape, grid.init, Prod.mk.injEq] at this
      exact this.1
    · rw [hspec.2 (fun hh => by simp [hc] at hh)]
      exact hc
  · by_cases ht : t ∈ L
    · have := (hspec.1 ⟨ht, h0⟩).1
      simp only [grid.shape, grid.init, Prod.mk.injEq] at this
      exact ⟨this.2.1, this.2.2.1, this.2.2.2.1, this.2.2.2.2⟩
    · rw [hspec.2 (fun hh => ht hh.1)] at h1
      rw [h0] at h1
      exact absurd h1 (by simp)
  · exact hspec.2 (fun hh => by simp [h1] at hh)

/-- C19. Invariant of the grid cache: `every initialized grid is allocated over the
grid_dims of the cache` holds after construction, where no grid is initialized, and is
preserved by `cache::populate`; after `populate(L)` every type in `L` has an initialized
grid, and every grid written in the call has the `grid_dims` of the cache and the extents
that drive the lattice loops.  The call returns when every requested type is inside the
scheme. -/
theorem cache_inv_preserved (K : decls F) (c : cache F) (m : model F) (p : precalculate F)
    (L : List Nat) :
    (∀ (version : String) (gd : grid_dims F) (slope : F) (atu : Nat),
      cache.inv K (cache.ctor version gd slope atu)
      ∧ ∀ t, ((cache.ctor version gd slope atu).grids t).initialized = false)
    ∧ (∀ c1, cache.inv K c → cache.populate K c m p L = some c1 → cache.inv K c1)
    ∧ (∀ c1, cache.populate K c m p L = some c1 →
        ∀ t ∈ L, (c1.grids t).initialized = true)
    ∧ (∀ c1, cache.populate K c m p L = some c1 →
        ∀ t ∈ L, (c.grids t).initialized = false →
          (c1.grids t).m_gd = c.gd ∧ (c1.grids t).m_i = K.grid_points (c.gd 0)
            ∧ (c1.grids t).m_j = K.grid_points (c.gd 1)
            ∧ (c1.grids t).m_k = K.grid_points (c.gd 2))
    ∧ ((∀ t ∈ L, t < K.num_atom_types c.atu) → ∃ c1, cache.populate K c m p L = some c1) := by
  refine ⟨fun version gd slope atu => ⟨fun t ht => ?_, fun t => rfl⟩, ?_, ?_, ?_,
    populate_total K c m p L⟩
  · exact absurd ht (by simp [cache.ctor, grid.empty, grid.initialized])
  · intro c1 hinv h1 t ht
    have hgd : c1.gd = c.gd := (populate_spec K c m p L c1 h1).1.2.1
    rw [hgd]
    cases hc : (c.grids t).initialized
    · exact (populate_shapes K c m p L c1 h1 t).2.1 ht hc
    · rw [(populate_shapes K c m p L c1 h1 t).2.2 hc]
      exact hinv t hc
  · intro c1 h1 t ht
    exact (populate_shapes K c m p L c1 h1 t).1 ht
  · intro c1 h1 t ht hc
    exact (populate_shapes K c m p L c1 h1 t).2.1 ((populate_shapes K c m p L c1 h1 t).1 ht) hc

/-- C19 at the sample configuration: after the request of the types 0 and 1 on a freshly
constructed cache the invariant holds and both grids are initialized. -/
theorem cache_inv_preserved_witness :
    ∃ c1, cache.populate sample.K sample.c0 sample.m sample.p [0, 1] = some c1
      ∧ cache.inv sample.K c1 ∧ (c1.grids 0).initialized = true
      ∧ (c1.grids 1).initialized = true := by
  obtain ⟨c1, h1⟩ :=
    (cache_inv_preserved sample.K sample.c0 sample.m sample.p [0, 1]).2.2.2.2 (by decide)
  exact ⟨c1, h1,
    (cache_inv_preserved sample.K sample.c0 sample.m sample.p [0, 1]).2.1 c1
      ((cache_inv_preserved sample.K sample.c0 sample.m sample.p [0, 1]).1 "v" sample.gd 1 0).1
      h1,
    (cache_inv_preserved sample.K sample.c0 sample.m sample.p [0, 1]).2.2.1 c1 h1 0 (by decide),
    (cache_inv_preserved sample.K sample.c0 sample.m sample.p [0, 1]).2.2.1 c1 h1 1 (by decide)⟩

/-- A sum of terms that are all there is there. -/
theorem sum_terms_total (term : Nat → Option F) (l : List Nat)
    (h : ∀ i ∈ l, ∃ r, term i = some r) : ∃ e, sum_terms term l = some e := by
  unfold sum_terms
  have key : ∀ (l : List Nat) (e0 : F), (∀ i ∈ l, ∃ r, term i = some r) →
      ∃ e, l.foldlM (fun e i => Option.map (fun r => e + r) (term i)) e0 = some e := by
    intro l
    induction l with
    | nil => intro e0 _; exact ⟨e0, rfl⟩
    | cons a l ih =>
      intro e0 hl
      obtain ⟨r, hr⟩ := hl a (List.mem_cons_self _ _)
      obtain ⟨e, he⟩ := ih (e0 + r) (fun i hi => hl i (List.mem_cons_of_mem _ hi))
      exact ⟨e, by simp [List.foldlM_cons, hr, he]⟩
  exact key l 0 h

/-- A derivative loop returns when the per-atom term of each atom inside `q` that it visits
is there. -/
theorem deriv_loop_total (m : model F) (step : F × model F → Nat → Option (F × model F))
    (q : Nat → Bool) (term : Nat → Option (F × vec F))
    (hstep : ∀ e f i, step (e, { m with minus_forces := f }) i =
      if q i = false then some (e, { m with minus_forces := Function.update f i 0 })
      else match term i with
        | some r => some (e + r.1, { m with minus_forces := Function.update f i r.2 })
        | none => none)
    (l : List Nat) (h : ∀ i ∈ l, q i = true → ∃ t, term i = some t) (e : F)
    (f : Nat → vec F) :
    ∃ r, l.foldlM step (e, { m with minus_forces := f }) = some r := by
  induction l generalizing e f with
  | nil => exact ⟨_, rfl⟩
  | cons a l ih =>
    have ih1 := ih (fun i hi => h i (List.mem_cons_of_mem _ hi))
    simp only [List.foldlM_cons, hstep]
    cases hq : q a
    · simp only [if_true, Option.bind_eq_bind, Option.some_bind]
      exact ih1 _ _
    · obtain ⟨t, ht⟩ := h a (List.mem_cons_self _ _) hq
      simp only [Bool.true_eq_false, if_false, ht, Option.bind_eq_bind, Option.some_bind]
      exact ih1 _ _

/-- C20. No uninitialized grid is accessed after a `populate` that covers the model: if
`cache::populate` has returned for a list that contains the type of every in-scheme movable
atom of the model `m`, then `cache::eval` and `cache::eval_deriv` return on `m`, that is,
the assertion `g.initialized()` holds for every grid that is looked up.  An atom of
out-of-scheme type causes no grid lookup: the two functions return the same for any cache
of the same typing and slope that has the same grids for the types inside the scheme. -/
theorem eval_asserts_hold (K : decls F) (c : cache F) (m0 : model F) (p : precalculate F)
    (L : List Nat) (c1 : cache F) (m : model F) (v : F)
    (hpop : cache.populate K c m0 p L = some c1)
    (hcover : ∀ i, i < m.num_movable_atoms →
      K.atom_get (m.atoms i) c.atu < K.num_atom_types c.atu →
      K.atom_get (m.atoms i) c.atu ∈ L) :
    (∃ e, cache.eval K c1 m v = some e)
    ∧ (∃ r, cache.eval_deriv K c1 m v = some r)
    ∧ (∀ c2 : cache F, c2.atu = c1.atu → c2.slope = c1.slope →
        (∀ t, t < K.num_atom_types c1.atu → c2.grids t = c1.grids t) →
        cache.eval K c2 m v = cache.eval K c1 m v
        ∧ cache.eval_deriv K c2 m v = cache.eval_deriv K c1 m v) := by
  have hatu : c1.atu = c.atu := (populate_spec K c m0 p L c1 hpop).1.2.2.2
  have hinit : ∀ i, i < m.num_movable_atoms →
      K.atom_get (m.atoms i) c1.atu < K.num_atom_types c1.atu →
      (c1.grids (K.atom_get (m.atoms i) c1.atu)).initialized = true := by
    intro i hi hin
    rw [hatu] at hin ⊢
    exact (populate_shapes K c m0 p L c1 hpop _).1 (hcover i hi hin)
  refine ⟨?_, ?_, ?_⟩
  · rw [cache_eval_eq_sum]
    refine sum_terms_total _ _ (fun i hi => ?_)
    simp only [in_scheme_movable, List.mem_filter, List.mem_range, decide_eq_true_eq] at hi
    exact ⟨K.grid_evaluate (c1.grids (K.atom_get (m.atoms i) c1.atu)) (m.coords i) c1.slope v,
      by simp [cache.eval_atom, hinit i hi.1 hi.2]⟩
  · refine deriv_loop_total m (cache.eval_deriv_step K c1 v) _ _
      (cache_eval_deriv_step_eq K c1 m v) _ (fun i hi hq => ?_) _ _
    simp only [List.mem_range] at hi
    simp only [decide_eq_true_eq] at hq
    exact ⟨K.grid_evaluate_deriv (c1.grids (K.atom_get (m.atoms i) c1.atu)) (m.coords i)
      c1.slope v, by simp [cache.eval_deriv_atom, hinit i hi hq]⟩
  · intro c2 h2 hs hg
    have hstep : cache.eval_step K c2 m v = cache.eval_step K c1 m v := by
      funext e i
      unfold cache.eval_step cache.eval_atom
      rw [h2, hs]
      by_cases hin : K.atom_get (m.atoms i) c1.atu < K.num_atom_types c1.atu
      · simp only [ge_iff_le, Nat.not_le.mpr hin, if_false, hg _ hin]
      · simp only [ge_iff_le, Nat.not_lt.mp hin, if_true]
    have hdstep : cache.eval_deriv_step K c2 v = cache.eval_deriv_step K c1 v := by
      funext st i
      unfold cache.eval_deriv_step cache.eval_deriv_atom
      rw [h2, hs]
      by_cases hin : K.atom_get (st.2.atoms i) c1.atu < K.num_atom_types c1.atu
      · simp only [ge_iff_le, Nat.not_le.mpr hin, if_false, hg _ hin]
      · simp only [ge_iff_le, Nat.not_lt.mp hin, if_true]
    exact ⟨by unfold cache.eval; rw [hstep], by unfold cache.eval_deriv; rw [hdstep]⟩

/-- C20 at the sample configuration: after the request of the type 0, the type of the one
in-scheme movable atom of `sample.m`, both evaluators return. -/
theorem eval_asserts_hold_witness :
    ∃ c1, cache.populate sample.K sample.c0 sample.m sample.p [0] = some c1
      ∧ (∃ e, cache.eval sample.K c1 sample.m 1000 = some e)
      ∧ (∃ r, cache.eval_deriv sample.K c1 sample.m 1000 = some r) := by
  obtain ⟨c1, h1⟩ := populate_total sample.K sample.c0 sample.m sample.p [0] (by decide)
  have h := eval_asserts_hold sample.K sample.c0 sample.m sample.p [0] c1 sample.m 1000 h1
    (by decide)
  exact ⟨c1, h1, h.1, h.2.1⟩

/-- How `cache::load` ends: either it throws and the cache is the one before the call, or
it returns, the archive starts with a version, a `grid_dims`, an atom typing and a vector
of grids, the three checks have passed, and only the grids of the cache are replaced. -/
theorem load_cases (K : decls F) (c : cache F) (ar : archive F) :
    ((∃ e, (cache.load K c ar).1 = Except.error e) ∧ (cache.load K c ar).2 = c)
    ∨ ((cache.load K c ar).1 = Except.ok ()
      ∧ ∃ name_tmp gd_tmp atu_tmp grids_tmp rest,
          ar = archive_item.str name_tmp :: archive_item.dims gd_tmp ::
            archive_item.typing atu_tmp :: archive_item.grid_vector grids_tmp :: rest
          ∧ name_tmp = c.scoring_function_version ∧ K.eq gd_tmp c.gd = true
          ∧ atu_tmp = c.atu
          ∧ (cache.load K c ar).2 = { c with grids := grids_tmp }) := by
  have herr : ∀ e : load_error,
      (∃ e1, ((Except.error e, c) : Except load_error Unit × cache F).1 = Except.error e1)
        ∧ ((Except.error e, c) : Except load_error Unit × cache F).2 = c :=
    fun e => ⟨⟨e, rfl⟩, rfl⟩
  cases ar with
  | nil => exact Or.inl (herr _)
  | cons x0 ar1 =>
    cases x0 with
    | dims _ => exact Or.inl (herr _)
    | typing _ => exact Or.inl (herr _)
    | grid_vector _ => exact Or.inl (herr _)
    | str name_tmp =>
      by_cases h1 : name_tmp = c.scoring_function_version
      · cases ar1 with
        | nil => left; simp [cache.load, h1]
        | cons x1 ar2 =>
          cases x1 with
          | str _ => left; simp [cache.load, h1]
          | typing _ => left; simp [cache.load, h1]
          | grid_vector _ => left; simp [cache.load, h1]
          | dims gd_tmp =>
            cases h2 : K.eq gd_tmp c.gd
            · left
              simp [cache.load, h1, h2]
            · cases ar2 with
              | nil => left; simp [cache.load, h1, h2]
              | cons x2 ar3 =>
                cases x2 with
                | str _ => left; simp [cache.load, h1, h2]
                | dims _ => left; simp [cache.load, h1, h2]
                | grid_vector _ => left; simp [cache.load, h1, h2]
                | typing atu_tmp =>
                  by_cases h3 : atu_tmp = c.atu
                  · cases ar3 with
                    | nil => left; simp [cache.load, h1, h2, h3]
                    | cons x3 ar4 =>
                      cases x3 with
                      | str _ => left; simp [cache.load, h1, h2, h3]
                      | dims _ => left; simp [cache.load, h1, h2, h3]
                      | typing _ => left; simp [cache.load, h1, h2, h3]
                      | grid_vector grids_tmp =>
                        right
                        refine ⟨?_, name_tmp, gd_tmp, atu_tmp, grids_tmp, ar4, rfl, h1, h2,
                          h3, ?_⟩
                        · simp [cache.load, h1, h2, h3]
                        · simp [cache.load, h1, h2, h3]
                  · left
                    simp [cache.load, h1, h2, h3]
      · left
        simp [cache.load, h1]

/-- C21. `cache::load` is atomic on failure: whenever it throws, with `energy_mismatch`,
`grid_dims_mismatch` or `cache_mismatch` in particular, the cache is what it was before
the call, so its grids, version tag, `grid_dims` and atom typing are.  The grids are read
from the archive only after the three checks have passed: when the grids of the cache
differ after the call, the call has returned, the archived version and atom typing are
those of the cache and `eq` accepts the archived `grid_dims`. -/
theorem load_atomic_on_failure (K : decls F) (c : cache F) (ar : archive F) :
    (∀ e, (cache.load K c ar).1 = Except.error e → (cache.load K c ar).2 = c)
    ∧ ((cache.load K c ar).1 = Except.error load_error.energy_mismatch
        ∨ (cache.load K c ar).1 = Except.error load_error.grid_dims_mismatch
        ∨ (cache.load K c ar).1 = Except.error load_error.cache_mismatch →
      (cache.load K c ar).2.grids = c.grids
      ∧ (cache.load K c ar).2.scoring_function_version = c.scoring_function_version
      ∧ (cache.load K c ar).2.gd = c.gd ∧ (cache.load K c ar).2.atu = c.atu
      ∧ (cache.load K c ar).2.slope = c.slope)
    ∧ ((cache.load K c ar).2.grids ≠ c.grids →
      (cache.load K c ar).1 = Except.ok ()
      ∧ ∃ name_tmp gd_tmp atu_tmp grids_tmp rest,
          ar = archive_item.str name_tmp :: archive_item.dims gd_tmp ::
            archive_item.typing atu_tmp :: archive_item.grid_vector grids_tmp :: rest
          ∧ name_tmp = c.scoring_function_version ∧ K.eq gd_tmp c.gd = true
          ∧ atu_tmp = c.atu ∧ (cache.load K c ar).2.grids = grids_tmp) := by
  have hfail : ∀ e, (cache.load K c ar).1 = Except.error e → (cache.load K c ar).2 = c := by
    intro e he
    rcases load_cases K c ar with h | h
    · exact h.2
    · rw [h.1] at he
      exact absurd he (by simp)
  refine ⟨hfail, fun h => ?_, fun hne => ?_⟩
  · have hc : (cache.load K c ar).2 = c := by
      rcases h with h | h | h
      · exact hfail _ h
      · exact hfail _ h
      · exact hfail _ h
    rw [hc]
    exact ⟨rfl, rfl, rfl, rfl, rfl⟩
  · rcases load_cases K c ar with h | h
    · rw [h.2] at hne
      exact absurd rfl hne
    · obtain ⟨hok, n, g, a, gs, rest, har, h1, h2, h3, h4⟩ := h
      exact ⟨hok, n, g, a, gs, rest, har, h1, h2, h3, by rw [h4]⟩

/-- C21 at the sample configuration: a cache constructed with the version "w" refuses the
archive of the cache of version "v", and is after the call what it was before it. -/
theorem load_atomic_on_failure_witness :
    (cache.load sample.K (cache.ctor "w" sample.gd 1 0) (cache.save sample.c_ready [])).2 =
      cache.ctor "w" sample.gd 1 0 :=
  (load_atomic_on_failure sample.K (cache.ctor "w" sample.gd 1 0)
    (cache.save sample.c_ready [])).1 load_error.energy_mismatch rfl

end claims
